import Mathlib

/-!
# Verification of the 2-SAT solver in `src/main.py`

Shallow embedding of the solver: the `Literal` objects of the Python code
are represented by their (string) names, a graph's literal list becomes a
list of names plus parallel arrays for the per-object mutable fields
(`neighbours`, `d`, `f`, `color`, `parent`, `checked`), indexed by the
position of the literal in the list, exactly as the objects are positioned
in `Implication_Graph.literals`.  Strings are modelled as `List Char`.
Recursive DFS is modelled with explicit fuel; the pipeline invokes it with
fuel larger than the node count, which is shown sufficient where needed.
-/

namespace TwoSat

/-- Names of literals: Python strings, modelled as lists of characters. -/
abbrev Name := List Char

/-- `s.replace("--", "")` from `Literal.__init__` (src/main.py line 7):
left-to-right removal of non-overlapping occurrences of `"--"`. -/
def stripDD : Name → Name
  | '-' :: '-' :: rest => stripDD rest
  | c :: rest => c :: stripDD rest
  | [] => []

/-- A name free of the substring `"--"` (no two consecutive dashes). -/
def noDD : Name → Bool
  | '-' :: '-' :: _ => false
  | _ :: rest => noDD rest
  | [] => true

/-- `Literal.get_negation` (src/main.py lines 16-18): the literal named
`"-" + name`, with the constructor's `"--"` stripping applied. -/
def get_negation (n : Name) : Name := stripDD ('-' :: n)

/-- Python dict as an insertion-ordered association list:
`d[k] = v` overwrites in place or appends. -/
def dictSet (d : List (Name × Option Bool)) (k : Name) (v : Option Bool) :
    List (Name × Option Bool) :=
  match d with
  | [] => [(k, v)]
  | (k0, v0) :: rest =>
      if k0 = k then (k0, v) :: rest else (k0, v0) :: dictSet rest k v

/-- Python dict lookup (`d[k]`); `none` plays the role of a missing key,
which in the pipeline never occurs at the use sites. -/
def dictGet (d : List (Name × Option Bool)) (k : Name) : Option (Option Bool) :=
  match d with
  | [] => none
  | (k0, v0) :: rest => if k0 = k then some v0 else dictGet rest k

/-- DFS colours.  The Python code uses the strings `"white"`, `"grey"`,
`"BLACK"`; only equality with `"white"` is ever tested. -/
inductive Col where
  | white
  | grey
  | black
deriving DecidableEq, Repr

/-- `Implication_Graph` (src/main.py lines 33-156) together with the
per-`Literal` mutable fields, transposed into parallel arrays indexed by
the literal's position in `self.literals`. -/
structure Implication_Graph where
  names : List Name               -- literals[i].name
  adj : List (List Nat)           -- literals[i].neighbours, as indices
  bindings : List (Name × Option Bool)
  d : List (Option Int)           -- literals[i].d
  f : List (Option Int)           -- literals[i].f
  color : List (Option Col)       -- literals[i].color (None before dfs_init)
  parent : List (Option Nat)      -- literals[i].parent
  checked : List Bool             -- literals[i].checked
  dfs_time : Int
  dfs_topo_sorted : List Nat
deriving DecidableEq, Repr

namespace Implication_Graph

/-- `Implication_Graph.__init__` (lines 35-39). -/
def empty : Implication_Graph :=
  ⟨[], [], [], [], [], [], [], [], -1, []⟩

/-- Index of the first name equal to `nm`, if any. -/
def idxOf (nm : Name) : List Name → Option Nat
  | [] => none
  | x :: xs => if x = nm then some 0 else (idxOf nm xs).map (· + 1)

/-- `get_literal_id` (lines 41-46): first index whose name matches, else `-1`. -/
def get_literal_id (g : Implication_Graph) (nm : Name) : Int :=
  match idxOf nm g.names with
  | some i => (i : Int)
  | none => -1

/-- `literal in self` (`__contains__`, lines 82-86): membership by name. -/
def containsName (g : Implication_Graph) (nm : Name) : Bool :=
  decide (nm ∈ g.names)

/-- `add_literal` (lines 48-55): re-constructs the literal (stripping
`"--"`), and if its name is absent appends it and its negation, giving both
a `None` binding. -/
def add_literal (g : Implication_Graph) (raw : Name) : Implication_Graph :=
  let nm := stripDD raw
  if nm ∈ g.names then g
  else
    let ng := get_negation nm
    { g with
      names := g.names ++ [nm, ng]
      adj := g.adj ++ [[], []]
      d := g.d ++ [none, none]
      f := g.f ++ [none, none]
      color := g.color ++ [none, none]
      parent := g.parent ++ [none, none]
      checked := g.checked ++ [false, false]
      bindings := dictSet (dictSet g.bindings nm none) ng none }

/-- `add_forced` (lines 57-60): never invoked by `main`; binds the literal's
name to `True` and its negation to `False`. -/
def add_forced (g : Implication_Graph) (nm : Name) : Implication_Graph :=
  { g with bindings := dictSet (dictSet g.bindings nm (some true))
                         (get_negation nm) (some false) }

/-- `add_implication` (lines 62-68): looks both names up and appends the
edge only when both are present and distinct; otherwise silently returns
the graph unchanged (despite the docstring announcing a RuntimeError). -/
def add_implication (g : Implication_Graph) (nm1 nm2 : Name) : Implication_Graph :=
  let i1 := g.get_literal_id nm1
  let i2 := g.get_literal_id nm2
  if 0 ≤ i1 ∧ 0 ≤ i2 ∧ i1 ≠ i2 then
    { g with adj := g.adj.modify (fun l => l ++ [i2.toNat]) i1.toNat }
  else g

/-- `dfs_init` (lines 97-102): every literal becomes white and parentless,
time restarts at 0.  `d`, `f`, `checked`, `dfs_topo_sorted` are NOT reset. -/
def dfs_init (g : Implication_Graph) : Implication_Graph :=
  { g with
    color := g.names.map (fun _ => some Col.white)
    parent := g.names.map (fun _ => none)
    dfs_time := 0 }

/-- One iteration of the `for v in lt.neighbours` loop of `dfs_visit`
(lines 149-152): a still-white neighbour gets `u` as parent and is visited
by `visit` (the recursive call at the remaining fuel). -/
def visit_step (visit : Implication_Graph → Nat → Implication_Graph) (u : Nat)
    (gc : Implication_Graph) (v : Nat) : Implication_Graph :=
  if gc.color.getD v none = some Col.white then
    visit { gc with parent := gc.parent.set v (some u) } v
  else gc

/-- `dfs_visit` (lines 145-156), with explicit fuel standing for the Python
recursion (the pipeline passes fuel exceeding the node count, which bounds
the recursion depth, so the fuel-exhausted branch is never taken there).
Discovery: time+1, grey; then the neighbour loop; finally black, time+1,
finish, appended to `dfs_topo_sorted`. -/
def dfs_visit : Nat → Implication_Graph → Nat → Implication_Graph
  | 0, g, _ => g
  | fuel + 1, g, u =>
    let g1 := { g with dfs_time := g.dfs_time + 1 }
    let g2 := { g1 with d := g1.d.set u (some g1.dfs_time) }
    let g3 := { g2 with color := g2.color.set u (some Col.grey) }
    let g4 := (g3.adj.getD u []).foldl (visit_step (dfs_visit fuel) u) g3
    let g5 := { g4 with color := g4.color.set u (some Col.black) }
    let g6 := { g5 with dfs_time := g5.dfs_time + 1 }
    let g7 := { g6 with f := g6.f.set u (some g6.dfs_time) }
    { g7 with dfs_topo_sorted := g7.dfs_topo_sorted ++ [u] }

/-- The neighbour loop as a standalone function (for reasoning). -/
def visit_fold (fuel : Nat) (u : Nat) (l : List Nat) (g : Implication_Graph) :
    Implication_Graph :=
  l.foldl (visit_step (dfs_visit fuel) u) g

/-- One iteration of the sweep loops (lines 113-116 and 127-129). -/
def sweep_step (fuel : Nat) (p : Implication_Graph × List Nat) (i : Nat) :
    Implication_Graph × List Nat :=
  if p.1.color.getD i none = some Col.white then
    (dfs_visit fuel p.1 i, p.2 ++ [i])
  else p

/-- The common sweep of `dfs_first`/`dfs_second` (lines 113-116 and
127-129): visit every still-white literal in list order, collecting the
roots so visited. -/
def dfs_sweep (fuel : Nat) (g : Implication_Graph) : Implication_Graph × List Nat :=
  (List.range g.names.length).foldl (sweep_step fuel) (g, [])

/-- Python `self.literals[i]` for an `int` index that may be `-1` (the
not-found result of `get_literal_id`): index `-1` selects the LAST element.
(On an empty list Python would raise; the pipeline never indexes an empty
list, and the model returns index 0 there.) -/
def pyIndex (g : Implication_Graph) (i : Int) : Nat :=
  if 0 ≤ i then i.toNat else g.names.length - 1

/-- `dfs_first` (lines 105-118).  `start` given and non-empty (Python
truthiness of a string) is visited first and recorded; `main` only calls
it with `start=None`.  Returns the updated graph and the visited roots as
indices (the Python return mixes the start NAME with literal objects; only
the no-start form feeds the pipeline). -/
def dfs_first (fuel : Nat) (g : Implication_Graph) (start : Option Name) :
    Implication_Graph × List Nat :=
  match start with
  | some s =>
    if s = [] then dfs_sweep fuel g
    else
      let i := pyIndex g (g.get_literal_id s)
      let g1 := dfs_visit fuel g i
      let r := dfs_sweep fuel g1
      (r.1, i :: r.2)
  | none => dfs_sweep fuel g

/-- The `while cur_elem:` walk of `dfs_second` (lines 136-140): append the
node, mark it checked, move to its parent.  Fueled; parent chains strictly
decrease in discovery time, so fuel beyond the node count suffices. -/
def chain_walk : Nat → Implication_Graph → Option Nat → Implication_Graph × List Nat
  | 0, g, _ => (g, [])
  | _ + 1, g, none => (g, [])
  | fuel + 1, g, some c =>
    let g1 := { g with checked := g.checked.set c true }
    let r := chain_walk fuel g1 (g1.parent.getD c none)
    (r.1, c :: r.2)

/-- One iteration of the SCC-recovery loop (lines 132-142). -/
def recovery_step (p : Implication_Graph × List (List Nat)) (e : Nat) :
    Implication_Graph × List (List Nat) :=
  if p.1.checked.getD e false = false then
    let g1 := { p.1 with checked := p.1.checked.set e true }
    let r := chain_walk (g1.names.length + 1) g1 (some e)
    (r.1, p.2 ++ [r.2])
  else p

/-- The SCC-recovery loop of `dfs_second` (lines 131-143): walk
`dfs_topo_sorted`; each still-unchecked element is marked and its full
parent chain collected as one component. -/
def recovery (g : Implication_Graph) : Implication_Graph × List (List Nat) :=
  g.dfs_topo_sorted.foldl recovery_step (g, [])

/-- `dfs_second` (lines 120-143): optional start visit, sweep of remaining
white literals, then recovery of components from the accumulated
`dfs_topo_sorted`. -/
def dfs_second (fuel : Nat) (g : Implication_Graph) (start : Option Name) :
    Implication_Graph × List (List Nat) :=
  let g1 := match start with
    | some s =>
      if s = [] then g
      else dfs_visit fuel g (pyIndex g (g.get_literal_id s))
    | none => g
  recovery (dfs_sweep fuel g1).1

end Implication_Graph

/-- The two RuntimeErrors of the clause loop (lines 186-190). -/
inductive BuildErr where
  | tooManyLiterals   -- "Program does not support clauses with more than two literals."
  | onlyTwoSat        -- "Program only supports 2-SAT clauses."
deriving DecidableEq, Repr

/-- The construction state of `main`'s reading loop: the two graphs and
`current_clause` (as the names of the appended `Literal` objects). -/
structure BuildSt where
  G : Implication_Graph
  Ginv : Implication_Graph
  cur : List Name
deriving DecidableEq, Repr

/-- One token of the clause section (lines 183-205).  A literal token is
constructed (stripping `"--"`), added to both graphs and to the current
clause; the sentinel `"0"` applies the clause: more than two literals or
exactly one literal raise, two literals add the four implications, zero
literals just reset. -/
def buildStep (s : BuildSt) (tok : Name) : Except BuildErr BuildSt :=
  if tok = ['0'] then
    match s.cur with
    | [] => .ok { s with cur := [] }
    | [_] => .error .onlyTwoSat
    | [a, b] =>
      let G := (s.G.add_implication (get_negation a) b).add_implication (get_negation b) a
      let Ginv := (s.Ginv.add_implication b (get_negation a)).add_implication a (get_negation b)
      .ok { G := G, Ginv := Ginv, cur := [] }
    | _ => .error .tooManyLiterals
  else
    let nm := stripDD tok
    .ok { G := s.G.add_literal nm, Ginv := s.Ginv.add_literal nm,
          cur := s.cur ++ [nm] }

/-- The whole clause-reading loop over a token stream (preamble parsing is
out of scope; the stream is the sequence of whitespace tokens after the
`p cnf` line). -/
def buildGraphs (toks : List Name) : Except BuildErr BuildSt :=
  toks.foldlM buildStep ⟨.empty, .empty, []⟩

/-- `lt.name[0] == "-"` (lines 232, 248, 261); on the empty name Python
would raise IndexError (no verdict), the model answers `false`. -/
def startsDash : Name → Bool
  | '-' :: _ => true
  | _ => false

/-- Python string `<=`: lexicographic comparison by code point, used by
`variables.sort()` (line 253). -/
def nameLe : Name → Name → Bool
  | [], _ => true
  | _ :: _, [] => false
  | a :: as, b :: bs => if a = b then nameLe as bs else decide (a < b)

/-- Insertion into a `nameLe`-sorted list. -/
def insertSorted (x : Name) : List Name → List Name
  | [] => [x]
  | y :: ys => if nameLe x y then x :: y :: ys else y :: insertSorted x ys

/-- `variables.sort()` (line 253): stable sort under `nameLe` (the
variable list holds distinct names, so any sorting algorithm yields the
same list Python's sort does). -/
def sortNames (l : List Name) : List Name := l.foldr insertSorted []

/-- The conflict scan of one SCC (lines 229-241): literals are appended to
a positive or negative list by leading dash, and after each append the
literal's negation is looked up in the OPPOSITE list; a hit means
UNSATISFIABLE. -/
def sccClashAux (gi : Implication_Graph) : List Nat → List Name → List Name → Bool
  | [], _, _ => false
  | u :: rest, pos, neg =>
    let nm := gi.names.getD u []
    if startsDash nm then
      if get_negation nm ∈ pos then true
      else sccClashAux gi rest pos (neg ++ [nm])
    else
      if get_negation nm ∈ neg then true
      else sccClashAux gi rest (pos ++ [nm]) neg

/-- Whether one SCC exhibits a variable together with its negation. -/
def sccClash (gi : Implication_Graph) (scc : List Nat) : Bool :=
  sccClashAux gi scc [] []

/-- Lines 244-252: build the `bindings` dict (all `None`) and the
`variables` list (first-occurrence order, later sorted) from `G.literals`. -/
def collectVars (g : Implication_Graph) : List (Name × Option Bool) × List Name :=
  g.names.foldl
    (fun p nm =>
      let v := if startsDash nm then get_negation nm else nm
      let b := dictSet p.1 v none
      if v ∈ p.2 then (b, p.2) else (b, p.2 ++ [v]))
    ([], [])

/-- One iteration of the override loop (lines 258-265): the first
assignment of a variable wins (`if bindings[variable] is None`); a positive
literal gives `True`, a negated one `False`. -/
def override_step (gi : Implication_Graph) (b : List (Name × Option Bool))
    (u : Nat) : List (Name × Option Bool) :=
  let nm := gi.names.getD u []
  let v := if startsDash nm then get_negation nm else nm
  let val := !(startsDash nm)
  match dictGet b v with
  | some none => dictSet b v (some val)
  | _ => b

/-- The inner override loop over one SCC (lines 258-265). -/
def overrideChain (gi : Implication_Graph) (b : List (Name × Option Bool))
    (scc : List Nat) : List (Name × Option Bool) :=
  scc.foldl (override_step gi) b

/-- The verdict and, when satisfiable, the final `bindings` dict and the
sorted `variables` list that drive the printed report. -/
inductive Output where
  | unsat
  | sat (bindings : List (Name × Option Bool)) (varNames : List Name)
deriving DecidableEq, Repr

/-- One iteration of the `sccs` loop of `main` (lines 221-226): look the
pass-1 root's name up in the transpose graph; if that node is still white,
run `dfs_second` from it and append the returned components. -/
def scc_step (G1 : Implication_Graph) (p : Implication_Graph × List (List Nat))
    (u : Nat) : Implication_Graph × List (List Nat) :=
  let nm := G1.names.getD u []
  let idx := p.1.pyIndex (p.1.get_literal_id nm)
  if p.1.color.getD idx none = some Col.white then
    let r := Implication_Graph.dfs_second (p.1.names.length + 1) p.1
      (some (p.1.names.getD idx []))
    (r.1, p.2 ++ r.2)
  else p

/-- Lines 217-226 of `main` as one function: init both graphs, pass-1 DFS
over `G`, then the `sccs` loop over the pass-1 roots. -/
def pipeline (G0 Ginv0 : Implication_Graph) :
    Implication_Graph × Implication_Graph × List Nat × List (List Nat) :=
  let G := G0.dfs_init
  let Ginv := Ginv0.dfs_init
  let r1 := Implication_Graph.dfs_first (G.names.length + 1) G none
  let r2 := r1.2.foldl (scc_step r1.1) (Ginv, [])
  (r1.1, r2.1, r1.2, r2.2)

/-- Lines 217-272 of `main` after the graphs are built: the pipeline, the
SCC conflict check, and (when satisfiable) variable collection and the
reverse-order override. -/
def solve (G0 Ginv0 : Implication_Graph) : Output :=
  let p := pipeline G0 Ginv0
  let G1 := p.1
  let Ginv1 := p.2.1
  let sccs := p.2.2.2
  if sccs.any (fun scc => sccClash Ginv1 scc) then Output.unsat
  else
    let cv := collectVars G1
    let varNames := sortNames cv.2
    let bindings := sccs.reverse.foldl (fun b scc => overrideChain Ginv1 b scc) cv.1
    Output.sat bindings varNames

/-- The whole program on a token stream: build both graphs, then solve. -/
def runSolver (toks : List Name) : Except BuildErr Output :=
  (buildGraphs toks).map (fun s => solve s.G s.Ginv)

/-- Truthiness of `bindings[var]` as printed (line 268): only an actual
`True` prints `1`; `None` and `False` print `0`. -/
def truthy : Option (Option Bool) → Bool
  | some (some true) => true
  | _ => false

/-- The produced variable-to-boolean binding, as printed. -/
def bindingOf (b : List (Name × Option Bool)) (v : Name) : Bool :=
  truthy (dictGet b v)

/-- The clauses of the input stream: maximal runs of literal tokens
(names as constructed, i.e. stripped) closed by a `"0"` sentinel; a
trailing unterminated run is not a clause. -/
def clausesOf (toks : List Name) : List (List Name) :=
  (toks.foldl
    (fun (p : List (List Name) × List Name) t =>
      if t = ['0'] then (p.1 ++ [p.2], [])
      else (p.1, p.2 ++ [stripDD t])) ([], [])).1

/-- Truth of one clause literal under a variable binding: a literal with a
leading dash is true when its (negation-named) variable is false. -/
def evalLit (b : Name → Bool) (l : Name) : Bool :=
  if startsDash l then !(b (get_negation l)) else b l

/-- A clause is satisfied when at least one of its literals is true. -/
def clauseSat (b : Name → Bool) (cl : List Name) : Bool :=
  cl.any (evalLit b)

/-- The reading loop from an arbitrary intermediate state. -/
def processFrom (s : BuildSt) (toks : List Name) : Except BuildErr BuildSt :=
  toks.foldlM buildStep s

/-- The pipeline observables of a token stream: the traversed forward
graph, the traversed transpose graph, the pass-1 root list and the SCC
list (dummy empties when construction raises). -/
def pipelineOf (toks : List Name) :
    Implication_Graph × Implication_Graph × List Nat × List (List Nat) :=
  match buildGraphs toks with
  | .ok s => pipeline s.G s.Ginv
  | .error _ => (.empty, .empty, [], [])

/-- The pipeline observables of tokens `1 1 0 1 2 0` (clauses (1 or 1),
(1 or 2)); helper for the C2 counter-evidence. -/
def c2pipe : Implication_Graph × Implication_Graph × List Nat × List (List Nat) :=
  pipelineOf [['1'], ['1'], ['0'], ['1'], ['2'], ['0']]

/-- The pipeline observables of tokens `1 2 0` (single clause (1 or 2));
helper for the C4 counter-evidence. -/
def c4pipe : Implication_Graph × Implication_Graph × List Nat × List (List Nat) :=
  pipelineOf [['1'], ['2'], ['0']]

/-- The successful construction state of a token stream (dummy empty state
when construction raises). -/
def builtOf (toks : List Name) : BuildSt :=
  match buildGraphs toks with
  | .ok s => s
  | .error _ => ⟨.empty, .empty, []⟩

/-- The catalog invariant: every registered name is dash-square-free and
its negation is registered too. -/
def goodNames (g : Implication_Graph) : Prop :=
  ∀ nm ∈ g.names, noDD nm = true ∧ get_negation nm ∈ g.names

/-- The fields of a graph that no DFS traversal ever touches. -/
def dfsFrame (g1 g2 : Implication_Graph) : Prop :=
  g1.names = g2.names ∧ g1.adj = g2.adj ∧ g1.bindings = g2.bindings ∧
    g1.checked = g2.checked

/-- The fields the chain walk and recovery never touch (everything except
`checked`). -/
def walkFrame (g1 g2 : Implication_Graph) : Prop :=
  g1.names = g2.names ∧ g1.adj = g2.adj ∧ g1.bindings = g2.bindings ∧
    g1.d = g2.d ∧ g1.f = g2.f ∧ g1.color = g2.color ∧ g1.parent = g2.parent ∧
    g1.dfs_time = g2.dfs_time ∧ g1.dfs_topo_sorted = g2.dfs_topo_sorted


/-- Number of still-white literals (the DFS recursion-depth measure). -/
def whites (g : Implication_Graph) : Nat :=
  g.color.countP (fun c => decide (c = some Col.white))

/-- What one completed DFS visit guarantees relative to the state it
started from: the grey set is unchanged, black nodes stay black, the white
count does not grow, the colour array keeps its length, the finish list
only grows at the end, and the "every black node is finished" invariant is
preserved. -/
def visitPost (g g2 : Implication_Graph) : Prop :=
  (∀ i, g2.color.getD i none = some Col.grey ↔ g.color.getD i none = some Col.grey) ∧
  (∀ i, g.color.getD i none = some Col.black → g2.color.getD i none = some Col.black) ∧
  (∀ i, g2.color.getD i none = some Col.white → g.color.getD i none = some Col.white) ∧
  (∀ i, g2.color.getD i none = none → g.color.getD i none = none) ∧
  whites g2 ≤ whites g ∧
  g2.color.length = g.color.length ∧
  (∃ l, g2.dfs_topo_sorted = g.dfs_topo_sorted ++ l) ∧
  ((∀ i, g.color.getD i none = some Col.black → i ∈ g.dfs_topo_sorted) →
    ∀ i, g2.color.getD i none = some Col.black → i ∈ g2.dfs_topo_sorted)

/-- Invariant of the `sccs` loop state: fixed catalog, colour array in
range, only white/black colours (no mid-visit greys survive), every black
literal finished, every claimed literal covered by an emitted component. -/
def sccInv (N : List Name) (p : Implication_Graph × List (List Nat)) : Prop :=
  p.1.names = N ∧
  p.1.color.length = p.1.names.length ∧
  (∀ i < p.1.names.length,
    p.1.color.getD i none = some Col.white ∨ p.1.color.getD i none = some Col.black) ∧
  (∀ i, p.1.color.getD i none = some Col.black → i ∈ p.1.dfs_topo_sorted) ∧
  (∀ i, p.1.checked.getD i false = true → ∃ c ∈ p.2, i ∈ c)

/-- Every literal index is covered by an emitted component. -/
def allCov (p : Implication_Graph × List (List Nat)) : Prop :=
  ∀ i < p.1.names.length, ∃ c ∈ p.2, i ∈ c

/-- The construction invariant used by the solver phase: duplicate-free
catalogs, negation-closure, equal catalogs, and untouched traversal state. -/
def builtInv (s : BuildSt) : Prop :=
  goodNames s.G ∧ s.G.names.Nodup ∧ s.G.names = s.Ginv.names ∧
    (∀ b ∈ s.Ginv.checked, b = false)

/-- `a` lies on the parent chain of `b`: `a` is `b` itself or is reached
from `b` by following `parent` pointers upwards. -/
inductive PAnc (g : Implication_Graph) : Nat → Nat → Prop where
  | refl (i : Nat) : PAnc g i i
  | step {a p b : Nat} (h1 : PAnc g a p)
      (h2 : g.parent.getD b none = some p) : PAnc g a b

/-- The full DFS state invariant: array lengths, colour/timestamp
consistency, timestamp injectivity, parent-chain time ordering, the
parenthesis (interval nesting) property, linearity of the grey stack,
the edge classification of finished literals, and the finish list being
exactly the black literals in increasing finish order. -/
structure DfsInv (g : Implication_Graph) : Prop where
  len_color : g.color.length = g.names.length
  len_d : g.d.length = g.names.length
  len_f : g.f.length = g.names.length
  len_parent : g.parent.length = g.names.length
  adj_lt : ∀ i, ∀ j ∈ g.adj.getD i [], j < g.names.length
  time0 : 0 ≤ g.dfs_time
  col_some : ∀ i, i < g.names.length → g.color.getD i none ≠ none
  white_d : ∀ i, g.color.getD i none = some Col.white → g.d.getD i none = none
  white_f : ∀ i, g.color.getD i none = some Col.white → g.f.getD i none = none
  grey_d : ∀ i, g.color.getD i none = some Col.grey →
    ∃ t, g.d.getD i none = some t
  grey_f : ∀ i, g.color.getD i none = some Col.grey → g.f.getD i none = none
  black_d : ∀ i, g.color.getD i none = some Col.black →
    ∃ t, g.d.getD i none = some t
  black_f : ∀ i, g.color.getD i none = some Col.black →
    ∃ t, g.f.getD i none = some t
  d_pos : ∀ i t, g.d.getD i none = some t → 0 < t ∧ t ≤ g.dfs_time
  f_pos : ∀ i t, g.f.getD i none = some t → 0 < t ∧ t ≤ g.dfs_time
  df_lt : ∀ i td tf, g.d.getD i none = some td → g.f.getD i none = some tf →
    td < tf
  d_inj : ∀ i j t, g.d.getD i none = some t → g.d.getD j none = some t → i = j
  f_inj : ∀ i j t, g.f.getD i none = some t → g.f.getD j none = some t → i = j
  df_ne : ∀ i j t, g.d.getD i none = some t → g.f.getD j none = some t → False
  parent_d : ∀ b p, g.parent.getD b none = some p → g.d.getD b none ≠ none →
    ∃ db dp, g.d.getD b none = some db ∧ g.d.getD p none = some dp ∧ dp < db
  parent_f : ∀ b p, g.parent.getD b none = some p → g.d.getD b none ≠ none →
    ∀ fp, g.f.getD p none = some fp →
      ∃ fb, g.f.getD b none = some fb ∧ fb < fp
  nest : ∀ i j di dj, i ≠ j → g.d.getD i none = some di →
    g.d.getD j none = some dj → di < dj →
    (∃ fi, g.f.getD i none = some fi ∧ fi < dj) ∨
    (PAnc g i j ∧ ∀ fi, g.f.getD i none = some fi →
      ∃ fj, g.f.getD j none = some fj ∧ fj < fi)
  grey_anc : ∀ i j di dj, g.color.getD i none = some Col.grey →
    g.color.getD j none = some Col.grey → g.d.getD i none = some di →
    g.d.getD j none = some dj → di ≤ dj → PAnc g i j
  edge_cls : ∀ i, g.color.getD i none = some Col.black →
    ∀ j ∈ g.adj.getD i [],
      (∃ fj fi, g.f.getD j none = some fj ∧ g.f.getD i none = some fi ∧
        fj < fi) ∨ PAnc g j i
  topo_mem : ∀ i, i ∈ g.dfs_topo_sorted ↔ g.color.getD i none = some Col.black
  topo_sorted : g.dfs_topo_sorted.Pairwise (fun a b => ∃ fa fb,
    g.f.getD a none = some fa ∧ g.f.getD b none = some fb ∧ fa < fb)

/-- How one (or several composed) completed DFS visits relate the state
after to the state before: timestamps and parent pointers persist, parent
pointers change only on previously-white literals and never on literals
that stay white, black stays black, white comes from white, the grey set
is unchanged, fresh finish stamps exceed the old clock, the clock is
monotone and the finish list grows by appending. -/
structure DfsEvo (g g2 : Implication_Graph) : Prop where
  dkeep : ∀ i t, g.d.getD i none = some t → g2.d.getD i none = some t
  fkeep : ∀ i t, g.f.getD i none = some t → g2.f.getD i none = some t
  pkeep : ∀ i p, g.parent.getD i none = some p →
    g2.parent.getD i none = some p
  pnew : ∀ i, g.parent.getD i none ≠ g2.parent.getD i none →
    g.color.getD i none = some Col.white
  pstill : ∀ i, g2.color.getD i none = some Col.white →
    g2.parent.getD i none = g.parent.getD i none
  blackmono : ∀ i, g.color.getD i none = some Col.black →
    g2.color.getD i none = some Col.black
  whiteanti : ∀ i, g2.color.getD i none = some Col.white →
    g.color.getD i none = some Col.white
  greyiff : ∀ i, g2.color.getD i none = some Col.grey ↔
    g.color.getD i none = some Col.grey
  ffresh : ∀ i t, g.f.getD i none = none → g2.f.getD i none = some t →
    g.dfs_time < t
  timemono : g.dfs_time ≤ g2.dfs_time
  topoext : ∃ l, g2.dfs_topo_sorted = g.dfs_topo_sorted ++ l

/-- What one completed `dfs_visit` of a white literal guarantees. -/
structure VisitOut (g gres : Implication_Graph) (u : Nat) : Prop where
  inv : DfsInv gres
  evo : DfsEvo g gres
  ublack : gres.color.getD u none = some Col.black
  udisc : gres.d.getD u none = some (g.dfs_time + 1)
  ufin : gres.f.getD u none = some gres.dfs_time
  tlt : g.dfs_time < gres.dfs_time
  wlt : whites gres < whites g

/-- One emitted component is headed by its defining literal and collects
exactly the parent chain of that literal. -/
def chainHas (g0 : Implication_Graph) (c : List Nat) (e : Nat) : Prop :=
  c.head? = some e ∧ ∀ a, a ∈ c ↔ PAnc g0 a e

/-- Invariant of the `sccs` loop of `main`, tying the evolving transpose
graph to the accumulated component list: valid DFS state with no greys and
parentless whites, duplicate-free catalog, fully-checked finish list, each
component the parent chain of its black head, and the component heads in
increasing finish order. -/
structure LoopInv (p : Implication_Graph × List (List Nat)) : Prop where
  inv : DfsInv p.1
  nogrey : ∀ i, p.1.color.getD i none ≠ some Col.grey
  wpn : ∀ i, p.1.color.getD i none = some Col.white →
    p.1.parent.getD i none = none
  ndnames : p.1.names.Nodup
  chklen : p.1.checked.length = p.1.names.length
  topochk : ∀ e ∈ p.1.dfs_topo_sorted, p.1.checked.getD e false = true
  chains : ∀ c ∈ p.2, ∃ e, c.head? = some e ∧
    p.1.color.getD e none = some Col.black ∧ (∀ a, a ∈ c ↔ PAnc p.1 a e)
  ord : p.2.Pairwise (fun c1 c2 => ∀ e1 e2, c1.head? = some e1 →
    c2.head? = some e2 → ∃ f1 f2, p.1.f.getD e1 none = some f1 ∧
      p.1.f.getD e2 none = some f2 ∧ f1 < f2)

/-- Structural sanity of a built graph: parallel arrays of equal length,
in-range adjacency targets, no timestamps, empty finish list. -/
def structOk (g : Implication_Graph) : Prop :=
  g.adj.length = g.names.length ∧ g.d.length = g.names.length ∧
  g.f.length = g.names.length ∧ g.color.length = g.names.length ∧
  g.parent.length = g.names.length ∧ g.checked.length = g.names.length ∧
  (∀ i, ∀ j ∈ g.adj.getD i [], j < g.names.length) ∧
  (∀ x ∈ g.d, x = none) ∧ (∀ x ∈ g.f, x = none) ∧
  g.dfs_topo_sorted = []

/-- The variable a literal name belongs to, as computed by lines 232-233
and 246-250 of `main`: a dash-led name contributes its negation, any other
name itself. -/
def varOf (nm : Name) : Name :=
  if startsDash nm then get_negation nm else nm

/-- An implication edge of a graph, identified by endpoint names: both
names resolve in the catalog and the target's index sits on the source's
adjacency list. -/
def hasEdge (g : Implication_Graph) (n1 n2 : Name) : Prop :=
  ∃ i1 i2, Implication_Graph.idxOf n1 g.names = some i1 ∧
    Implication_Graph.idxOf n2 g.names = some i2 ∧ i2 ∈ g.adj.getD i1 []

/-- What the clause loop guarantees about one recorded clause: it is empty,
or it is a registered two-literal clause whose two transpose-graph
implications (lines 196-197) are present whenever add_implication did not
skip them as self-loops. -/
def clauseEdges (gi : Implication_Graph) (cl : List Name) : Prop :=
  cl = [] ∨ ∃ a b, cl = [a, b] ∧ noDD a = true ∧ noDD b = true ∧
    a ∈ gi.names ∧ b ∈ gi.names ∧
    (b ≠ get_negation a →
      hasEdge gi b (get_negation a) ∧ hasEdge gi a (get_negation b))

/-- One step of the clause-reconstruction fold of `clausesOf`. -/
def clStep (p : List (List Name) × List Name) (t : Name) :
    List (List Name) × List Name :=
  if t = ['0'] then (p.1 ++ [p.2], []) else (p.1, p.2 ++ [stripDD t])

-- ===== end of definitions; auxiliary predicate definitions above =====

lemma buildGraphs_eq_processFrom (toks : List Name) :
    buildGraphs toks = processFrom ⟨.empty, .empty, []⟩ toks := rfl

lemma processFrom_append (s : BuildSt) (l1 l2 : List Name) :
    processFrom s (l1 ++ l2) =
      (processFrom s l1) >>= fun s2 => processFrom s2 l2 :=
  List.foldlM_append buildStep s l1 l2

lemma processFrom_cons (s : BuildSt) (t : Name) (ts : List Name) :
    processFrom s (t :: ts) = (buildStep s t) >>= fun s2 => processFrom s2 ts :=
  List.foldlM_cons buildStep s t ts

/-- Reading a run of literal tokens only grows the clause (by the stripped
names) and never raises. -/
lemma processFrom_literals (pre : List Name) :
    ∀ s : BuildSt, (∀ t ∈ pre, t ≠ ['0']) →
      ∃ s2 : BuildSt, processFrom s pre = .ok s2 ∧
        s2.cur = s.cur ++ pre.map stripDD := by
  induction pre with
  | nil => intro s _; exact ⟨s, rfl, by simp⟩
  | cons t ts ih =>
    intro s h
    have ht : t ≠ ['0'] := h t (List.mem_cons_self t ts)
    have hstep : buildStep s t = .ok
        { G := s.G.add_literal (stripDD t), Ginv := s.Ginv.add_literal (stripDD t),
          cur := s.cur ++ [stripDD t] } := by
      unfold buildStep
      rw [if_neg ht]
    obtain ⟨s2, h2, hc⟩ := ih
      { G := s.G.add_literal (stripDD t), Ginv := s.Ginv.add_literal (stripDD t),
        cur := s.cur ++ [stripDD t] }
      (fun x hx => h x (List.mem_cons_of_mem t hx))
    refine ⟨s2, ?_, ?_⟩
    · rw [processFrom_cons, hstep]
      exact h2
    · simpa using hc


/-- A sentinel on a clause of more than two literals raises the arity
RuntimeError (line 186-187). -/
lemma buildStep_zero_of_long (s : BuildSt) (h : 2 < s.cur.length) :
    buildStep s ['0'] = .error .tooManyLiterals := by
  obtain ⟨G, Gi, cur⟩ := s
  match cur, h with
  | a :: b :: c :: rest, _ => rfl

/-- A sentinel on a clause of exactly one literal raises the 2-SAT-only
RuntimeError (lines 189-190). -/
lemma buildStep_zero_of_one (s : BuildSt) (h : s.cur.length = 1) :
    buildStep s ['0'] = .error .onlyTwoSat := by
  obtain ⟨G, Gi, cur⟩ := s
  match cur, h with
  | [a], _ => rfl

/-- A raising clause poisons the whole stream. -/
lemma processFrom_error_clause (pre rest : List Name) (e : BuildErr)
    (h0 : ∀ t ∈ pre, t ≠ ['0'])
    (he : ∀ s2 : BuildSt, s2.cur = pre.map stripDD → buildStep s2 ['0'] = .error e) :
    processFrom ⟨.empty, .empty, []⟩ (pre ++ ['0'] :: rest) = .error e := by
  obtain ⟨s2, h2, hc⟩ := processFrom_literals pre ⟨.empty, .empty, []⟩ h0
  rw [processFrom_append, h2]
  show processFrom s2 (['0'] :: rest) = .error e
  rw [processFrom_cons, he s2 (by simpa using hc)]
  rfl

/-- C7: a clause with more than two literals fails the entire run with the
arity error: construction aborts, no verdict, no result. -/
theorem c7_clause_arity_error (pre rest : List Name)
    (h0 : ∀ t ∈ pre, t ≠ ['0']) (h2 : 2 < pre.length) :
    runSolver (pre ++ ['0'] :: rest) = .error .tooManyLiterals := by
  unfold runSolver
  rw [buildGraphs_eq_processFrom,
    processFrom_error_clause pre rest .tooManyLiterals h0
      (fun s2 hc => buildStep_zero_of_long s2 (by simp [hc]; omega))]
  rfl

/-- Witness for C7 at the concrete stream `1 2 3 0`. -/
theorem c7_clause_arity_error_witness :
    (∀ t ∈ [['1'], ['2'], ['3']], t ≠ (['0'] : Name)) ∧
      2 < ([['1'], ['2'], ['3']] : List Name).length ∧
      runSolver ([['1'], ['2'], ['3']] ++ ['0'] :: []) = .error .tooManyLiterals :=
  ⟨by decide, by decide, c7_clause_arity_error [['1'], ['2'], ['3']] [] (by decide) (by decide)⟩

/-- C3 counterexample: the clause stream `(a)` then `(not a, b)` — tokens
`1 0 -1 2 0` — raises the "only supports 2-SAT clauses" RuntimeError
instead of yielding SATISFIABLE with a and b true. -/
theorem c3_one_literal_counterexample :
    runSolver [['1'], ['0'], ['-', '1'], ['2'], ['0']] = .error .onlyTwoSat := by
  rfl

/-- C3 (amended): a clause with exactly one literal raises the
"Program only supports 2-SAT clauses" RuntimeError, aborting the whole run
with no verdict (`add_forced` is never invoked by the pipeline). -/
theorem c3_one_literal_errors (pre rest : List Name)
    (h0 : ∀ t ∈ pre, t ≠ ['0']) (h1 : pre.length = 1) :
    runSolver (pre ++ ['0'] :: rest) = .error .onlyTwoSat := by
  unfold runSolver
  rw [buildGraphs_eq_processFrom,
    processFrom_error_clause pre rest .onlyTwoSat h0
      (fun s2 hc => buildStep_zero_of_one s2 (by simp [hc, h1]))]
  rfl

/-- Witness for the amended C3 at the claim's own scenario stream. -/
theorem c3_one_literal_errors_witness :
    (∀ t ∈ [['1']], t ≠ (['0'] : Name)) ∧ ([['1']] : List Name).length = 1 ∧
      runSolver ([['1']] ++ ['0'] :: [['-', '1'], ['2'], ['0']]) = .error .onlyTwoSat :=
  ⟨by decide, rfl,
    c3_one_literal_errors [['1']] [['-', '1'], ['2'], ['0']] (by decide) rfl⟩

/-- C9: a zero-literal clause (bare sentinel on an empty current clause) is
a no-op: the step succeeds returning the state unchanged (same graphs, no
error), the rest of the stream proceeds identically, and the whole run's
outcome — in particular the verdict — is unchanged. -/
theorem c9_empty_clause_noop (s : BuildSt) (h : s.cur = []) (rest : List Name) :
    buildStep s ['0'] = .ok s ∧
      processFrom s (['0'] :: rest) = processFrom s rest ∧
      runSolver (['0'] :: rest) = runSolver rest := by
  have hstep : buildStep s ['0'] = .ok s := by
    obtain ⟨G, Gi, cur⟩ := s
    simp only at h
    subst h
    rfl
  refine ⟨hstep, ?_, ?_⟩
  · rw [processFrom_cons, hstep]
    rfl
  · unfold runSolver
    rw [buildGraphs_eq_processFrom, buildGraphs_eq_processFrom, processFrom_cons]
    have : buildStep ⟨.empty, .empty, []⟩ ['0'] = .ok ⟨.empty, .empty, []⟩ := rfl
    rw [this]
    rfl

/-- Witness for C9 at the empty initial state and stream `0 1 2 0`. -/
theorem c9_empty_clause_noop_witness :
    (⟨.empty, .empty, []⟩ : BuildSt).cur = [] ∧
      (buildStep ⟨.empty, .empty, []⟩ ['0'] = .ok ⟨.empty, .empty, []⟩ ∧
        processFrom ⟨.empty, .empty, []⟩ (['0'] :: [['1'], ['2'], ['0']]) =
          processFrom ⟨.empty, .empty, []⟩ [['1'], ['2'], ['0']] ∧
        runSolver (['0'] :: [['1'], ['2'], ['0']]) = runSolver [['1'], ['2'], ['0']]) :=
  ⟨rfl, c9_empty_clause_noop ⟨.empty, .empty, []⟩ rfl [['1'], ['2'], ['0']]⟩

/-- C6: `add_implication` silently skips a self-implication (same literal
twice) and an implication whose endpoint is absent from the catalog: the
graph is returned unchanged, and no error of any kind is raised (the
function is total with no error path). -/
theorem c6_add_implication_silent_skip :
    (Implication_Graph.empty.add_literal ['1']).add_implication ['1'] ['1'] =
      Implication_Graph.empty.add_literal ['1'] ∧
    (Implication_Graph.empty.add_literal ['1']).add_implication ['2'] ['1'] =
      Implication_Graph.empty.add_literal ['1'] := by
  decide

/-- C2: on clauses (1 or 1), (1 or 2) the emitted SCC list is NOT a
partition: the literal node `1` (index 0 of the transpose graph, whose
name list is 1, -1, 2, -2) occurs in two distinct SCCs — the chain walk
re-collects already-claimed parents. -/
theorem c2_scc_not_partition :
    c2pipe.2.1.names = [['1'], ['-', '1'], ['2'], ['-', '2']] ∧
      c2pipe.2.2.2 = [[1, 0], [3, 0], [2]] ∧
      (c2pipe.2.2.2.flatten.count 0 = 2 ∧ c2pipe.2.2.2.length = 3) := by
  decide

/-- C4: on the single clause (1 or 2) the pass-1 finish order is
1, 2, -1, -2 (indices 0, 2, 1, 3), so a second pass in REVERSE finish
order would visit -2 (index 3) first; the code instead discovers node 1
(index 0) first (discovery time 1) and -2 only second — the second pass is
seeded from the pass-1 ROOT list in forward order, not the reversed finish
order.  Moreover the first emitted "SCC" is the non-component pair
{-2, 1}. -/
theorem c4_pass2_not_reverse_finish_order :
    c4pipe.1.dfs_topo_sorted = [0, 2, 1, 3] ∧
      c4pipe.2.1.names = [['1'], ['-', '1'], ['2'], ['-', '2']] ∧
      c4pipe.2.1.d.getD 0 none = some 1 ∧
      c4pipe.2.1.d.getD 3 none = some 2 ∧
      c4pipe.2.2.2 = [[3, 0], [1], [2]] := by
  decide

/-- Stripping leaves a dash-square-free word. -/
lemma noDD_stripDD (n : Name) : noDD (stripDD n) = true := by
  induction n using stripDD.induct with
  | case1 rest ih => rw [stripDD.eq_1]; exact ih
  | case2 c rest hne ih =>
    rw [stripDD.eq_2 c rest hne]
    by_cases hc : c = '-'
    · subst hc
      match hr : rest, hne, ih with
      | [], _, _ => rfl
      | r :: rs, hne, ih =>
        have hrne : r ≠ '-' := fun hr2 => hne rs rfl (by rw [hr2])
        rw [stripDD.eq_2 r rs (fun r2 h1 _ => hrne h1)] at ih ⊢
        rw [noDD.eq_2 '-' (r :: stripDD rs)
          (fun r2 _ hcons => hrne (List.cons_eq_cons.mp hcons).1)]
        exact ih
    · rw [noDD.eq_2 c (stripDD rest) (fun r2 h1 _ => hc h1)]
      exact ih
  | case3 => rfl

/-- Stripping is the identity on dash-square-free words. -/
lemma stripDD_of_noDD (n : Name) (h : noDD n = true) : stripDD n = n := by
  induction n using stripDD.induct with
  | case1 rest ih => rw [noDD.eq_1] at h; exact absurd h (by simp)
  | case2 c rest hne ih =>
    rw [noDD.eq_2 c rest hne] at h
    rw [stripDD.eq_2 c rest hne, ih h]
  | case3 => rfl

/-- Stripping is idempotent. -/
lemma stripDD_idem (n : Name) : stripDD (stripDD n) = stripDD n :=
  stripDD_of_noDD (stripDD n) (noDD_stripDD n)

/-- Tails of dash-square-free words are dash-square-free. -/
lemma noDD_tail (c : Char) (rest : Name) (h : noDD (c :: rest) = true) :
    noDD rest = true := by
  match c, rest, h with
  | '-', '-' :: rs, h => exact absurd h (by rw [noDD.eq_1]; simp)
  | c, rest, h =>
    by_cases hc : c = '-'
    · subst hc
      match rest, h with
      | [], _ => rfl
      | r :: rs, h =>
        by_cases hr : r = '-'
        · subst hr; rw [noDD.eq_1] at h; exact absurd h (by simp)
        · rwa [noDD.eq_2 '-' (r :: rs) (fun r2 _ hcons =>
            hr (List.cons_eq_cons.mp hcons).1)] at h
    · rwa [noDD.eq_2 c rest (fun r2 h1 _ => hc h1)] at h

/-- On a dash-square-free name, negation is an involution. -/
lemma get_negation_involution (n : Name) (h : noDD n = true) :
    get_negation (get_negation n) = n := by
  unfold get_negation
  match n, h with
  | [], _ => rfl
  | '-' :: rest, h =>
    have hrest : noDD rest = true := noDD_tail '-' rest h
    have hne : ∀ r2, rest = '-' :: r2 → False := by
      intro r2 hr2
      subst hr2
      rw [noDD.eq_1] at h
      exact absurd h (by simp)
    rw [stripDD.eq_1, stripDD_of_noDD rest hrest,
      stripDD.eq_2 '-' rest (fun r2 _ h2 => hne r2 h2),
      stripDD_of_noDD rest hrest]
  | c :: rest, h =>
    by_cases hc : c = '-'
    · subst hc
      have hrest : noDD rest = true := noDD_tail '-' rest h
      have hne : ∀ r2, rest = '-' :: r2 → False := by
        intro r2 hr2
        subst hr2
        rw [noDD.eq_1] at h
        exact absurd h (by simp)
      rw [stripDD.eq_1, stripDD_of_noDD rest hrest,
        stripDD.eq_2 '-' rest (fun r2 _ h2 => hne r2 h2),
        stripDD_of_noDD rest hrest]
    · rw [stripDD.eq_2 '-' (c :: rest) (fun r2 _ hcons =>
        hc (List.cons_eq_cons.mp hcons).1)]
      rw [stripDD_of_noDD (c :: rest) h, stripDD.eq_1,
        stripDD_of_noDD (c :: rest) h]

/-- On a dash-square-free name, the negation is a structurally distinct
name (their lengths differ by one). -/
lemma get_negation_ne (n : Name) (h : noDD n = true) : get_negation n ≠ n := by
  unfold get_negation
  match n, h with
  | [], _ => simp [stripDD]
  | '-' :: rest, h =>
    have hrest : noDD rest = true := noDD_tail '-' rest h
    rw [stripDD.eq_1, stripDD_of_noDD rest hrest]
    intro heq
    have := congrArg List.length heq
    simp at this
  | c :: rest, h =>
    by_cases hc : c = '-'
    · subst hc
      have hrest : noDD rest = true := noDD_tail '-' rest h
      rw [stripDD.eq_1, stripDD_of_noDD rest hrest]
      intro heq
      have := congrArg List.length heq
      simp at this
    · rw [stripDD.eq_2 '-' (c :: rest) (fun r2 _ hcons =>
        hc (List.cons_eq_cons.mp hcons).1)]
      rw [stripDD_of_noDD (c :: rest) h]
      intro heq
      have := congrArg List.length heq
      simp at this

/-- `add_literal` preserves the catalog invariant. -/
lemma add_literal_goodNames (g : Implication_Graph) (raw : Name)
    (hg : goodNames g) : goodNames (g.add_literal raw) := by
  unfold Implication_Graph.add_literal
  by_cases hmem : stripDD raw ∈ g.names
  · simpa [hmem] using hg
  · simp only [hmem, if_false]
    intro nm hnm
    simp only [List.mem_append, List.mem_cons, List.mem_singleton] at hnm
    rcases hnm with hnm | hnm | hnm | hnm
    · obtain ⟨h1, h2⟩ := hg nm hnm
      exact ⟨h1, by simp [h2]⟩
    · subst hnm
      refine ⟨noDD_stripDD raw, ?_⟩
      simp [get_negation, stripDD_idem]
    · subst hnm
      refine ⟨noDD_stripDD ('-' :: stripDD raw), ?_⟩
      rw [get_negation_involution (stripDD raw) (noDD_stripDD raw)]
      simp
    · exact absurd hnm (by simp)

/-- A preserved construction invariant survives the whole reading loop. -/
lemma processFrom_inv (P : BuildSt → Prop)
    (hP : ∀ s t s2, P s → buildStep s t = .ok s2 → P s2) :
    ∀ (toks : List Name) (s s2 : BuildSt),
      P s → processFrom s toks = .ok s2 → P s2 := by
  intro toks
  induction toks with
  | nil =>
    intro s s2 hs h
    simp only [processFrom, List.foldlM_nil] at h
    cases h
    exact hs
  | cons t ts ih =>
    intro s s2 hs h
    rw [processFrom_cons] at h
    cases hstep : buildStep s t with
    | error e => rw [hstep] at h; exact absurd h (by simp [Bind.bind, Except.bind])
    | ok s1 =>
      rw [hstep] at h
      exact ih s1 s2 (hP s t s1 hs hstep) h

/-- `add_implication` never changes the name catalog. -/
lemma add_implication_names (g : Implication_Graph) (n1 n2 : Name) :
    (g.add_implication n1 n2).names = g.names := by
  unfold Implication_Graph.add_implication
  by_cases h : 0 ≤ g.get_literal_id n1 ∧ 0 ≤ g.get_literal_id n2 ∧
      g.get_literal_id n1 ≠ g.get_literal_id n2
  · simp only [if_pos h]
  · simp only [if_neg h]

/-- The catalog invariant only depends on the name list. -/
lemma goodNames_of_names_eq (g1 g2 : Implication_Graph)
    (h : g1.names = g2.names) (hg : goodNames g2) : goodNames g1 := by
  unfold goodNames
  rw [h]
  exact hg

/-- `buildStep` preserves the catalog invariant on both graphs. -/
lemma buildStep_goodNames (s : BuildSt) (t : Name) (s2 : BuildSt)
    (hs : goodNames s.G ∧ goodNames s.Ginv) (h : buildStep s t = .ok s2) :
    goodNames s2.G ∧ goodNames s2.Ginv := by
  unfold buildStep at h
  by_cases ht : t = ['0']
  · rw [if_pos ht] at h
    match hc : s.cur, h with
    | [], h =>
      cases h
      exact hs
    | [a], h => simp at h
    | [a, b], h =>
      cases h
      refine ⟨goodNames_of_names_eq _ s.G ?_ hs.1, goodNames_of_names_eq _ s.Ginv ?_ hs.2⟩
      · show ((s.G.add_implication (get_negation a) b).add_implication
          (get_negation b) a).names = s.G.names
        rw [add_implication_names, add_implication_names]
      · show ((s.Ginv.add_implication b (get_negation a)).add_implication
          a (get_negation b)).names = s.Ginv.names
        rw [add_implication_names, add_implication_names]
    | a :: b :: c :: rest, h => simp at h
  · rw [if_neg ht] at h
    cases h
    exact ⟨add_literal_goodNames _ _ hs.1, add_literal_goodNames _ _ hs.2⟩

/-- C8: for every literal registered in either catalog of a successfully
built stream, its negation is itself registered, is a distinct node, and
negating twice returns the original name. -/
theorem c8_negation_closed_involutive (toks : List Name) (st : BuildSt)
    (h : buildGraphs toks = .ok st) :
    ∀ nm ∈ st.G.names,
      get_negation nm ∈ st.G.names ∧ get_negation nm ≠ nm ∧
        get_negation (get_negation nm) = nm := by
  have hinv := processFrom_inv (fun s => goodNames s.G ∧ goodNames s.Ginv)
    buildStep_goodNames toks ⟨.empty, .empty, []⟩ st
    ⟨fun nm hnm => absurd hnm (by simp [Implication_Graph.empty]),
     fun nm hnm => absurd hnm (by simp [Implication_Graph.empty])⟩
    (by rw [← buildGraphs_eq_processFrom]; exact h)
  intro nm hnm
  obtain ⟨h1, h2⟩ := hinv.1 nm hnm
  exact ⟨h2, get_negation_ne nm h1, get_negation_involution nm h1⟩

/-- Witness for C8 on the stream `1 2 0` at the literal `-1`. -/
theorem c8_negation_closed_involutive_witness :
    buildGraphs [['1'], ['2'], ['0']] = .ok (builtOf [['1'], ['2'], ['0']]) ∧
      (['-', '1'] : Name) ∈ (builtOf [['1'], ['2'], ['0']]).G.names ∧
      (get_negation ['-', '1'] ∈ (builtOf [['1'], ['2'], ['0']]).G.names ∧
        get_negation ['-', '1'] ≠ (['-', '1'] : Name) ∧
        get_negation (get_negation ['-', '1']) = (['-', '1'] : Name)) :=
  ⟨rfl, by decide,
    c8_negation_closed_involutive [['1'], ['2'], ['0']] (builtOf [['1'], ['2'], ['0']])
      rfl ['-', '1'] (by decide)⟩

/-- A reflexive-transitive relation preserved by every fold step is
preserved by the whole fold. -/
lemma foldl_preserve {σ α : Type} (step : σ → α → σ) (P : σ → σ → Prop)
    (hrefl : ∀ s, P s s) (htrans : ∀ a b c, P b a → P c b → P c a)
    (hstep : ∀ s x, P (step s x) s) :
    ∀ (l : List α) (s : σ), P (l.foldl step s) s := by
  intro l
  induction l with
  | nil => intro s; exact hrefl s
  | cons x xs ih =>
    intro s
    rw [List.foldl_cons]
    exact htrans s (step s x) (xs.foldl step (step s x)) (hstep s x) (ih (step s x))

lemma dfsFrame_refl (g : Implication_Graph) : dfsFrame g g := ⟨rfl, rfl, rfl, rfl⟩

lemma dfsFrame_trans (a b c : Implication_Graph) (h1 : dfsFrame b a)
    (h2 : dfsFrame c b) : dfsFrame c a :=
  ⟨h2.1.trans h1.1, h2.2.1.trans h1.2.1, h2.2.2.1.trans h1.2.2.1,
    h2.2.2.2.trans h1.2.2.2⟩

/-- A `visit_step` at frame-preserving `visit` preserves the frame. -/
lemma visit_step_frame (visit : Implication_Graph → Nat → Implication_Graph)
    (u : Nat) (hv : ∀ g v, dfsFrame (visit g v) g) :
    ∀ (gc : Implication_Graph) (v : Nat),
      dfsFrame (Implication_Graph.visit_step visit u gc v) gc := by
  intro gc v
  unfold Implication_Graph.visit_step
  by_cases h : gc.color.getD v none = some Col.white
  · rw [if_pos h]
    exact dfsFrame_trans gc { gc with parent := gc.parent.set v (some u) } _
      ⟨rfl, rfl, rfl, rfl⟩ (hv _ v)
  · rw [if_neg h]
    exact dfsFrame_refl gc

/-- `dfs_visit` only changes DFS state, never structure or `checked`. -/
lemma dfs_visit_frame : ∀ (fuel : Nat) (g : Implication_Graph) (u : Nat),
    dfsFrame (Implication_Graph.dfs_visit fuel g u) g := by
  intro fuel
  induction fuel with
  | zero => intro g u; exact dfsFrame_refl g
  | succ n ih =>
    intro g u
    have hfold := foldl_preserve (Implication_Graph.visit_step
        (Implication_Graph.dfs_visit n) u) dfsFrame dfsFrame_refl dfsFrame_trans
      (visit_step_frame _ u ih)
    show dfsFrame _ g
    unfold Implication_Graph.dfs_visit
    refine dfsFrame_trans g
      { g with
          dfs_time := g.dfs_time + 1,
          d := g.d.set u (some (g.dfs_time + 1)),
          color := g.color.set u (some Col.grey) } _ ⟨rfl, rfl, rfl, rfl⟩ ?_
    refine dfsFrame_trans _ _ _ (hfold _ _) ⟨rfl, rfl, rfl, rfl⟩

/-- `dfs_sweep` only changes DFS state. -/
lemma dfs_sweep_frame (fuel : Nat) (g : Implication_Graph) :
    dfsFrame (Implication_Graph.dfs_sweep fuel g).1 g := by
  unfold Implication_Graph.dfs_sweep
  refine foldl_preserve (Implication_Graph.sweep_step fuel)
    (fun p q => dfsFrame p.1 q.1) (fun p => dfsFrame_refl p.1)
    (fun a b c h1 h2 => dfsFrame_trans a.1 b.1 c.1 h1 h2) ?_ _ _
  intro p i
  unfold Implication_Graph.sweep_step
  by_cases h : p.1.color.getD i none = some Col.white
  · rw [if_pos h]
    exact dfs_visit_frame fuel p.1 i
  · rw [if_neg h]
    exact dfsFrame_refl p.1

lemma walkFrame_refl (g : Implication_Graph) : walkFrame g g :=
  ⟨rfl, rfl, rfl, rfl, rfl, rfl, rfl, rfl, rfl⟩

lemma walkFrame_trans (a b c : Implication_Graph) (h1 : walkFrame b a)
    (h2 : walkFrame c b) : walkFrame c a :=
  ⟨h2.1.trans h1.1, h2.2.1.trans h1.2.1, h2.2.2.1.trans h1.2.2.1,
    h2.2.2.2.1.trans h1.2.2.2.1, h2.2.2.2.2.1.trans h1.2.2.2.2.1,
    h2.2.2.2.2.2.1.trans h1.2.2.2.2.2.1, h2.2.2.2.2.2.2.1.trans h1.2.2.2.2.2.2.1,
    h2.2.2.2.2.2.2.2.1.trans h1.2.2.2.2.2.2.2.1,
    h2.2.2.2.2.2.2.2.2.trans h1.2.2.2.2.2.2.2.2⟩

/-- `chain_walk` only sets `checked` flags. -/
lemma chain_walk_frame : ∀ (fuel : Nat) (g : Implication_Graph) (c : Option Nat),
    walkFrame (Implication_Graph.chain_walk fuel g c).1 g := by
  intro fuel
  induction fuel with
  | zero => intro g c; exact walkFrame_refl g
  | succ n ih =>
    intro g c
    match c with
    | none => exact walkFrame_refl g
    | some c0 =>
      show walkFrame (Implication_Graph.chain_walk (n + 1) g (some c0)).1 g
      unfold Implication_Graph.chain_walk
      refine walkFrame_trans _ { g with checked := g.checked.set c0 true } _
        (⟨rfl, rfl, rfl, rfl, rfl, rfl, rfl, rfl, rfl⟩ : walkFrame _ g) ?_
      exact ih _ _

/-- `recovery` only sets `checked` flags. -/
lemma recovery_frame (g : Implication_Graph) :
    walkFrame (Implication_Graph.recovery g).1 g := by
  unfold Implication_Graph.recovery
  refine foldl_preserve _ (fun (p q : Implication_Graph × List (List Nat)) =>
    walkFrame p.1 q.1) (fun p => walkFrame_refl p.1)
    (fun a b c h1 h2 => walkFrame_trans a.1 b.1 c.1 h1 h2) ?_ _ _
  intro p e
  unfold Implication_Graph.recovery_step
  by_cases h : p.1.checked.getD e false = false
  · rw [if_pos h]
    exact walkFrame_trans _ { p.1 with checked := p.1.checked.set e true } _
      (⟨rfl, rfl, rfl, rfl, rfl, rfl, rfl, rfl, rfl⟩ : walkFrame _ p.1)
      (chain_walk_frame _ _ _)
  · rw [if_neg h]
    exact walkFrame_refl p.1

/-- `dfs_second` never changes the name catalog. -/
lemma dfs_second_names (fuel : Nat) (g : Implication_Graph) (start : Option Name) :
    (Implication_Graph.dfs_second fuel g start).1.names = g.names := by
  unfold Implication_Graph.dfs_second
  match start with
  | none =>
    exact ((recovery_frame _).1).trans (dfs_sweep_frame fuel g).1
  | some s =>
    by_cases hs : s = []
    · simp only [hs, if_pos rfl]
      exact ((recovery_frame _).1).trans (dfs_sweep_frame fuel g).1
    · simp only [if_neg hs]
      exact ((recovery_frame _).1).trans
        (((dfs_sweep_frame fuel _).1).trans (dfs_visit_frame fuel g _).1)

/-- Neither pipeline graph changes its name catalog. -/
lemma pipeline_names (G0 Ginv0 : Implication_Graph) :
    (pipeline G0 Ginv0).1.names = G0.names ∧
      (pipeline G0 Ginv0).2.1.names = Ginv0.names := by
  unfold pipeline Implication_Graph.dfs_first
  constructor
  · exact (dfs_sweep_frame _ _).1
  · refine foldl_preserve _
      (fun (p q : Implication_Graph × List (List Nat)) => p.1.names = q.1.names)
      (fun p => rfl) (fun a b c h1 h2 => h2.trans h1) ?_ _ _
    intro p u
    unfold scc_step
    by_cases h : p.1.color.getD (p.1.pyIndex (p.1.get_literal_id
        ((Implication_Graph.dfs_sweep (G0.dfs_init.names.length + 1)
          G0.dfs_init).1.names.getD u []))) none = some Col.white
    · rw [if_pos h]
      exact dfs_second_names _ _ _
    · rw [if_neg h]

/-- Finding a present name: the index is valid and retrieves that name. -/
lemma idxOf_mem (nm : Name) :
    ∀ l : List Name, nm ∈ l →
      ∃ i, Implication_Graph.idxOf nm l = some i ∧ i < l.length ∧ l.getD i [] = nm := by
  intro l
  induction l with
  | nil => intro h; exact absurd h (by simp)
  | cons x xs ih =>
    intro h
    by_cases hx : x = nm
    · exact ⟨0, by simp [Implication_Graph.idxOf, hx], by simp, by simp [hx]⟩
    · have hmem : nm ∈ xs := by
        rcases List.mem_cons.mp h with h1 | h1
        · exact absurd h1.symm hx
        · exact h1
      obtain ⟨i, h1, h2, h3⟩ := ih hmem
      exact ⟨i + 1, by simp [Implication_Graph.idxOf, hx, h1], by simpa using h2,
        by simpa using h3⟩

/-- `get_literal_id` on a present name is non-negative and Python's
indexing retrieves exactly that name. -/
lemma get_literal_id_of_mem (g : Implication_Graph) (nm : Name)
    (h : nm ∈ g.names) :
    0 ≤ g.get_literal_id nm ∧
      g.names.getD (g.pyIndex (g.get_literal_id nm)) [] = nm := by
  obtain ⟨i, h1, h2, h3⟩ := idxOf_mem nm g.names h
  unfold Implication_Graph.get_literal_id
  rw [h1]
  refine ⟨by positivity, ?_⟩
  unfold Implication_Graph.pyIndex
  rw [if_pos (by positivity)]
  simpa using h3

/-- `add_literal` changes the name catalog as a function of the catalog
alone. -/
lemma add_literal_names (g : Implication_Graph) (raw : Name) :
    (g.add_literal raw).names =
      if stripDD raw ∈ g.names then g.names
      else g.names ++ [stripDD raw, get_negation (stripDD raw)] := by
  unfold Implication_Graph.add_literal
  by_cases h : stripDD raw ∈ g.names
  · simp only [if_pos h]
  · simp only [if_neg h]

/-- `buildStep` keeps the two catalogs identical. -/
lemma buildStep_names_eq (s : BuildSt) (t : Name) (s2 : BuildSt)
    (hs : s.G.names = s.Ginv.names) (h : buildStep s t = .ok s2) :
    s2.G.names = s2.Ginv.names := by
  unfold buildStep at h
  by_cases ht : t = ['0']
  · rw [if_pos ht] at h
    match hc : s.cur, h with
    | [], h =>
      cases h
      exact hs
    | [a], h => simp at h
    | [a, b], h =>
      cases h
      show ((s.G.add_implication (get_negation a) b).add_implication
          (get_negation b) a).names =
        ((s.Ginv.add_implication b (get_negation a)).add_implication
          a (get_negation b)).names
      rw [add_implication_names, add_implication_names,
        add_implication_names, add_implication_names]
      exact hs
    | a :: b :: c :: rest, h => simp at h
  · rw [if_neg ht] at h
    cases h
    show (s.G.add_literal (stripDD t)).names = (s.Ginv.add_literal (stripDD t)).names
    rw [add_literal_names, add_literal_names, hs]

/-- C10: after any successful construction the forward and transpose
graphs carry the SAME name list (every name added to one is added to the
other in the same call), the traversals never change the catalogs, and
looking up any forward-graph name in the transpose graph is non-negative
(never the not-found value -1) with the subsequent list indexing
retrieving exactly the looked-up node. -/
theorem c10_same_catalog_lookup_safe (toks : List Name) (st : BuildSt)
    (h : buildGraphs toks = .ok st) :
    st.G.names = st.Ginv.names ∧
      (pipelineOf toks).1.names = st.G.names ∧
      (pipelineOf toks).2.1.names = st.Ginv.names ∧
      ∀ nm ∈ st.G.names,
        0 ≤ st.Ginv.get_literal_id nm ∧
          st.Ginv.names.getD (st.Ginv.pyIndex (st.Ginv.get_literal_id nm)) [] = nm := by
  have hnames : st.G.names = st.Ginv.names :=
    processFrom_inv (fun s => s.G.names = s.Ginv.names) buildStep_names_eq
      toks ⟨.empty, .empty, []⟩ st rfl (by rw [← buildGraphs_eq_processFrom]; exact h)
  have hpipe : pipelineOf toks = pipeline st.G st.Ginv := by
    unfold pipelineOf
    rw [h]
  refine ⟨hnames, ?_, ?_, ?_⟩
  · rw [hpipe]
    exact (pipeline_names st.G st.Ginv).1
  · rw [hpipe]
    exact (pipeline_names st.G st.Ginv).2
  · intro nm hnm
    exact get_literal_id_of_mem st.Ginv nm (hnames ▸ hnm)

/-- Witness for C10 on the stream `1 2 0` at the name `2`. -/
theorem c10_same_catalog_lookup_safe_witness :
    buildGraphs [['1'], ['2'], ['0']] = .ok (builtOf [['1'], ['2'], ['0']]) ∧
      (['2'] : Name) ∈ (builtOf [['1'], ['2'], ['0']]).G.names ∧
      (0 ≤ (builtOf [['1'], ['2'], ['0']]).Ginv.get_literal_id ['2'] ∧
        (builtOf [['1'], ['2'], ['0']]).Ginv.names.getD
          ((builtOf [['1'], ['2'], ['0']]).Ginv.pyIndex
            ((builtOf [['1'], ['2'], ['0']]).Ginv.get_literal_id ['2'])) [] = ['2']) :=
  ⟨rfl, by decide,
    (c10_same_catalog_lookup_safe [['1'], ['2'], ['0']] (builtOf [['1'], ['2'], ['0']])
      rfl).2.2.2 ['2'] (by decide)⟩

/-- A colour read that succeeds bounds the index. -/
lemma lt_length_of_color_getD (l : List (Option Col)) (i : Nat) (c : Col)
    (h : l.getD i none = some c) : i < l.length := by
  by_contra hge
  rw [List.getD_eq_getElem?_getD, List.getElem?_eq_none (by omega)] at h
  simp at h

/-- Unfolding of a successful `dfs_visit` step into one record update
before and one after the neighbour loop. -/
lemma dfs_visit_succ (fuel : Nat) (g : Implication_Graph) (u : Nat) :
    Implication_Graph.dfs_visit (fuel + 1) g u =
      (let g3 : Implication_Graph :=
        { g with dfs_time := g.dfs_time + 1,
                 d := g.d.set u (some (g.dfs_time + 1)),
                 color := g.color.set u (some Col.grey) }
       let g4 := Implication_Graph.visit_fold fuel u (g.adj.getD u []) g3
       { g4 with color := g4.color.set u (some Col.black),
                 dfs_time := g4.dfs_time + 1,
                 f := g4.f.set u (some (g4.dfs_time + 1)),
                 dfs_topo_sorted := g4.dfs_topo_sorted ++ [u] }) := rfl

lemma visit_fold_nil (fuel u : Nat) (g : Implication_Graph) :
    Implication_Graph.visit_fold fuel u [] g = g := rfl

lemma visit_fold_cons (fuel u v : Nat) (vs : List Nat) (g : Implication_Graph) :
    Implication_Graph.visit_fold fuel u (v :: vs) g =
      Implication_Graph.visit_fold fuel u vs
        (Implication_Graph.visit_step (Implication_Graph.dfs_visit fuel) u g v) := rfl

lemma visitPost_refl (g : Implication_Graph) : visitPost g g :=
  ⟨fun _ => Iff.rfl, fun _ h => h, fun _ h => h, fun _ h => h, le_refl _, rfl,
    ⟨[], by simp⟩, fun h => h⟩

lemma visitPost_trans (a b c : Implication_Graph) (h1 : visitPost a b)
    (h2 : visitPost b c) : visitPost a c := by
  obtain ⟨g1, b1, nw1, nn1, w1, l1, ⟨t1, ht1⟩, bt1⟩ := h1
  obtain ⟨g2, b2, nw2, nn2, w2, l2, ⟨t2, ht2⟩, bt2⟩ := h2
  refine ⟨fun i => (g2 i).trans (g1 i), fun i h => b2 i (b1 i h),
    fun i h => nw1 i (nw2 i h), fun i h => nn1 i (nn2 i h), w2.trans w1,
    l2.trans l1, ⟨t1 ++ t2, by rw [ht2, ht1, List.append_assoc]⟩,
    fun h => bt2 (bt1 h)⟩

lemma getD_set_self {α : Type} (l : List α) (i : Nat) (a d : α)
    (h : i < l.length) : (l.set i a).getD i d = a := by
  rw [List.getD_eq_getElem?_getD, List.getElem?_set_self h]
  rfl

lemma getD_set_ne {α : Type} (l : List α) (i j : Nat) (a d : α)
    (h : i ≠ j) : (l.set i a).getD j d = l.getD j d := by
  rw [List.getD_eq_getElem?_getD, List.getElem?_set_ne h, ← List.getD_eq_getElem?_getD]

lemma getElem_eq_of_getD {α : Type} (l : List α) (i : Nat) (d a : α)
    (hlt : i < l.length) (h : l.getD i d = a) : l[i] = a := by
  rw [List.getD_eq_getElem?_getD, List.getElem?_eq_getElem hlt] at h
  simpa using h

/-- The one white literal at `u` makes the white count positive. -/
lemma whites_pos (g : Implication_Graph) (u : Nat)
    (h : g.color.getD u none = some Col.white) : 0 < whites g := by
  have hlt := lt_length_of_color_getD _ _ _ h
  have hget : g.color[u] = some Col.white := getElem_eq_of_getD _ _ _ _ hlt h
  unfold whites
  rw [List.countP_pos]
  exact ⟨some Col.white, by rw [← hget]; exact List.getElem_mem hlt, by simp⟩

/-- The main DFS completion lemma: with fuel at least the white count, a
visit of a white literal completes — it preserves the grey set, keeps
blacks black, blackens the visited literal, and strictly shrinks the
white count; the finish-list invariant is maintained. -/
lemma dfs_visit_post : ∀ (fuel : Nat) (g : Implication_Graph) (u : Nat),
    g.color.getD u none = some Col.white → whites g ≤ fuel →
    visitPost g (Implication_Graph.dfs_visit fuel g u) ∧
      (Implication_Graph.dfs_visit fuel g u).color.getD u none = some Col.black ∧
      whites (Implication_Graph.dfs_visit fuel g u) < whites g := by
  intro fuel
  induction fuel with
  | zero =>
    intro g u hw hfuel
    exact absurd hfuel (by have := whites_pos g u hw; omega)
  | succ n ih =>
    intro g u hw hfuel
    have hulen : u < g.color.length := lt_length_of_color_getD _ _ _ hw
    have hgetu : g.color[u] = some Col.white := getElem_eq_of_getD _ _ _ _ hulen hw
    rw [dfs_visit_succ]
    set g3 : Implication_Graph :=
      { g with dfs_time := g.dfs_time + 1,
               d := g.d.set u (some (g.dfs_time + 1)),
               color := g.color.set u (some Col.grey) } with hg3
    have hg3len : g3.color.length = g.color.length := List.length_set _ _ _
    have hg3u : g3.color.getD u none = some Col.grey := getD_set_self _ _ _ _ hulen
    have hg3ne : ∀ i, i ≠ u → g3.color.getD i none = g.color.getD i none := by
      intro i hi
      exact getD_set_ne _ _ _ _ _ (Ne.symm hi)
    have hwg3 : whites g3 + 1 = whites g := by
      unfold whites
      show (g.color.set u (some Col.grey)).countP
        (fun c => decide (c = some Col.white)) + 1 = _
      rw [List.countP_set _ _ _ _ hulen, hgetu]
      have hpos := whites_pos g u hw
      unfold whites at hpos
      simp
      omega
    have hfold : ∀ (l : List Nat) (gc : Implication_Graph), visitPost g3 gc →
        visitPost g3 (Implication_Graph.visit_fold n u l gc) := by
      intro l
      induction l with
      | nil => intro gc h; rwa [visit_fold_nil]
      | cons v vs ihl =>
        intro gc h
        rw [visit_fold_cons]
        apply ihl
        unfold Implication_Graph.visit_step
        by_cases hv : gc.color.getD v none = some Col.white
        · rw [if_pos hv]
          have hpp : visitPost g3 { gc with parent := gc.parent.set v (some u) } := h
          have hwgc : whites { gc with parent := gc.parent.set v (some u) } ≤ n := by
            have h1 := hpp.2.2.2.2.1
            omega
          obtain ⟨hpost, _, _⟩ := ih { gc with parent := gc.parent.set v (some u) } v hv hwgc
          exact visitPost_trans g3 _ _ hpp hpost
        · rw [if_neg hv]
          exact h
    have hF := hfold (g.adj.getD u []) g3 (visitPost_refl g3)
    set gF := Implication_Graph.visit_fold n u (g.adj.getD u []) g3 with hgF
    obtain ⟨hFg, hFb, hFnw, hFn, hFw, hFl, ⟨tl, htl⟩, hFbt⟩ := hF
    have hFlen : gF.color.length = g.color.length := hFl.trans hg3len
    have hFu : gF.color.getD u none = some Col.grey := (hFg u).mpr hg3u
    have hFulen : u < gF.color.length := by omega
    have hFgetu : gF.color[u] = some Col.grey := getElem_eq_of_getD _ _ _ _ hFulen hFu
    show visitPost g
        { gF with color := gF.color.set u (some Col.black),
                  dfs_time := gF.dfs_time + 1,
                  f := gF.f.set u (some (gF.dfs_time + 1)),
                  dfs_topo_sorted := gF.dfs_topo_sorted ++ [u] } ∧ _ ∧ _
    have hfinu : (gF.color.set u (some Col.black)).getD u none = some Col.black :=
      getD_set_self _ _ _ _ hFulen
    have hfinne : ∀ i, i ≠ u →
        (gF.color.set u (some Col.black)).getD i none = gF.color.getD i none := by
      intro i hi
      exact getD_set_ne _ _ _ _ _ (Ne.symm hi)
    have hwfin : (gF.color.set u (some Col.black)).countP
        (fun c => decide (c = some Col.white)) = whites gF := by
      rw [List.countP_set _ _ _ _ hFulen, hFgetu]
      simp [whites]
    refine ⟨⟨?_, ?_, ?_, ?_, ?_, ?_, ?_, ?_⟩, ?_, ?_⟩
    · intro i
      by_cases hi : i = u
      · subst hi
        constructor
        · intro hh
          dsimp only at hh
          rw [hfinu] at hh
          exact absurd hh (by simp)
        · intro hh
          rw [hw] at hh
          exact absurd hh (by simp)
      · show (gF.color.set u (some Col.black)).getD i none = some Col.grey ↔ _
        rw [hfinne i hi, hFg i, hg3ne i hi]
    · intro i hb
      have hi : i ≠ u := by
        intro he
        subst he
        rw [hw] at hb
        exact absurd hb (by simp)
      show (gF.color.set u (some Col.black)).getD i none = some Col.black
      rw [hfinne i hi]
      exact hFb i (by rw [hg3ne i hi]; exact hb)
    · intro i hb
      by_cases hi : i = u
      · subst hi
        dsimp only at hb
        rw [hfinu] at hb
        exact absurd hb (by simp)
      · dsimp only at hb
        rw [hfinne i hi] at hb
        have := hFnw i hb
        rw [hg3ne i hi] at this
        exact this
    · intro i hb
      by_cases hi : i = u
      · subst hi
        dsimp only at hb
        rw [hfinu] at hb
        exact absurd hb (by simp)
      · dsimp only at hb
        rw [hfinne i hi] at hb
        have := hFn i hb
        rw [hg3ne i hi] at this
        exact this
    · show (gF.color.set u (some Col.black)).countP _ ≤ whites g
      rw [hwfin]
      omega
    · show (gF.color.set u (some Col.black)).length = g.color.length
      rw [List.length_set]
      exact hFlen
    · exact ⟨tl ++ [u], by
        show gF.dfs_topo_sorted ++ [u] = _
        rw [htl]
        show (g.dfs_topo_sorted ++ tl) ++ [u] = _
        rw [List.append_assoc]⟩
    · intro hbt i hb
      show i ∈ gF.dfs_topo_sorted ++ [u]
      by_cases hi : i = u
      · subst hi
        simp
      · dsimp only at hb
        rw [hfinne i hi] at hb
        have hbt3 : ∀ j, g3.color.getD j none = some Col.black →
            j ∈ g3.dfs_topo_sorted := by
          intro j hj
          have hj2 : j ≠ u := by
            intro he
            subst he
            rw [hg3u] at hj
            exact absurd hj (by simp)
          exact hbt j (by rw [← hg3ne j hj2]; exact hj)
        have := hFbt hbt3 i hb
        exact List.mem_append_left _ this
    · exact hfinu
    · show (gF.color.set u (some Col.black)).countP _ < whites g
      rw [hwfin]
      omega

/-- Plain invariant preservation along a fold. -/
lemma foldl_inv {σ α : Type} (step : σ → α → σ) (P : σ → Prop)
    (hstep : ∀ s x, P s → P (step s x)) :
    ∀ (l : List α) (s : σ), P s → P (l.foldl step s) := by
  intro l
  induction l with
  | nil => intro s h; exact h
  | cons x xs ih =>
    intro s h
    rw [List.foldl_cons]
    exact ih (step s x) (hstep s x h)

/-- Setting a `checked` flag keeps every true flag true. -/
lemma checked_set_mono (l : List Bool) (c i : Nat)
    (h : l.getD i false = true) : (l.set c true).getD i false = true := by
  by_cases hic : c = i
  · subst hic
    by_cases hlt : c < l.length
    · rw [getD_set_self _ _ _ _ hlt]
    · rw [List.getD_eq_getElem?_getD, List.getElem?_eq_none (by omega)] at h
      simp at h
  · rw [getD_set_ne _ _ _ _ _ hic]
    exact h

/-- The equation of a successful chain-walk step. -/
lemma chain_walk_succ (fuel : Nat) (g : Implication_Graph) (c : Nat) :
    Implication_Graph.chain_walk (fuel + 1) g (some c) =
      ((Implication_Graph.chain_walk fuel
          { g with checked := g.checked.set c true }
          (g.parent.getD c none)).1,
        c :: (Implication_Graph.chain_walk fuel
          { g with checked := g.checked.set c true }
          (g.parent.getD c none)).2) := rfl

/-- The chain walk never unchecks a literal. -/
lemma chain_walk_checked_mono : ∀ (fuel : Nat) (g : Implication_Graph)
    (c : Option Nat) (i : Nat), g.checked.getD i false = true →
    (Implication_Graph.chain_walk fuel g c).1.checked.getD i false = true := by
  intro fuel
  induction fuel with
  | zero => intro g c i h; exact h
  | succ n ih =>
    intro g c i h
    match c with
    | none => exact h
    | some c0 =>
      rw [chain_walk_succ]
      exact ih _ _ i (checked_set_mono _ _ _ h)

/-- A literal checked after the chain walk was either checked before or is
a member of the returned chain. -/
lemma chain_walk_new_checked : ∀ (fuel : Nat) (g : Implication_Graph)
    (c : Option Nat) (i : Nat),
    (Implication_Graph.chain_walk fuel g c).1.checked.getD i false = true →
    g.checked.getD i false = true ∨ i ∈ (Implication_Graph.chain_walk fuel g c).2 := by
  intro fuel
  induction fuel with
  | zero => intro g c i h; exact Or.inl h
  | succ n ih =>
    intro g c i h
    match c with
    | none => exact Or.inl h
    | some c0 =>
      rw [chain_walk_succ] at h ⊢
      rcases ih _ _ i h with h1 | h1
      · by_cases hic : i = c0
        · subst hic
          exact Or.inr (List.mem_cons_self _ _)
        · left
          show g.checked.getD i false = true
          have : ({ g with checked := g.checked.set c0 true } :
              Implication_Graph).checked.getD i false = true := h1
          rwa [show ({ g with checked := g.checked.set c0 true } :
            Implication_Graph).checked = g.checked.set c0 true from rfl,
            getD_set_ne _ _ _ _ _ (fun he => hic he.symm)] at this
      · exact Or.inr (List.mem_cons_of_mem _ h1)

/-- `recovery` never unchecks a literal. -/
lemma recovery_checked_mono (g : Implication_Graph) (i : Nat)
    (h : g.checked.getD i false = true) :
    (Implication_Graph.recovery g).1.checked.getD i false = true := by
  unfold Implication_Graph.recovery
  refine foldl_inv _ (fun p : Implication_Graph × List (List Nat) =>
    p.1.checked.getD i false = true) ?_ _ _ h
  intro p e hp
  unfold Implication_Graph.recovery_step
  by_cases hc : p.1.checked.getD e false = false
  · rw [if_pos hc]
    exact chain_walk_checked_mono _ _ _ i (checked_set_mono _ _ _ hp)
  · rw [if_neg hc]
    exact hp

/-- One recovery step keeps the "every checked literal was claimed before
recovery or lies in an emitted component" invariant. -/
lemma recovery_step_inv (g : Implication_Graph)
    (p : Implication_Graph × List (List Nat)) (e : Nat)
    (hp : ∀ i, p.1.checked.getD i false = true →
      g.checked.getD i false = true ∨ ∃ c ∈ p.2, i ∈ c) :
    ∀ i, (Implication_Graph.recovery_step p e).1.checked.getD i false = true →
      g.checked.getD i false = true ∨
        ∃ c ∈ (Implication_Graph.recovery_step p e).2, i ∈ c := by
  intro i hstep
  unfold Implication_Graph.recovery_step at hstep ⊢
  by_cases hc : p.1.checked.getD e false = false
  · rw [if_pos hc] at hstep ⊢
    rcases chain_walk_new_checked _ _ _ i hstep with h1 | h1
    · by_cases hie : i = e
      · subst hie
        refine Or.inr ⟨(Implication_Graph.chain_walk
          (p.1.names.length + 1) { p.1 with checked := p.1.checked.set i true }
          (some i)).2, by simp, ?_⟩
        rw [chain_walk_succ]
        exact List.mem_cons_self _ _
      · have h2 : p.1.checked.getD i false = true := by
          have h3 : (({ p.1 with checked := p.1.checked.set e true } :
              Implication_Graph)).checked.getD i false = true := h1
          rwa [show ({ p.1 with checked := p.1.checked.set e true } :
            Implication_Graph).checked = p.1.checked.set e true from rfl,
            getD_set_ne _ _ _ _ _ (fun he => hie he.symm)] at h3
        rcases hp i h2 with h3 | ⟨c, hc1, hc2⟩
        · exact Or.inl h3
        · exact Or.inr ⟨c, List.mem_append_left _ hc1, hc2⟩
    · exact Or.inr ⟨_, List.mem_append_right _ (List.mem_singleton.mpr rfl), h1⟩
  · rw [if_neg hc] at hstep ⊢
    rcases hp i hstep with h3 | ⟨c, hc1, hc2⟩
    · exact Or.inl h3
    · exact Or.inr ⟨c, hc1, hc2⟩

/-- The recovery fold only appends components. -/
lemma recovery_fold_acc_mono (l : List Nat)
    (p : Implication_Graph × List (List Nat)) :
    ∃ t, (l.foldl Implication_Graph.recovery_step p).2 = p.2 ++ t := by
  refine foldl_preserve _ (fun a b : Implication_Graph × List (List Nat) =>
    ∃ t, a.2 = b.2 ++ t) (fun s => ⟨[], by simp⟩) ?_ ?_ l p
  · rintro a b c ⟨t1, h1⟩ ⟨t2, h2⟩
    exact ⟨t1 ++ t2, by rw [h2, h1, List.append_assoc]⟩
  · intro s x
    unfold Implication_Graph.recovery_step
    by_cases hc : s.1.checked.getD x false = false
    · rw [if_pos hc]
      exact ⟨_, rfl⟩
    · rw [if_neg hc]
      exact ⟨[], by simp⟩

/-- A literal checked after `recovery` was checked before or lies in one of
the emitted components. -/
lemma recovery_new_checked (g : Implication_Graph) (i : Nat)
    (h : (Implication_Graph.recovery g).1.checked.getD i false = true) :
    g.checked.getD i false = true ∨
      ∃ c ∈ (Implication_Graph.recovery g).2, i ∈ c := by
  unfold Implication_Graph.recovery at h ⊢
  have main : ∀ (l : List Nat) (p : Implication_Graph × List (List Nat)),
      (∀ j, p.1.checked.getD j false = true →
        g.checked.getD j false = true ∨ ∃ c ∈ p.2, j ∈ c) →
      ∀ j, (l.foldl Implication_Graph.recovery_step p).1.checked.getD j false = true →
        g.checked.getD j false = true ∨
          ∃ c ∈ (l.foldl Implication_Graph.recovery_step p).2, j ∈ c := by
    intro l
    induction l with
    | nil => intro p hp; exact hp
    | cons e l2 ih =>
      intro p hp
      rw [List.foldl_cons]
      exact ih _ (recovery_step_inv g p e hp)
  exact main _ _ (fun j hj => Or.inl hj) i h

/-- Every literal on the finish list was already claimed before `recovery`
or lies in one of the emitted components. -/
lemma recovery_topo_covered (g : Implication_Graph) :
    ∀ e ∈ g.dfs_topo_sorted,
      g.checked.getD e false = true ∨
        ∃ c ∈ (Implication_Graph.recovery g).2, e ∈ c := by
  unfold Implication_Graph.recovery
  have main : ∀ (l : List Nat) (p : Implication_Graph × List (List Nat)),
      (∀ j, p.1.checked.getD j false = true →
        g.checked.getD j false = true ∨ ∃ c ∈ p.2, j ∈ c) →
      ∀ e ∈ l, g.checked.getD e false = true ∨
        ∃ c ∈ (l.foldl Implication_Graph.recovery_step p).2, e ∈ c := by
    intro l
    induction l with
    | nil => intro p hp e he; exact absurd he (by simp)
    | cons e0 l2 ih =>
      intro p hp e he
      rw [List.foldl_cons]
      rcases List.mem_cons.mp he with he1 | he1
      · subst he1
        obtain ⟨t, ht⟩ := recovery_fold_acc_mono l2 (Implication_Graph.recovery_step p e)
        have hcov : g.checked.getD e false = true ∨
            ∃ c ∈ (Implication_Graph.recovery_step p e).2, e ∈ c := by
          unfold Implication_Graph.recovery_step
          by_cases hc : p.1.checked.getD e false = false
          · rw [if_pos hc]
            refine Or.inr ⟨(Implication_Graph.chain_walk
              (p.1.names.length + 1) { p.1 with checked := p.1.checked.set e true }
              (some e)).2,
              List.mem_append_right _ (List.mem_singleton.mpr rfl), ?_⟩
            rw [chain_walk_succ]
            exact List.mem_cons_self _ _
          · rw [if_neg hc]
            rcases hp e (Bool.of_not_eq_false hc) with h3 | ⟨c, hc1, hc2⟩
            · exact Or.inl h3
            · exact Or.inr ⟨c, hc1, hc2⟩
        rcases hcov with h3 | ⟨c, hc1, hc2⟩
        · exact Or.inl h3
        · exact Or.inr ⟨c, by rw [ht]; exact List.mem_append_left _ hc1, hc2⟩
      · exact ih _ (recovery_step_inv g p e0 hp) e he1
  exact main _ _ (fun j hj => Or.inl hj)

/-- With fuel at least the white count, the sweep completes every literal
of the index range: afterwards none of them is white, and the visit
postcondition holds. -/
lemma dfs_sweep_post (fuel : Nat) (g : Implication_Graph)
    (hfuel : whites g ≤ fuel) :
    visitPost g (Implication_Graph.dfs_sweep fuel g).1 ∧
      ∀ i ∈ List.range g.names.length,
        (Implication_Graph.dfs_sweep fuel g).1.color.getD i none ≠ some Col.white := by
  have hfold : ∀ (l : List Nat) (p : Implication_Graph × List Nat),
      whites p.1 ≤ fuel →
      visitPost p.1 (l.foldl (Implication_Graph.sweep_step fuel) p).1 ∧
        ∀ i ∈ l, (l.foldl (Implication_Graph.sweep_step fuel) p).1.color.getD i none ≠
          some Col.white := by
    intro l
    induction l with
    | nil =>
      intro p hp
      exact ⟨visitPost_refl p.1, fun i hi => absurd hi (by simp)⟩
    | cons i l2 ih =>
      intro p hp
      rw [List.foldl_cons]
      have hstep : visitPost p.1 (Implication_Graph.sweep_step fuel p i).1 ∧
          (Implication_Graph.sweep_step fuel p i).1.color.getD i none ≠
            some Col.white := by
        unfold Implication_Graph.sweep_step
        by_cases hw : p.1.color.getD i none = some Col.white
        · rw [if_pos hw]
          obtain ⟨h1, h2, _⟩ := dfs_visit_post fuel p.1 i hw hp
          exact ⟨h1, by rw [h2]; simp⟩
        · rw [if_neg hw]
          exact ⟨visitPost_refl p.1, hw⟩
      have hwle : whites (Implication_Graph.sweep_step fuel p i).1 ≤ fuel :=
        le_trans hstep.1.2.2.2.2.1 hp
      obtain ⟨hf1, hf2⟩ := ih (Implication_Graph.sweep_step fuel p i) hwle
      refine ⟨visitPost_trans _ _ _ hstep.1 hf1, ?_⟩
      intro j hj
      rcases List.mem_cons.mp hj with hj1 | hj1
      · subst hj1
        intro hcon
        exact hstep.2 (hf1.2.2.1 j hcon)
      · exact hf2 j hj1
  exact hfold (List.range g.names.length) (g, []) hfuel

/-- On a duplicate-free name list, looking a name up by value returns its
own index. -/
lemma idxOf_nodup (nm : Name) :
    ∀ (l : List Name), l.Nodup → ∀ i, i < l.length → l.getD i [] = nm →
      Implication_Graph.idxOf nm l = some i := by
  intro l
  induction l with
  | nil => intro _ i hi; exact absurd hi (by simp)
  | cons x xs ih =>
    intro hnod i hi hname
    match i with
    | 0 =>
      have : x = nm := by simpa using hname
      simp [Implication_Graph.idxOf, this]
    | i + 1 =>
      have hmem : nm ∈ xs := by
        have : xs.getD i [] = nm := by simpa using hname
        rw [← this]
        rw [List.getD_eq_getElem?_getD, List.getElem?_eq_getElem (by simpa using hi)]
        exact List.getElem_mem _
      have hx : x ≠ nm := by
        intro he
        subst he
        exact (List.nodup_cons.mp hnod).1 hmem
      rw [show Implication_Graph.idxOf nm (x :: xs) =
        if x = nm then some 0 else (Implication_Graph.idxOf nm xs).map (· + 1)
        from rfl, if_neg hx,
        ih (List.nodup_cons.mp hnod).2 i (by simpa using hi)
          (by simpa using hname)]
      rfl

/-- The white count never exceeds the colour-array length. -/
lemma whites_le_length (g : Implication_Graph) : whites g ≤ g.color.length :=
  List.countP_le_length _

/-- Full postcondition of the `dfs_second` call made by the `sccs` loop:
every literal ends black and finished, and every literal index is claimed
before the call or covered by the returned components. -/
lemma dfs_second_post (gi : Implication_Graph) (s : Name)
    (hlen : gi.color.length = gi.names.length)
    (hcols : ∀ i < gi.names.length,
      gi.color.getD i none = some Col.white ∨ gi.color.getD i none = some Col.black)
    (hbt : ∀ i, gi.color.getD i none = some Col.black → i ∈ gi.dfs_topo_sorted)
    (hs : s = [] ∨ ∃ idx, idx < gi.names.length ∧ gi.names.Nodup ∧
      gi.names.getD idx [] = s ∧ gi.color.getD idx none = some Col.white) :
    (Implication_Graph.dfs_second (gi.names.length + 1) gi (some s)).1.names = gi.names ∧
    (Implication_Graph.dfs_second (gi.names.length + 1) gi (some s)).1.color.length =
      gi.color.length ∧
    (∀ i < gi.names.length,
      (Implication_Graph.dfs_second (gi.names.length + 1) gi (some s)).1.color.getD
        i none = some Col.black) ∧
    (∀ i, (Implication_Graph.dfs_second (gi.names.length + 1) gi (some s)).1.color.getD
        i none = some Col.black →
      i ∈ (Implication_Graph.dfs_second (gi.names.length + 1) gi (some s)).1.dfs_topo_sorted) ∧
    (∀ i, (Implication_Graph.dfs_second (gi.names.length + 1) gi (some s)).1.checked.getD
        i false = true →
      gi.checked.getD i false = true ∨
        ∃ c ∈ (Implication_Graph.dfs_second (gi.names.length + 1) gi (some s)).2, i ∈ c) ∧
    (∀ i < gi.names.length,
      gi.checked.getD i false = true ∨
        ∃ c ∈ (Implication_Graph.dfs_second (gi.names.length + 1) gi (some s)).2, i ∈ c) := by
  have hwfuel : whites gi ≤ gi.names.length + 1 := by
    have := whites_le_length gi
    omega
  -- the state after the optional start visit
  set fuel := gi.names.length + 1 with hfueldef
  have hstart : ∃ g1 : Implication_Graph,
      Implication_Graph.dfs_second fuel gi (some s) =
        Implication_Graph.recovery (Implication_Graph.dfs_sweep fuel g1).1 ∧
      visitPost gi g1 ∧ dfsFrame g1 gi := by
    by_cases hse : s = []
    · refine ⟨gi, ?_, visitPost_refl gi, dfsFrame_refl gi⟩
      subst hse
      rfl
    · rcases hs with hs0 | ⟨idx, hidx, hnod, hname, hwhite⟩
      · exact absurd hs0 hse
      · have hgid : gi.get_literal_id s = (idx : Int) := by
          unfold Implication_Graph.get_literal_id
          rw [idxOf_nodup s gi.names hnod idx hidx hname]
        have hpy : gi.pyIndex (gi.get_literal_id s) = idx := by
          unfold Implication_Graph.pyIndex
          rw [hgid, if_pos (by positivity)]
          simp
        refine ⟨Implication_Graph.dfs_visit fuel gi idx, ?_, ?_, ?_⟩
        · unfold Implication_Graph.dfs_second
          dsimp only
          rw [if_neg hse, hpy]
        · exact (dfs_visit_post fuel gi idx hwhite (by omega)).1
        · exact dfs_visit_frame fuel gi idx
  obtain ⟨g1, heq, hpost1, hframe1⟩ := hstart
  have hg1names : g1.names = gi.names := hframe1.1
  have hg1checked : g1.checked = gi.checked := hframe1.2.2.2
  have hw1 : whites g1 ≤ fuel := le_trans hpost1.2.2.2.2.1 hwfuel
  obtain ⟨hpostsw, hnw⟩ := dfs_sweep_post fuel g1 hw1
  set gsw := (Implication_Graph.dfs_sweep fuel g1).1 with hgswdef
  have hpost : visitPost gi gsw := visitPost_trans _ _ _ hpost1 hpostsw
  have hswframe : dfsFrame gsw g1 := dfs_sweep_frame fuel g1
  have hswnames : gsw.names = gi.names := hswframe.1.trans hg1names
  have hswchecked : gsw.checked = gi.checked := hswframe.2.2.2.trans hg1checked
  have hswlen : gsw.color.length = gi.color.length := hpost.2.2.2.2.2.1
  -- all black after the sweep
  have hblack : ∀ i < gi.names.length, gsw.color.getD i none = some Col.black := by
    intro i hi
    have hnotwhite : gsw.color.getD i none ≠ some Col.white := by
      have := hnw i (by rw [hg1names]; exact List.mem_range.mpr hi)
      exact this
    have hnotgrey : gsw.color.getD i none ≠ some Col.grey := by
      intro hcon
      have := (hpost.1 i).mp hcon
      rcases hcols i hi with h2 | h2 <;> rw [h2] at this <;> simp at this
    have hnotnone : gsw.color.getD i none ≠ none := by
      intro hcon
      have := hpost.2.2.2.1 i hcon
      rcases hcols i hi with h2 | h2 <;> rw [h2] at this <;> simp at this
    match hcol : gsw.color.getD i none with
    | none => exact absurd hcol hnotnone
    | some Col.white => exact absurd hcol hnotwhite
    | some Col.grey => exact absurd hcol hnotgrey
    | some Col.black => rfl
  have hbtsw : ∀ i, gsw.color.getD i none = some Col.black →
      i ∈ gsw.dfs_topo_sorted := hpost.2.2.2.2.2.2.2 hbt
  -- recovery only touches `checked`
  have hrframe : walkFrame (Implication_Graph.recovery gsw).1 gsw :=
    recovery_frame gsw
  rw [heq]
  refine ⟨?_, ?_, ?_, ?_, ?_, ?_⟩
  · exact hrframe.1.trans hswnames
  · exact (congrArg List.length hrframe.2.2.2.2.2.1).trans hswlen
  · intro i hi
    rw [show (Implication_Graph.recovery gsw).1.color = gsw.color
      from hrframe.2.2.2.2.2.1]
    exact hblack i hi
  · intro i hb
    rw [show (Implication_Graph.recovery gsw).1.color = gsw.color
      from hrframe.2.2.2.2.2.1] at hb
    rw [show (Implication_Graph.recovery gsw).1.dfs_topo_sorted = gsw.dfs_topo_sorted
      from hrframe.2.2.2.2.2.2.2.2]
    exact hbtsw i hb
  · intro i hchk
    have := recovery_new_checked gsw i hchk
    rwa [hswchecked] at this
  · intro i hi
    have := recovery_topo_covered gsw i (hbtsw i (hblack i hi))
    rwa [hswchecked] at this

/-- A successful index lookup is within range. -/
lemma idxOf_lt_length (nm : Name) :
    ∀ (l : List Name) (i : Nat), Implication_Graph.idxOf nm l = some i →
      i < l.length := by
  intro l
  induction l with
  | nil => intro i h; simp [Implication_Graph.idxOf] at h
  | cons x xs ih =>
    intro i h
    rw [show Implication_Graph.idxOf nm (x :: xs) =
      if x = nm then some 0 else (Implication_Graph.idxOf nm xs).map (· + 1)
      from rfl] at h
    by_cases hx : x = nm
    · rw [if_pos hx] at h
      cases h
      simp
    · rw [if_neg hx] at h
      match hxs : Implication_Graph.idxOf nm xs, h with
      | some j, h =>
        have hj : j + 1 = i := by simpa using h
        have := ih j hxs
        simp only [List.length_cons]
        omega
      | none, h => simp at h

/-- The Python index the `sccs` loop reads is always within range on a
non-empty catalog. -/
lemma pyIndex_lt (g : Implication_Graph) (nm : Name)
    (hlen : 0 < g.names.length) :
    g.pyIndex (g.get_literal_id nm) < g.names.length := by
  unfold Implication_Graph.pyIndex Implication_Graph.get_literal_id
  match hidx : Implication_Graph.idxOf nm g.names with
  | some i =>
    show (if (0 : Int) ≤ (i : Int) then ((i : Int)).toNat else g.names.length - 1) <
      g.names.length
    rw [if_pos (by positivity)]
    simpa using idxOf_lt_length nm g.names i hidx
  | none =>
    show (if (0 : Int) ≤ (-1 : Int) then ((-1 : Int)).toNat else g.names.length - 1) <
      g.names.length
    rw [if_neg (by omega)]
    omega

/-- One `sccs`-loop step preserves the loop invariant. -/
lemma scc_step_inv (G1 : Implication_Graph) (N : List Name) (hnod : N.Nodup)
    (p : Implication_Graph × List (List Nat)) (u : Nat) (h : sccInv N p) :
    sccInv N (scc_step G1 p u) := by
  obtain ⟨hN, hlen, hcols, hbt, hchk⟩ := h
  unfold scc_step
  by_cases hg : p.1.color.getD (p.1.pyIndex (p.1.get_literal_id
      (G1.names.getD u []))) none = some Col.white
  · rw [if_pos hg]
    set idx := p.1.pyIndex (p.1.get_literal_id (G1.names.getD u [])) with hidxdef
    have hidxlt : idx < p.1.names.length := by
      have := lt_length_of_color_getD _ _ _ hg
      omega
    have hpost := dfs_second_post p.1 (p.1.names.getD idx [])
      (by omega) hcols hbt
      (Or.inr ⟨idx, hidxlt, by rw [hN]; exact hnod, rfl, hg⟩)
    obtain ⟨p1, p2, p3, p4, p5, _⟩ := hpost
    refine ⟨p1.trans hN, ?_, ?_, p4, ?_⟩
    · rw [p2, p1]
      omega
    · intro i hi
      rw [p1] at hi
      exact Or.inr (p3 i hi)
    · intro i hi
      rcases p5 i hi with h1 | ⟨c, hc1, hc2⟩
      · obtain ⟨c, hc1, hc2⟩ := hchk i h1
        exact ⟨c, List.mem_append_left _ hc1, hc2⟩
      · exact ⟨c, List.mem_append_right _ hc1, hc2⟩
  · rw [if_neg hg]
    exact ⟨hN, hlen, hcols, hbt, hchk⟩

/-- One `sccs`-loop step never uncovers a covered literal. -/
lemma scc_step_allcov (G1 : Implication_Graph)
    (p : Implication_Graph × List (List Nat)) (u : Nat) (h : allCov p) :
    allCov (scc_step G1 p u) := by
  unfold scc_step
  by_cases hg : p.1.color.getD (p.1.pyIndex (p.1.get_literal_id
      (G1.names.getD u []))) none = some Col.white
  · rw [if_pos hg]
    intro i hi
    set r := Implication_Graph.dfs_second (p.1.names.length + 1) p.1
      (some (p.1.names.getD (p.1.pyIndex (p.1.get_literal_id
        (G1.names.getD u []))) [])) with hrdef
    have hrn : r.1.names = p.1.names := dfs_second_names _ _ _
    rw [show ((r.1, p.2 ++ r.2) :
      Implication_Graph × List (List Nat)).1.names = r.1.names from rfl, hrn] at hi
    obtain ⟨c, hc1, hc2⟩ := h i hi
    exact ⟨c, List.mem_append_left _ hc1, hc2⟩
  · rw [if_neg hg]
    exact h

/-- From the all-white state, the first `sccs`-loop step runs `dfs_second`
and covers every literal index. -/
lemma scc_step_fires (G1 : Implication_Graph) (N : List Name) (hnod : N.Nodup)
    (p : Implication_Graph × List (List Nat)) (u : Nat) (h : sccInv N p)
    (hpos : 0 < p.1.names.length)
    (hwhite : ∀ i < p.1.names.length, p.1.color.getD i none = some Col.white) :
    allCov (scc_step G1 p u) := by
  obtain ⟨hN, hlen, hcols, hbt, hchk⟩ := h
  unfold scc_step
  have hidxlt := pyIndex_lt p.1 (G1.names.getD u []) hpos
  have hg : p.1.color.getD (p.1.pyIndex (p.1.get_literal_id
      (G1.names.getD u []))) none = some Col.white := hwhite _ hidxlt
  rw [if_pos hg]
  have hpost := dfs_second_post p.1
    (p.1.names.getD (p.1.pyIndex (p.1.get_literal_id (G1.names.getD u []))) [])
    (by omega) hcols hbt
    (Or.inr ⟨_, hidxlt, by rw [hN]; exact hnod, rfl, hg⟩)
  obtain ⟨p1, _, _, _, _, p6⟩ := hpost
  intro i hi
  rw [show ∀ q : Implication_Graph × List (List Nat), q.1.names = q.1.names from
    fun _ => rfl] at hi
  have hi2 : i < p.1.names.length := by
    rw [show ((Implication_Graph.dfs_second (p.1.names.length + 1) p.1
      (some (p.1.names.getD (p.1.pyIndex (p.1.get_literal_id
        (G1.names.getD u []))) []))).1, p.2 ++ (Implication_Graph.dfs_second
        (p.1.names.length + 1) p.1 (some (p.1.names.getD (p.1.pyIndex
        (p.1.get_literal_id (G1.names.getD u []))) []))).2).1.names =
      (Implication_Graph.dfs_second (p.1.names.length + 1) p.1
      (some (p.1.names.getD (p.1.pyIndex (p.1.get_literal_id
        (G1.names.getD u []))) []))).1.names from rfl, p1] at hi
    exact hi
  rcases p6 i hi2 with h1 | ⟨c, hc1, hc2⟩
  · obtain ⟨c, hc1, hc2⟩ := hchk i h1
    exact ⟨c, List.mem_append_left _ hc1, hc2⟩
  · exact ⟨c, List.mem_append_right _ hc1, hc2⟩

lemma getD_map_const (l : List Name) (i : Nat) (x : Option Col)
    (h : i < l.length) : (l.map (fun _ => x)).getD i none = x := by
  rw [List.getD_eq_getElem?_getD, List.getElem?_map,
    List.getElem?_eq_getElem h]
  rfl

/-- Any fold of sweep steps only appends roots. -/
lemma sweep_fold_acc_mono (fuel : Nat) (l : List Nat)
    (p : Implication_Graph × List Nat) :
    ∃ t, (l.foldl (Implication_Graph.sweep_step fuel) p).2 = p.2 ++ t := by
  refine foldl_preserve _ (fun a b : Implication_Graph × List Nat =>
    ∃ t, a.2 = b.2 ++ t) (fun s => ⟨[], by simp⟩) ?_ ?_ l p
  · rintro a b c ⟨t1, h1⟩ ⟨t2, h2⟩
    exact ⟨t1 ++ t2, by rw [h2, h1, List.append_assoc]⟩
  · intro s x
    unfold Implication_Graph.sweep_step
    by_cases hc : s.1.color.getD x none = some Col.white
    · rw [if_pos hc]
      exact ⟨[x], rfl⟩
    · rw [if_neg hc]
      exact ⟨[], by simp⟩

/-- On a non-empty all-white graph, the sweep's root list starts with 0. -/
lemma sweep_roots_head (fuel : Nat) (g : Implication_Graph)
    (hpos : 0 < g.names.length) (h0 : g.color.getD 0 none = some Col.white) :
    ∃ t, (Implication_Graph.dfs_sweep fuel g).2 = 0 :: t := by
  unfold Implication_Graph.dfs_sweep
  obtain ⟨n, hn⟩ : ∃ n, g.names.length = n + 1 := ⟨g.names.length - 1, by omega⟩
  rw [hn, List.range_succ_eq_map, List.foldl_cons]
  have hstep : Implication_Graph.sweep_step fuel (g, []) 0 =
      (Implication_Graph.dfs_visit fuel g 0, [0]) := by
    unfold Implication_Graph.sweep_step
    rw [if_pos h0]
    rfl
  rw [hstep]
  obtain ⟨t, ht⟩ := sweep_fold_acc_mono fuel (List.map (· + 1) (List.range n))
    (Implication_Graph.dfs_visit fuel g 0, [0])
  exact ⟨t, by rw [ht]; rfl⟩

/-- The pipeline covers every literal index of the transpose graph with at
least one emitted SCC. -/
lemma pipeline_covers (G0 Ginv0 : Implication_Graph)
    (hnames : G0.names = Ginv0.names) (hnod : Ginv0.names.Nodup)
    (hchk : ∀ i, Ginv0.checked.getD i false = false) :
    ∀ i < Ginv0.names.length, ∃ c ∈ (pipeline G0 Ginv0).2.2.2, i ∈ c := by
  intro i hi
  have hpos : 0 < Ginv0.names.length := by omega
  unfold pipeline
  dsimp only
  set G := G0.dfs_init with hGdef
  set Ginv := Ginv0.dfs_init with hGinvdef
  have hGinvnames : Ginv.names = Ginv0.names := rfl
  have hGinvlen : Ginv.color.length = Ginv.names.length := by
    show (Ginv0.names.map _).length = _
    simp
    rfl
  have hGinvwhite : ∀ j < Ginv.names.length,
      Ginv.color.getD j none = some Col.white := by
    intro j hj
    exact getD_map_const _ _ _ hj
  have hGinvInv : sccInv Ginv0.names (Ginv, ([] : List (List Nat))) := by
    refine ⟨hGinvnames, hGinvlen, ?_, ?_, ?_⟩
    · intro j hj
      exact Or.inl (hGinvwhite j hj)
    · intro j hj
      have hjlen : j < Ginv.color.length := lt_length_of_color_getD _ _ _ hj
      rw [hGinvwhite j (by omega)] at hj
      simp at hj
    · intro j hj
      rw [show (Ginv, ([] : List (List Nat))).1.checked = Ginv0.checked from rfl,
        hchk j] at hj
      simp at hj
  -- the pass-1 root list starts with 0
  have hGpos : 0 < G.names.length := by
    show 0 < G0.names.length
    rw [hnames]
    exact hpos
  have hG0white : G.color.getD 0 none = some Col.white := by
    refine getD_map_const _ _ _ ?_
    show 0 < G0.names.length
    rw [hnames]
    exact hpos
  have horder : ∃ t, (Implication_Graph.dfs_first (G.names.length + 1) G none).2 =
      0 :: t := by
    unfold Implication_Graph.dfs_first
    exact sweep_roots_head _ G hGpos hG0white
  obtain ⟨t, ht⟩ := horder
  set G1 := (Implication_Graph.dfs_first (G.names.length + 1) G none).1 with hG1
  rw [ht, List.foldl_cons]
  have hfire : allCov (scc_step G1 (Ginv, []) 0) :=
    scc_step_fires G1 Ginv0.names hnod (Ginv, []) 0 hGinvInv hpos hGinvwhite
  have hinv1 : sccInv Ginv0.names (scc_step G1 (Ginv, []) 0) :=
    scc_step_inv G1 Ginv0.names hnod (Ginv, []) 0 hGinvInv
  have hfold : sccInv Ginv0.names (t.foldl (scc_step G1) (scc_step G1 (Ginv, []) 0)) ∧
      allCov (t.foldl (scc_step G1) (scc_step G1 (Ginv, []) 0)) := by
    refine foldl_inv (scc_step G1)
      (fun p => sccInv Ginv0.names p ∧ allCov p) ?_ t _ ⟨hinv1, hfire⟩
    intro p u hp
    exact ⟨scc_step_inv G1 Ginv0.names hnod p u hp.1,
      scc_step_allcov G1 p u hp.2⟩
  have hlen2 : (t.foldl (scc_step G1) (scc_step G1 (Ginv, []) 0)).1.names =
      Ginv0.names := hfold.1.1
  exact hfold.2 i (by rw [hlen2]; exact hi)

/-- A list of only-false booleans reads false everywhere. -/
lemma all_false_getD (l : List Bool) (h : ∀ b ∈ l, b = false) (i : Nat) :
    l.getD i false = false := by
  rw [List.getD_eq_getElem?_getD]
  match hg : l[i]? with
  | none => rfl
  | some b =>
    have := h b (List.getElem?_mem hg)
    simp [this]

/-- `add_literal` preserves duplicate-freedom (using negation-closure). -/
lemma add_literal_nodup (g : Implication_Graph) (raw : Name)
    (hg : goodNames g) (hnod : g.names.Nodup) : (g.add_literal raw).names.Nodup := by
  rw [add_literal_names]
  by_cases hmem : stripDD raw ∈ g.names
  · rwa [if_pos hmem]
  · rw [if_neg hmem]
    have hng : get_negation (stripDD raw) ∉ g.names := by
      intro hin
      obtain ⟨h1, h2⟩ := hg _ hin
      rw [get_negation_involution (stripDD raw) (noDD_stripDD raw)] at h2
      exact hmem h2
    have hne : stripDD raw ≠ get_negation (stripDD raw) :=
      fun he => get_negation_ne (stripDD raw) (noDD_stripDD raw) he.symm
    rw [List.nodup_append]
    refine ⟨hnod, by simp [hne], ?_⟩
    intro a ha hb
    simp only [List.mem_cons, List.mem_singleton] at hb
    rcases hb with hb | hb | hb
    · subst hb; exact hmem ha
    · subst hb; exact hng ha
    · exact absurd hb (by simp)

/-- `buildStep` preserves the construction invariant. -/
lemma buildStep_builtInv (s : BuildSt) (t : Name) (s2 : BuildSt)
    (hs : builtInv s) (h : buildStep s t = .ok s2) : builtInv s2 := by
  obtain ⟨hgood, hnod, hnames, hchk⟩ := hs
  unfold buildStep at h
  by_cases ht : t = ['0']
  · rw [if_pos ht] at h
    match hc : s.cur, h with
    | [], h =>
      cases h
      exact ⟨hgood, hnod, hnames, hchk⟩
    | [a], h => simp at h
    | [a, b], h =>
      cases h
      refine ⟨goodNames_of_names_eq _ s.G ?_ hgood, ?_, ?_, ?_⟩
      · rw [add_implication_names, add_implication_names]
      · show ((s.G.add_implication (get_negation a) b).add_implication
          (get_negation b) a).names.Nodup
        rw [add_implication_names, add_implication_names]
        exact hnod
      · show ((s.G.add_implication (get_negation a) b).add_implication
            (get_negation b) a).names =
          ((s.Ginv.add_implication b (get_negation a)).add_implication
            a (get_negation b)).names
        rw [add_implication_names, add_implication_names,
          add_implication_names, add_implication_names]
        exact hnames
      · show ∀ x ∈ ((s.Ginv.add_implication b (get_negation a)).add_implication
          a (get_negation b)).checked, x = false
        have hc1 : ∀ (g : Implication_Graph) (n1 n2 : Name),
            (g.add_implication n1 n2).checked = g.checked := by
          intro g n1 n2
          unfold Implication_Graph.add_implication
          by_cases hcond : 0 ≤ g.get_literal_id n1 ∧ 0 ≤ g.get_literal_id n2 ∧
              g.get_literal_id n1 ≠ g.get_literal_id n2
          · simp only [if_pos hcond]
          · simp only [if_neg hcond]
        rw [hc1, hc1]
        exact hchk
    | a :: b :: c :: rest, h => simp at h
  · rw [if_neg ht] at h
    cases h
    refine ⟨add_literal_goodNames _ _ hgood, add_literal_nodup _ _ hgood hnod, ?_, ?_⟩
    · show (s.G.add_literal (stripDD t)).names = (s.Ginv.add_literal (stripDD t)).names
      rw [add_literal_names, add_literal_names, hnames]
    · show ∀ x ∈ (s.Ginv.add_literal (stripDD t)).checked, x = false
      unfold Implication_Graph.add_literal
      by_cases hmem : stripDD (stripDD t) ∈ s.Ginv.names
      · simp only [if_pos hmem]
        exact hchk
      · simp only [if_neg hmem]
        intro x hx
        rcases List.mem_append.mp hx with hx | hx
        · exact hchk x hx
        · simpa using hx

/-- A successfully built state satisfies the construction invariant. -/
lemma buildGraphs_builtInv (toks : List Name) (st : BuildSt)
    (h : buildGraphs toks = .ok st) : builtInv st := by
  refine processFrom_inv builtInv buildStep_builtInv toks ⟨.empty, .empty, []⟩ st
    ⟨?_, ?_, rfl, ?_⟩ (by rw [← buildGraphs_eq_processFrom]; exact h)
  · intro nm hnm
    exact absurd hnm (by simp [Implication_Graph.empty])
  · simp [Implication_Graph.empty]
  · intro b hb
    exact absurd hb (by simp [Implication_Graph.empty])

lemma dictGet_dictSet_self (b : List (Name × Option Bool)) (k : Name)
    (v : Option Bool) : dictGet (dictSet b k v) k = some v := by
  induction b with
  | nil => simp [dictSet, dictGet]
  | cons kv rest ih =>
    obtain ⟨k0, v0⟩ := kv
    unfold dictSet
    by_cases hk : k0 = k
    · rw [if_pos hk]
      unfold dictGet
      rw [if_pos hk]
    · rw [if_neg hk]
      unfold dictGet
      rw [if_neg hk]
      exact ih

lemma dictGet_dictSet_ne (b : List (Name × Option Bool)) (k k2 : Name)
    (v : Option Bool) (h : k ≠ k2) : dictGet (dictSet b k v) k2 = dictGet b k2 := by
  induction b with
  | nil => simp [dictSet, dictGet, h]
  | cons kv rest ih =>
    obtain ⟨k0, v0⟩ := kv
    unfold dictSet
    by_cases hk : k0 = k
    · rw [if_pos hk]
      unfold dictGet
      rw [if_neg (by rw [hk]; exact h), if_neg (by rw [hk]; exact h)]
    · rw [if_neg hk]
      unfold dictGet
      by_cases hk2 : k0 = k2
      · rw [if_pos hk2, if_pos hk2]
      · rw [if_neg hk2, if_neg hk2]
        exact ih

lemma dictGet_mem (b : List (Name × Option Bool)) (k : Name)
    (w : Option Bool) (h : dictGet b k = some w) : (k, w) ∈ b := by
  induction b with
  | nil => simp [dictGet] at h
  | cons kv rest ih =>
    obtain ⟨k0, v0⟩ := kv
    unfold dictGet at h
    by_cases hk : k0 = k
    · rw [if_pos hk] at h
      simp at h
      subst hk h
      simp
    · rw [if_neg hk] at h
      exact List.mem_cons_of_mem _ (ih h)

lemma dictSet_fst (b : List (Name × Option Bool)) (k : Name) (v : Option Bool) :
    (dictSet b k v).map Prod.fst =
      if k ∈ b.map Prod.fst then b.map Prod.fst else b.map Prod.fst ++ [k] := by
  induction b with
  | nil => simp [dictSet]
  | cons kv rest ih =>
    obtain ⟨k0, v0⟩ := kv
    unfold dictSet
    by_cases hk : k0 = k
    · rw [if_pos hk]
      simp [hk]
    · rw [if_neg hk]
      simp only [List.map_cons]
      rw [ih]
      by_cases hmem : k ∈ rest.map Prod.fst
      · rw [if_pos hmem, if_pos (by simp [hmem])]
      · rw [if_neg hmem, if_neg (by
          simp only [List.map_cons, List.mem_cons]
          push_neg
          exact ⟨fun he => hk he.symm, hmem⟩)]
        simp

lemma dictSet_nodup_keys (b : List (Name × Option Bool)) (k : Name)
    (v : Option Bool) (h : (b.map Prod.fst).Nodup) :
    ((dictSet b k v).map Prod.fst).Nodup := by
  rw [dictSet_fst]
  by_cases hmem : k ∈ b.map Prod.fst
  · rwa [if_pos hmem]
  · rw [if_neg hmem]
    simp [List.nodup_append, h, hmem]

lemma dictGet_dictSet_some (b : List (Name × Option Bool)) (k k2 : Name)
    (v : Option Bool) (w : Option Bool) (h : dictGet b k2 = some w) :
    ∃ w2, dictGet (dictSet b k v) k2 = some w2 := by
  by_cases hk : k = k2
  · subst hk
    exact ⟨v, dictGet_dictSet_self b k v⟩
  · exact ⟨w, by rw [dictGet_dictSet_ne b k k2 v hk]; exact h⟩

/-- Every member of a list has a position read back by `getD`. -/
lemma mem_getD (nm : Name) : ∀ (l : List Name), nm ∈ l →
    ∃ j, j < l.length ∧ l.getD j [] = nm := by
  intro l
  induction l with
  | nil => intro h; exact absurd h (by simp)
  | cons x xs ih =>
    intro h
    rcases List.mem_cons.mp h with h1 | h1
    · exact ⟨0, by simp, by simp [h1.symm]⟩
    · obtain ⟨j, hj1, hj2⟩ := ih h1
      exact ⟨j + 1, by simp; omega, by simpa using hj2⟩

/-- The `bindings`/`variables` collection loop: every collected variable
is a key with value `None`, keys are duplicate-free, and every literal
name contributes its variable. -/
lemma collectVars_facts (g : Implication_Graph) :
    (∀ v ∈ (collectVars g).2, dictGet (collectVars g).1 v = some none) ∧
    ((collectVars g).1.map Prod.fst).Nodup ∧
    (∀ nm ∈ g.names,
      (if startsDash nm then get_negation nm else nm) ∈ (collectVars g).2) := by
  have main : ∀ (l : List Name) (p : List (Name × Option Bool) × List Name),
      (∀ kv ∈ p.1, kv.2 = none) →
      (∀ v ∈ p.2, ∃ w, dictGet p.1 v = some w) →
      ((p.1.map Prod.fst).Nodup) →
      (∀ kv ∈ (l.foldl (fun p nm =>
          let v := if startsDash nm then get_negation nm else nm
          let b := dictSet p.1 v none
          if v ∈ p.2 then (b, p.2) else (b, p.2 ++ [v])) p).1, kv.2 = none) ∧
      (∀ v ∈ (l.foldl (fun p nm =>
          let v := if startsDash nm then get_negation nm else nm
          let b := dictSet p.1 v none
          if v ∈ p.2 then (b, p.2) else (b, p.2 ++ [v])) p).2,
        ∃ w, dictGet (l.foldl (fun p nm =>
          let v := if startsDash nm then get_negation nm else nm
          let b := dictSet p.1 v none
          if v ∈ p.2 then (b, p.2) else (b, p.2 ++ [v])) p).1 v = some w) ∧
      (((l.foldl (fun p nm =>
          let v := if startsDash nm then get_negation nm else nm
          let b := dictSet p.1 v none
          if v ∈ p.2 then (b, p.2) else (b, p.2 ++ [v])) p).1.map Prod.fst).Nodup) ∧
      (∀ nm ∈ l, (if startsDash nm then get_negation nm else nm) ∈
        (l.foldl (fun p nm =>
          let v := if startsDash nm then get_negation nm else nm
          let b := dictSet p.1 v none
          if v ∈ p.2 then (b, p.2) else (b, p.2 ++ [v])) p).2) := by
    intro l
    induction l with
    | nil =>
      intro p h1 h2 h3
      exact ⟨h1, h2, h3, fun nm hnm => absurd hnm (by simp)⟩
    | cons nm0 l2 ih =>
      intro p h1 h2 h3
      rw [List.foldl_cons]
      set v0 := if startsDash nm0 then get_negation nm0 else nm0 with hv0
      set pn := (if v0 ∈ p.2 then (dictSet p.1 v0 none, p.2)
        else (dictSet p.1 v0 none, p.2 ++ [v0])) with hpn
      have hpn1 : pn.1 = dictSet p.1 v0 none := by
        rw [hpn]
        by_cases hm : v0 ∈ p.2
        · rw [if_pos hm]
        · rw [if_neg hm]
      have g1 : ∀ kv ∈ pn.1, kv.2 = none := by
        rw [hpn1]
        intro kv hkv
        have : kv ∈ p.1 ∨ kv = (v0, none) := by
          revert hkv
          generalize p.1 = b
          induction b with
          | nil => intro h; simpa [dictSet] using h
          | cons kv0 rest ihb =>
            intro h
            obtain ⟨k0, w0⟩ := kv0
            unfold dictSet at h
            by_cases hk : k0 = v0
            · rw [if_pos hk] at h
              rcases List.mem_cons.mp h with h | h
              · subst hk
                exact Or.inr (by rw [h])
              · exact Or.inl (List.mem_cons_of_mem _ h)
            · rw [if_neg hk] at h
              rcases List.mem_cons.mp h with h | h
              · exact Or.inl (by rw [h]; simp)
              · rcases ihb h with h | h
                · exact Or.inl (List.mem_cons_of_mem _ h)
                · exact Or.inr h
        rcases this with h | h
        · exact h1 kv h
        · rw [h]
      have g2 : ∀ v ∈ pn.2, ∃ w, dictGet pn.1 v = some w := by
        intro v hv
        rw [hpn1]
        have hv2 : v ∈ p.2 ∨ v = v0 := by
          rw [hpn] at hv
          by_cases hm : v0 ∈ p.2
          · rw [if_pos hm] at hv
            exact Or.inl hv
          · rw [if_neg hm] at hv
            rcases List.mem_append.mp hv with h | h
            · exact Or.inl h
            · exact Or.inr (by simpa using h)
        rcases hv2 with h | h
        · obtain ⟨w, hw⟩ := h2 v h
          exact dictGet_dictSet_some _ _ _ _ _ hw
        · subst h
          exact ⟨none, dictGet_dictSet_self _ _ _⟩
      have g3 : (pn.1.map Prod.fst).Nodup := by
        rw [hpn1]
        exact dictSet_nodup_keys _ _ _ h3
      obtain ⟨r1, r2, r3, r4⟩ := ih pn g1 g2 g3
      refine ⟨r1, r2, r3, ?_⟩
      intro nm hnm
      rcases List.mem_cons.mp hnm with h | h
      · subst h
        -- v0 is in pn.2, and membership in the vars list is preserved
        have hin : v0 ∈ pn.2 := by
          rw [hpn]
          by_cases hm : v0 ∈ p.2
          · rw [if_pos hm]
            exact hm
          · rw [if_neg hm]
            simp
        -- vars-membership is preserved by later steps
        have hmono : ∀ (l3 : List Name) (q : List (Name × Option Bool) × List Name),
            v0 ∈ q.2 → v0 ∈ (l3.foldl (fun p nm =>
              let v := if startsDash nm then get_negation nm else nm
              let b := dictSet p.1 v none
              if v ∈ p.2 then (b, p.2) else (b, p.2 ++ [v])) q).2 := by
          intro l3
          refine foldl_inv _ (fun q : List (Name × Option Bool) × List Name =>
            v0 ∈ q.2) ?_ l3
          intro q nm1 hq
          by_cases hm : (if startsDash nm1 then get_negation nm1 else nm1) ∈ q.2
          · simp only [if_pos hm]
            exact hq
          · simp only [if_neg hm]
            exact List.mem_append_left _ hq
        exact hmono l2 pn hin
      · exact r4 nm h
  have base := main g.names ([], []) (by simp) (by simp) (by simp)
  exact ⟨fun v hv => by
    obtain ⟨w, hw⟩ := base.2.1 v hv
    have := base.1 (v, w) (dictGet_mem _ _ _ hw)
    simp at this
    rw [this] at hw
    exact hw, base.2.2.1, base.2.2.2⟩

/-- The override loop never changes an already-assigned variable: the
first assignment wins. -/
lemma override_step_mono (gi : Implication_Graph) (b : List (Name × Option Bool))
    (u : Nat) (v : Name) (bv : Bool) (h : dictGet b v = some (some bv)) :
    dictGet (override_step gi b u) v = some (some bv) := by
  unfold override_step
  dsimp only
  split
  · rename_i hget
    by_cases hv : (if startsDash (gi.names.getD u []) then
        get_negation (gi.names.getD u []) else gi.names.getD u []) = v
    · rw [hv, h] at hget
      simp at hget
    · rw [dictGet_dictSet_ne _ _ _ _ hv]
      exact h
  · exact h

/-- The override loop keeps every key present. -/
lemma override_step_key (gi : Implication_Graph) (b : List (Name × Option Bool))
    (u : Nat) (v : Name) (w : Option Bool) (h : dictGet b v = some w) :
    ∃ w2, dictGet (override_step gi b u) v = some w2 := by
  unfold override_step
  dsimp only
  split
  · exact dictGet_dictSet_some _ _ _ _ _ h
  · exact ⟨w, h⟩

/-- An unassigned variable named by the processed literal gets assigned. -/
lemma override_step_hits (gi : Implication_Graph) (b : List (Name × Option Bool))
    (u : Nat) (v : Name)
    (hv : v = (if startsDash (gi.names.getD u []) then
      get_negation (gi.names.getD u []) else gi.names.getD u []))
    (h : dictGet b v = some none) :
    ∃ w, dictGet (override_step gi b u) v = some (some w) := by
  unfold override_step
  dsimp only
  rw [← hv, h]
  exact ⟨_, dictGet_dictSet_self _ _ _⟩

/-- `overrideChain` monotonicity: assigned stays assigned with its value. -/
lemma overrideChain_mono (gi : Implication_Graph) (scc : List Nat)
    (b : List (Name × Option Bool)) (v : Name) (bv : Bool)
    (h : dictGet b v = some (some bv)) :
    dictGet (overrideChain gi b scc) v = some (some bv) := by
  unfold overrideChain
  refine foldl_inv _ (fun b2 => dictGet b2 v = some (some bv)) ?_ scc b h
  intro b2 u hb2
  exact override_step_mono gi b2 u v bv hb2

/-- `overrideChain` keeps keys present with either `None` or a value. -/
lemma overrideChain_key (gi : Implication_Graph) (scc : List Nat)
    (b : List (Name × Option Bool)) (v : Name) (w : Option Bool)
    (h : dictGet b v = some w) :
    ∃ w2, dictGet (overrideChain gi b scc) v = some w2 := by
  unfold overrideChain
  refine foldl_inv _ (fun b2 => ∃ w2, dictGet b2 v = some w2) ?_ scc b ⟨w, h⟩
  rintro b2 u ⟨w2, hb2⟩
  exact override_step_key gi b2 u v w2 hb2

/-- Processing an SCC that contains a literal of variable `v` leaves `v`
assigned (to some boolean). -/
lemma overrideChain_hits (gi : Implication_Graph) (scc : List Nat)
    (b : List (Name × Option Bool)) (v : Name) (u : Nat) (hu : u ∈ scc)
    (hv : v = (if startsDash (gi.names.getD u []) then
      get_negation (gi.names.getD u []) else gi.names.getD u []))
    (h : ∃ w, dictGet b v = some w) :
    ∃ w, dictGet (overrideChain gi b scc) v = some (some w) := by
  have main : ∀ (l : List Nat) (b2 : List (Name × Option Bool)), u ∈ l →
      (∃ w, dictGet b2 v = some w) →
      ∃ w, dictGet (l.foldl (override_step gi) b2) v = some (some w) := by
    intro l
    induction l with
    | nil => intro b2 hu2 _; exact absurd hu2 (by simp)
    | cons u0 rest ih =>
      intro b2 hu2 h2
      rw [List.foldl_cons]
      rcases List.mem_cons.mp hu2 with hu1 | hu1
      · obtain ⟨w, hw⟩ := h2
        match w, hw with
        | none, hw =>
          obtain ⟨w2, hw2⟩ := override_step_hits gi b2 u0 v (by rw [hu1] at hv; exact hv) hw
          exact ⟨w2, overrideChain_mono gi rest _ v w2 hw2⟩
        | some bv, hw =>
          exact ⟨bv, overrideChain_mono gi rest _ v bv
            (override_step_mono gi b2 u0 v bv hw)⟩
      · obtain ⟨w, hw⟩ := h2
        obtain ⟨w2, hw2⟩ := override_step_key gi b2 u0 v w hw
        exact ih _ hu1 ⟨w2, hw2⟩
  exact main scc b hu h

/-- The outer reverse-order fold over all SCCs: monotone, key-keeping,
and assigning every variable covered by some SCC. -/
lemma overrideFold_mono (gi : Implication_Graph) (sl : List (List Nat))
    (b : List (Name × Option Bool)) (v : Name) (bv : Bool)
    (h : dictGet b v = some (some bv)) :
    dictGet (sl.foldl (fun bb scc => overrideChain gi bb scc) b) v =
      some (some bv) := by
  refine foldl_inv _ (fun b2 => dictGet b2 v = some (some bv)) ?_ sl b h
  intro b2 scc hb2
  exact overrideChain_mono gi scc b2 v bv hb2

lemma overrideFold_hits (gi : Implication_Graph) (sl : List (List Nat))
    (b : List (Name × Option Bool)) (v : Name) (scc : List Nat) (u : Nat)
    (hscc : scc ∈ sl) (hu : u ∈ scc)
    (hv : v = (if startsDash (gi.names.getD u []) then
      get_negation (gi.names.getD u []) else gi.names.getD u []))
    (h : ∃ w, dictGet b v = some w) :
    ∃ w, dictGet (sl.foldl (fun bb scc => overrideChain gi bb scc) b) v =
      some (some w) := by
  have main : ∀ (l : List (List Nat)) (b2 : List (Name × Option Bool)), scc ∈ l →
      (∃ w, dictGet b2 v = some w) →
      ∃ w, dictGet (l.foldl (fun bb scc => overrideChain gi bb scc) b2) v =
        some (some w) := by
    intro l
    induction l with
    | nil => intro b2 hs2 _; exact absurd hs2 (by simp)
    | cons s0 rest ih =>
      intro b2 hs2 h2
      rw [List.foldl_cons]
      rcases List.mem_cons.mp hs2 with h1 | h1
      · obtain ⟨w, hw⟩ := overrideChain_hits gi s0 b2 v u (h1 ▸ hu) hv h2
        exact ⟨w, overrideFold_mono gi rest _ v w hw⟩
      · obtain ⟨w, hw⟩ := h2
        obtain ⟨w2, hw2⟩ := overrideChain_key gi s0 b2 v w hw
        exact ih _ h1 ⟨w2, hw2⟩
  exact main sl b hscc h

/-- The override fold preserves the duplicate-freedom of the keys. -/
lemma overrideFold_nodup (gi : Implication_Graph) (sl : List (List Nat))
    (b : List (Name × Option Bool)) (h : (b.map Prod.fst).Nodup) :
    ((sl.foldl (fun bb scc => overrideChain gi bb scc) b).map Prod.fst).Nodup := by
  refine foldl_inv _ (fun b2 : List (Name × Option Bool) =>
    (b2.map Prod.fst).Nodup) ?_ sl b h
  intro b2 scc hb2
  unfold overrideChain
  refine foldl_inv _ (fun b3 : List (Name × Option Bool) =>
    (b3.map Prod.fst).Nodup) ?_ scc b2 hb2
  intro b3 u hb3
  unfold override_step
  dsimp only
  split
  · exact dictSet_nodup_keys _ _ _ hb3
  · exact hb3

lemma mem_insertSorted (x v : Name) : ∀ (l : List Name),
    v ∈ insertSorted x l ↔ v = x ∨ v ∈ l := by
  intro l
  induction l with
  | nil => simp [insertSorted]
  | cons y ys ih =>
    unfold insertSorted
    by_cases hle : nameLe x y
    · rw [if_pos hle]
      simp
    · rw [if_neg hle]
      simp only [List.mem_cons, ih]
      constructor
      · rintro (h | h | h)
        · exact Or.inr (Or.inl h)
        · exact Or.inl h
        · exact Or.inr (Or.inr h)
      · rintro (h | h | h)
        · exact Or.inr (Or.inl h)
        · exact Or.inl h
        · exact Or.inr (Or.inr h)

lemma mem_sortNames (v : Name) (l : List Name) : v ∈ sortNames l ↔ v ∈ l := by
  unfold sortNames
  induction l with
  | nil => simp
  | cons x xs ih =>
    rw [List.foldr_cons, mem_insertSorted]
    simp [ih]

/-- Every collected variable is derived from some catalog name. -/
lemma collectVars_vars_from_names (g : Implication_Graph) :
    ∀ v ∈ (collectVars g).2, ∃ nm ∈ g.names,
      v = (if startsDash nm then get_negation nm else nm) := by
  have main : ∀ (l : List Name) (p : List (Name × Option Bool) × List Name),
      ∀ v ∈ (l.foldl (fun p nm =>
          let v := if startsDash nm then get_negation nm else nm
          let b := dictSet p.1 v none
          if v ∈ p.2 then (b, p.2) else (b, p.2 ++ [v])) p).2,
        (∃ nm ∈ l, v = (if startsDash nm then get_negation nm else nm)) ∨ v ∈ p.2 := by
    intro l
    induction l with
    | nil => intro p v hv; exact Or.inr hv
    | cons nm0 l2 ih =>
      intro p v hv
      rw [List.foldl_cons] at hv
      rcases ih _ v hv with ⟨nm, h1, h2⟩ | h
      · exact Or.inl ⟨nm, List.mem_cons_of_mem _ h1, h2⟩
      · by_cases hm : (if startsDash nm0 then get_negation nm0 else nm0) ∈ p.2
        · rw [show (let v := if startsDash nm0 then get_negation nm0 else nm0
            let b := dictSet p.1 v none
            if v ∈ p.2 then (b, p.2) else (b, p.2 ++ [v])) =
            (dictSet p.1 (if startsDash nm0 then get_negation nm0 else nm0) none,
              p.2) from by simp only [if_pos hm]] at h
          exact Or.inr h
        · rw [show (let v := if startsDash nm0 then get_negation nm0 else nm0
            let b := dictSet p.1 v none
            if v ∈ p.2 then (b, p.2) else (b, p.2 ++ [v])) =
            (dictSet p.1 (if startsDash nm0 then get_negation nm0 else nm0) none,
              p.2 ++ [if startsDash nm0 then get_negation nm0 else nm0]) from by
              simp only [if_neg hm]] at h
          rcases List.mem_append.mp h with h | h
          · exact Or.inr h
          · exact Or.inl ⟨nm0, List.mem_cons_self _ _, by simpa using h⟩
  intro v hv
  rcases main g.names ([], []) v hv with ⟨nm, h1, h2⟩ | h
  · exact ⟨nm, h1, h2⟩
  · exact absurd h (by simp)

/-- C5: when the run reports SATISFIABLE, the assignment phase is the
reverse-order fold of the SCC list starting from the all-`None` variable
dict; the first assignment of a variable wins (later-processed SCCs never
override an assigned variable); and afterwards every catalog variable is
bound to exactly one boolean (dict keys are duplicate-free and each
variable's value is `some`). -/
theorem c5_assignment_first_wins (toks : List Name) (st : BuildSt)
    (b : List (Name × Option Bool)) (vars : List Name)
    (hok : buildGraphs toks = .ok st)
    (hsat : runSolver toks = .ok (.sat b vars)) :
    (b = ((pipelineOf toks).2.2.2).reverse.foldl
        (fun bb scc => overrideChain (pipelineOf toks).2.1 bb scc)
        (collectVars (pipelineOf toks).1).1 ∧
      vars = sortNames (collectVars (pipelineOf toks).1).2) ∧
    (∀ (gi : Implication_Graph) (b0 : List (Name × Option Bool))
        (sl : List (List Nat)) (v : Name) (bv : Bool),
      dictGet b0 v = some (some bv) →
      dictGet (sl.foldl (fun bb scc => overrideChain gi bb scc) b0) v =
        some (some bv)) ∧
    (∀ v ∈ vars, ∃ bv : Bool, dictGet b v = some (some bv)) ∧
    (b.map Prod.fst).Nodup := by
  have hsolve : solve st.G st.Ginv = .sat b vars := by
    unfold runSolver at hsat
    rw [hok] at hsat
    simpa [Except.map] using hsat
  have hpipeOf : pipelineOf toks = pipeline st.G st.Ginv := by
    unfold pipelineOf
    rw [hok]
  unfold solve at hsolve
  dsimp only at hsolve
  by_cases hclash : ((pipeline st.G st.Ginv).2.2.2).any
      (fun scc => sccClash (pipeline st.G st.Ginv).2.1 scc)
  · rw [if_pos hclash] at hsolve
    simp at hsolve
  · rw [if_neg hclash] at hsolve
    have hb : b = ((pipeline st.G st.Ginv).2.2.2).reverse.foldl
        (fun bb scc => overrideChain (pipeline st.G st.Ginv).2.1 bb scc)
        (collectVars (pipeline st.G st.Ginv).1).1 := by
      cases hsolve
      rfl
    have hvars : vars = sortNames (collectVars (pipeline st.G st.Ginv).1).2 := by
      cases hsolve
      rfl
    obtain ⟨hgood, hnodG, hnameseq, hchkfalse⟩ := buildGraphs_builtInv toks st hok
    have hcv := collectVars_facts (pipeline st.G st.Ginv).1
    refine ⟨⟨by rw [hpipeOf]; exact hb, by rw [hpipeOf]; exact hvars⟩,
      ?_, ?_, ?_⟩
    · intro gi b0 sl v bv h
      exact overrideFold_mono gi sl b0 v bv h
    · intro v hv
      rw [hvars, mem_sortNames] at hv
      obtain ⟨nm, hnm, hvnm⟩ :=
        collectVars_vars_from_names (pipeline st.G st.Ginv).1 v hv
      have hkey : dictGet (collectVars (pipeline st.G st.Ginv).1).1 v = some none :=
        hcv.1 v hv
      -- locate nm in the transpose graph
      have hnmInv : nm ∈ (pipeline st.G st.Ginv).2.1.names := by
        rw [(pipeline_names st.G st.Ginv).2, ← hnameseq,
          ← (pipeline_names st.G st.Ginv).1]
        exact hnm
      obtain ⟨j, hj1, hj2⟩ := mem_getD nm _ hnmInv
      have hjlen : j < st.Ginv.names.length := by
        rw [(pipeline_names st.G st.Ginv).2] at hj1
        exact hj1
      obtain ⟨c, hc1, hc2⟩ := pipeline_covers st.G st.Ginv hnameseq
        (hnameseq ▸ hnodG)
        (fun i => all_false_getD st.Ginv.checked hchkfalse i) j hjlen
      have hhit := overrideFold_hits (pipeline st.G st.Ginv).2.1
        ((pipeline st.G st.Ginv).2.2.2).reverse
        (collectVars (pipeline st.G st.Ginv).1).1 v c j
        (List.mem_reverse.mpr hc1) hc2
        (by rw [hj2]; exact hvnm) ⟨none, hkey⟩
      obtain ⟨w, hw⟩ := hhit
      exact ⟨w, by rw [hb]; exact hw⟩
    · rw [hb]
      exact overrideFold_nodup _ _ _ hcv.2.1
  
/-- Witness for C5 on the stream `1 2 0`: both variables end up bound. -/
theorem c5_assignment_first_wins_witness :
    buildGraphs [['1'], ['2'], ['0']] = .ok (builtOf [['1'], ['2'], ['0']]) ∧
      runSolver [['1'], ['2'], ['0']] =
        .ok (.sat [(['1'], some false), (['2'], some true)] [['1'], ['2']]) ∧
      ∀ v ∈ [['1'], ['2']],
        ∃ bv : Bool, dictGet [(['1'], some false), (['2'], some true)] v =
          some (some bv) :=
  ⟨rfl, rfl,
    (c5_assignment_first_wins [['1'], ['2'], ['0']] (builtOf [['1'], ['2'], ['0']])
      [(['1'], some false), (['2'], some true)] [['1'], ['2']] rfl rfl).2.2.1⟩

open Implication_Graph

lemma DfsEvo.refl (g : Implication_Graph) : DfsEvo g g :=
  ⟨fun _ _ h => h, fun _ _ h => h, fun _ _ h => h,
   fun i h => absurd (Eq.refl _) h, fun _ _ => rfl, fun _ h => h, fun _ h => h,
   fun _ => Iff.rfl,
   (fun i t h1 h2 => by rw [h1] at h2; cases h2),
   le_refl _, ⟨[], by simp⟩⟩

lemma DfsEvo_trans {a b c : Implication_Graph} (h1 : DfsEvo a b)
    (h2 : DfsEvo b c) : DfsEvo a c := by
  refine ⟨fun i t h => h2.dkeep i t (h1.dkeep i t h),
    fun i t h => h2.fkeep i t (h1.fkeep i t h),
    fun i p h => h2.pkeep i p (h1.pkeep i p h), ?_, ?_,
    fun i h => h2.blackmono i (h1.blackmono i h),
    fun i h => h1.whiteanti i (h2.whiteanti i h),
    fun i => (h2.greyiff i).trans (h1.greyiff i), ?_,
    le_trans h1.timemono h2.timemono, ?_⟩
  · intro i hne
    by_cases hab : a.parent.getD i none = b.parent.getD i none
    · exact h1.whiteanti i (h2.pnew i (fun hc => hne (hab.trans hc)))
    · exact h1.pnew i hab
  · intro i hw
    rw [h2.pstill i hw, h1.pstill i (h2.whiteanti i hw)]
  · intro i t hn hs
    cases hb : b.f.getD i none with
    | none => exact lt_of_le_of_lt h1.timemono (h2.ffresh i t hb hs)
    | some t2 =>
      have := h2.fkeep i t2 hb
      rw [this] at hs
      have he : t2 = t := Option.some.inj hs
      rw [← he]
      exact h1.ffresh i t2 hn hb
  · obtain ⟨l1, hl1⟩ := h1.topoext
    obtain ⟨l2, hl2⟩ := h2.topoext
    exact ⟨l1 ++ l2, by rw [hl2, hl1, List.append_assoc]⟩

/-- Parent pointers persisting means parent-chain ancestry persists. -/
lemma PAnc.mono {g g2 : Implication_Graph}
    (hp : ∀ i p, g.parent.getD i none = some p →
      g2.parent.getD i none = some p)
    {a b : Nat} (h : PAnc g a b) : PAnc g2 a b := by
  induction h with
  | refl => exact PAnc.refl _
  | step h1 h2 ih => exact PAnc.step ih (hp _ _ h2)

lemma PAnc.of_parent_eq {g g2 : Implication_Graph}
    (hp : g2.parent = g.parent) {a b : Nat} (h : PAnc g a b) :
    PAnc g2 a b :=
  PAnc.mono (fun i p hip => by rw [hp]; exact hip) h

lemma PAnc_trans {g : Implication_Graph} {a b c : Nat}
    (h1 : PAnc g a b) (h2 : PAnc g b c) : PAnc g a c := by
  induction h2 with
  | refl => exact h1
  | step hx hy ih => exact PAnc.step ih hy

/-- Along a proper ancestor chain of a discovered literal the discovery
times strictly increase downwards, and the finish times strictly decrease
downwards whenever the upper literal is finished. -/
lemma PAnc_facts {g : Implication_Graph} (hinv : DfsInv g) {a b : Nat}
    (hab : PAnc g a b) : a ≠ b → g.d.getD b none ≠ none →
    ∃ da db, g.d.getD a none = some da ∧ g.d.getD b none = some db ∧
      da < db ∧
      ∀ fa, g.f.getD a none = some fa →
        ∃ fb, g.f.getD b none = some fb ∧ fb < fa := by
  induction hab with
  | refl => intro hne _; exact absurd rfl hne
  | step h1 h2 ih =>
    rename_i p0 b0
    intro _ hb
    obtain ⟨db, dp, hdb, hdp, hlt⟩ := hinv.parent_d b0 p0 h2 hb
    by_cases hap : a = p0
    · subst hap
      refine ⟨dp, db, hdp, hdb, hlt, ?_⟩
      intro fa hfa
      exact hinv.parent_f b0 a h2 hb fa hfa
    · obtain ⟨da, dp2, hda, hdp2, hlt2, hfchain⟩ :=
        ih hap (by rw [hdp]; simp)
      rw [hdp] at hdp2
      cases hdp2
      refine ⟨da, db, hda, hdb, by omega, ?_⟩
      intro fa hfa
      obtain ⟨fp, hfp, hfplt⟩ := hfchain fa hfa
      obtain ⟨fb, hfb, hfblt⟩ := hinv.parent_f b0 p0 h2 hb fp hfp
      exact ⟨fb, hfb, by omega⟩

/-- Every ancestor of a discovered literal is discovered. -/
lemma PAnc_d_some {g : Implication_Graph} (hinv : DfsInv g) {a b : Nat}
    (hab : PAnc g a b) (hb : g.d.getD b none ≠ none) :
    g.d.getD a none ≠ none := by
  by_cases hne : a = b
  · subst hne; exact hb
  · obtain ⟨da, _, hda, _⟩ := PAnc_facts hinv hab hne hb
    rw [hda]
    simp

/-- Two literals of which neither is an ancestor of the other have
disjoint DFS intervals: the earlier-finished one closes before the other
opens. -/
lemma disjoint_of_incomp {g : Implication_Graph} (hinv : DfsInv g)
    {u v : Nat} {du dv fu fv : Int}
    (hdu : g.d.getD u none = some du) (hdv : g.d.getD v none = some dv)
    (hfu : g.f.getD u none = some fu) (hfv : g.f.getD v none = some fv)
    (hn1 : ¬ PAnc g u v) (hn2 : ¬ PAnc g v u) (hlt : fu < fv) :
    fu < dv := by
  have hne : u ≠ v := by
    intro he; subst he; exact hn1 (PAnc.refl u)
  have hdne : du ≠ dv := by
    intro he
    subst he
    exact hne (hinv.d_inj u v du hdu hdv)
  rcases lt_or_gt_of_ne hdne with hd | hd
  · rcases hinv.nest u v du dv hne hdu hdv hd with ⟨fi, hfi, hfilt⟩ | ⟨ha, _⟩
    · rw [hfu] at hfi
      cases hfi
      exact hfilt
    · exact absurd ha hn1
  · rcases hinv.nest v u dv du (Ne.symm hne) hdv hdu hd with
      ⟨fi, hfi, hfilt⟩ | ⟨ha, _⟩
    · rw [hfv] at hfi
      cases hfi
      have := hinv.df_lt u du fu hdu hfu
      omega
    · exact absurd ha hn2

/-- A `some` read through `getD`-with-`none`-default is in range. -/
lemma lt_length_of_getD_some {α : Type} (l : List (Option α)) (i : Nat)
    (x : α) (h : l.getD i none = some x) : i < l.length := by
  by_contra hge
  rw [List.getD_eq_getElem?_getD, List.getElem?_eq_none (by omega)] at h
  simp at h

/-- Discovery step of `dfs_visit`: advancing the clock, stamping `d` and
turning the white literal grey preserves the DFS invariant, provided the
literal's parent (if already set) is grey and every grey literal lies on
its parent chain. -/
lemma DfsInv_discover (g : Implication_Graph) (u : Nat)
    (hinv : DfsInv g) (hw : g.color.getD u none = some Col.white)
    (hpar : ∀ p, g.parent.getD u none = some p →
      g.color.getD p none = some Col.grey)
    (hg : ∀ j, g.color.getD j none = some Col.grey → PAnc g j u) :
    DfsInv { g with dfs_time := g.dfs_time + 1,
                    d := g.d.set u (some (g.dfs_time + 1)),
                    color := g.color.set u (some Col.grey) } := by
  set g3 : Implication_Graph :=
    { g with dfs_time := g.dfs_time + 1,
             d := g.d.set u (some (g.dfs_time + 1)),
             color := g.color.set u (some Col.grey) } with hg3
  have hpar3 : g3.parent = g.parent := rfl
  have hf3 : g3.f = g.f := rfl
  have htm3 : g3.dfs_time = g.dfs_time + 1 := rfl
  have hulen : u < g.color.length := lt_length_of_color_getD _ _ _ hw
  have hulen2 : u < g.names.length := by rw [← hinv.len_color]; exact hulen
  have hudlen : u < g.d.length := by rw [hinv.len_d]; exact hulen2
  have hdu3 : g3.d.getD u none = some (g.dfs_time + 1) :=
    getD_set_self _ _ _ _ hudlen
  have hdne3 : ∀ i, i ≠ u → g3.d.getD i none = g.d.getD i none := by
    intro i hi
    exact getD_set_ne _ _ _ _ _ (Ne.symm hi)
  have hcu3 : g3.color.getD u none = some Col.grey :=
    getD_set_self _ _ _ _ hulen
  have hcne3 : ∀ i, i ≠ u → g3.color.getD i none = g.color.getD i none := by
    intro i hi
    exact getD_set_ne _ _ _ _ _ (Ne.symm hi)
  have hanc3 : ∀ a b, PAnc g a b → PAnc g3 a b := by
    intro a b h
    exact PAnc.of_parent_eq hpar3 h
  have htime0 := hinv.time0
  refine ⟨?_, ?_, ?_, ?_, ?_, ?_, ?_, ?_, ?_, ?_, ?_, ?_, ?_, ?_, ?_, ?_,
    ?_, ?_, ?_, ?_, ?_, ?_, ?_, ?_, ?_, ?_⟩
  · show (g.color.set u (some Col.grey)).length = g.names.length
    rw [List.length_set]
    exact hinv.len_color
  · show (g.d.set u (some (g.dfs_time + 1))).length = g.names.length
    rw [List.length_set]
    exact hinv.len_d
  · exact hinv.len_f
  · exact hinv.len_parent
  · exact hinv.adj_lt
  · show (0 : Int) ≤ g.dfs_time + 1
    omega
  · intro i hi
    by_cases hiu : i = u
    · rw [hiu, hcu3]
      simp
    · rw [hcne3 i hiu]
      exact hinv.col_some i hi
  · intro i hi
    by_cases hiu : i = u
    · rw [hiu, hcu3] at hi
      simp at hi
    · rw [hcne3 i hiu] at hi
      rw [hdne3 i hiu]
      exact hinv.white_d i hi
  · intro i hi
    by_cases hiu : i = u
    · rw [hiu, hcu3] at hi
      simp at hi
    · rw [hcne3 i hiu] at hi
      exact hinv.white_f i hi
  · intro i hi
    by_cases hiu : i = u
    · rw [hiu]
      exact ⟨g.dfs_time + 1, hdu3⟩
    · rw [hcne3 i hiu] at hi
      obtain ⟨t, ht⟩ := hinv.grey_d i hi
      exact ⟨t, by rw [hdne3 i hiu]; exact ht⟩
  · intro i hi
    by_cases hiu : i = u
    · rw [hiu]
      exact hinv.white_f u hw
    · rw [hcne3 i hiu] at hi
      exact hinv.grey_f i hi
  · intro i hi
    by_cases hiu : i = u
    · rw [hiu, hcu3] at hi
      simp at hi
    · rw [hcne3 i hiu] at hi
      obtain ⟨t, ht⟩ := hinv.black_d i hi
      exact ⟨t, by rw [hdne3 i hiu]; exact ht⟩
  · intro i hi
    by_cases hiu : i = u
    · rw [hiu, hcu3] at hi
      simp at hi
    · rw [hcne3 i hiu] at hi
      exact hinv.black_f i hi
  · intro i t ht
    show 0 < t ∧ t ≤ g.dfs_time + 1
    by_cases hiu : i = u
    · rw [hiu, hdu3] at ht
      cases ht
      omega
    · rw [hdne3 i hiu] at ht
      have := hinv.d_pos i t ht
      omega
  · intro i t ht
    show 0 < t ∧ t ≤ g.dfs_time + 1
    have := hinv.f_pos i t ht
    omega
  · intro i td tf hd hf
    by_cases hiu : i = u
    · rw [hiu] at hf
      rw [show g3.f.getD u none = none from hinv.white_f u hw] at hf
      cases hf
    · rw [hdne3 i hiu] at hd
      exact hinv.df_lt i td tf hd hf
  · intro i j t hi hj
    by_cases hiu : i = u <;> by_cases hju : j = u
    · rw [hiu, hju]
    · rw [hiu, hdu3] at hi
      cases hi
      rw [hdne3 j hju] at hj
      have := hinv.d_pos j _ hj
      omega
    · rw [hju, hdu3] at hj
      cases hj
      rw [hdne3 i hiu] at hi
      have := hinv.d_pos i _ hi
      omega
    · rw [hdne3 i hiu] at hi
      rw [hdne3 j hju] at hj
      exact hinv.d_inj i j t hi hj
  · intro i j t hi hj
    exact hinv.f_inj i j t hi hj
  · intro i j t hi hj
    by_cases hiu : i = u
    · rw [hiu, hdu3] at hi
      cases hi
      have := hinv.f_pos j _ hj
      omega
    · rw [hdne3 i hiu] at hi
      exact hinv.df_ne i j t hi hj
  · intro b p hb hdb
    by_cases hbu : b = u
    · have hpg := hpar p (by rw [← hbu]; exact hb)
      obtain ⟨tp, htp⟩ := hinv.grey_d p hpg
      have hpu : p ≠ u := by
        intro he
        rw [he, hw] at hpg
        simp at hpg
      have := hinv.d_pos p tp htp
      exact ⟨g.dfs_time + 1, tp, by rw [hbu]; exact hdu3,
        by rw [hdne3 p hpu]; exact htp, by omega⟩
    · rw [hdne3 b hbu] at hdb
      obtain ⟨db, dp, hdb2, hdp2, hlt⟩ := hinv.parent_d b p hb hdb
      have hpu : p ≠ u := by
        intro he
        rw [he] at hdp2
        rw [hinv.white_d u hw] at hdp2
        cases hdp2
      exact ⟨db, dp, by rw [hdne3 b hbu]; exact hdb2,
        by rw [hdne3 p hpu]; exact hdp2, hlt⟩
  · intro b p hb hdb fp hfp
    rw [hf3] at hfp ⊢
    by_cases hbu : b = u
    · have hpg := hpar p (by rw [← hbu]; exact hb)
      rw [hinv.grey_f p hpg] at hfp
      cases hfp
    · rw [hdne3 b hbu] at hdb
      exact hinv.parent_f b p hb hdb fp hfp
  · intro i j di dj hne hdi hdj hlt
    by_cases hju : j = u
    · rw [hju, hdu3] at hdj
      cases hdj
      have hiu : i ≠ u := by rw [← hju]; exact hne
      rw [hdne3 i hiu] at hdi
      have hicol : i < g.names.length := by
        have := lt_length_of_getD_some _ _ _ hdi
        rw [hinv.len_d] at this
        exact this
      rcases hcol : g.color.getD i none with _ | c
      · exact absurd hcol (hinv.col_some i hicol)
      · match c, hcol with
        | Col.white, hcol =>
          rw [hinv.white_d i hcol] at hdi
          cases hdi
        | Col.grey, hcol =>
          refine Or.inr ⟨by rw [hju]; exact hanc3 i u (hg i hcol), ?_⟩
          intro fi hfi
          rw [hf3] at hfi
          rw [hinv.grey_f i hcol] at hfi
          cases hfi
        | Col.black, hcol =>
          obtain ⟨fi, hfi⟩ := hinv.black_f i hcol
          have := hinv.f_pos i fi hfi
          exact Or.inl ⟨fi, by rw [hf3]; exact hfi, by omega⟩
    · by_cases hiu : i = u
      · rw [hiu, hdu3] at hdi
        cases hdi
        rw [hdne3 j hju] at hdj
        have := hinv.d_pos j dj hdj
        omega
      · rw [hdne3 i hiu] at hdi
        rw [hdne3 j hju] at hdj
        rcases hinv.nest i j di dj hne hdi hdj hlt with ⟨fi, hfi, hflt⟩ |
          ⟨ha, hcond⟩
        · exact Or.inl ⟨fi, by rw [hf3]; exact hfi, hflt⟩
        · refine Or.inr ⟨hanc3 i j ha, ?_⟩
          intro fi hfi
          rw [hf3] at hfi
          obtain ⟨fj, hfj, hfjlt⟩ := hcond fi hfi
          exact ⟨fj, by rw [hf3]; exact hfj, hfjlt⟩
  · intro i j di dj hci hcj hdi hdj hle
    by_cases hju : j = u
    · by_cases hiu : i = u
      · rw [hiu, hju]
        exact PAnc.refl u
      · rw [hcne3 i hiu] at hci
        rw [hju]
        exact hanc3 i u (hg i hci)
    · by_cases hiu : i = u
      · rw [hiu, hdu3] at hdi
        cases hdi
        rw [hdne3 j hju] at hdj
        have := hinv.d_pos j dj hdj
        omega
      · rw [hcne3 i hiu] at hci
        rw [hcne3 j hju] at hcj
        rw [hdne3 i hiu] at hdi
        rw [hdne3 j hju] at hdj
        exact hanc3 i j (hinv.grey_anc i j di dj hci hcj hdi hdj hle)
  · intro i hci j hj
    have hiu : i ≠ u := by
      intro he
      rw [he, hcu3] at hci
      simp at hci
    rw [hcne3 i hiu] at hci
    rcases hinv.edge_cls i hci j hj with ⟨fj, fi, h1, h2, h3⟩ | ha
    · exact Or.inl ⟨fj, fi, by rw [hf3]; exact h1, by rw [hf3]; exact h2, h3⟩
    · exact Or.inr (hanc3 j i ha)
  · intro i
    by_cases hiu : i = u
    · rw [hiu, hcu3]
      constructor
      · intro hmem
        have := (hinv.topo_mem u).mp hmem
        rw [hw] at this
        cases this
      · intro hc
        simp at hc
    · rw [hcne3 i hiu]
      exact hinv.topo_mem i
  · exact hinv.topo_sorted

/-- Finish step of `dfs_visit`: blackening the grey literal, advancing the
clock, stamping `f` and appending the literal to the finish list preserves
the DFS invariant, provided every other grey literal was discovered before
it and lies on its parent chain, and none of its neighbours is white. -/
lemma DfsInv_finish (gF : Implication_Graph) (u : Nat) (du : Int)
    (hinv : DfsInv gF) (hu : gF.color.getD u none = some Col.grey)
    (hdu : gF.d.getD u none = some du)
    (hglow : ∀ j, j ≠ u → gF.color.getD j none = some Col.grey →
      ∃ tj, gF.d.getD j none = some tj ∧ tj < du)
    (hanc : ∀ j, j ≠ u → gF.color.getD j none = some Col.grey →
      PAnc gF j u)
    (hadj : ∀ j ∈ gF.adj.getD u [], gF.color.getD j none ≠ some Col.white) :
    DfsInv { gF with color := gF.color.set u (some Col.black),
                     dfs_time := gF.dfs_time + 1,
                     f := gF.f.set u (some (gF.dfs_time + 1)),
                     dfs_topo_sorted := gF.dfs_topo_sorted ++ [u] } := by
  set gZ : Implication_Graph :=
    { gF with color := gF.color.set u (some Col.black),
              dfs_time := gF.dfs_time + 1,
              f := gF.f.set u (some (gF.dfs_time + 1)),
              dfs_topo_sorted := gF.dfs_topo_sorted ++ [u] } with hgZ
  have hpZ : gZ.parent = gF.parent := rfl
  have hdZ : gZ.d = gF.d := rfl
  have hulen : u < gF.color.length := lt_length_of_color_getD _ _ _ hu
  have hulen2 : u < gF.names.length := by rw [← hinv.len_color]; exact hulen
  have huflen : u < gF.f.length := by rw [hinv.len_f]; exact hulen2
  have hfu : gZ.f.getD u none = some (gF.dfs_time + 1) :=
    getD_set_self _ _ _ _ huflen
  have hfne : ∀ i, i ≠ u → gZ.f.getD i none = gF.f.getD i none := by
    intro i hi
    exact getD_set_ne _ _ _ _ _ (Ne.symm hi)
  have hcu : gZ.color.getD u none = some Col.black :=
    getD_set_self _ _ _ _ hulen
  have hcne : ∀ i, i ≠ u → gZ.color.getD i none = gF.color.getD i none := by
    intro i hi
    exact getD_set_ne _ _ _ _ _ (Ne.symm hi)
  have hancZ : ∀ a b, PAnc gF a b → PAnc gZ a b := by
    intro a b h
    exact PAnc.of_parent_eq hpZ h
  have htime0 := hinv.time0
  have hdu_le := hinv.d_pos u du hdu
  have hfugF : gF.f.getD u none = none := hinv.grey_f u hu
  -- any literal discovered after `u` is already black
  have hfresh : ∀ j t, j ≠ u → gF.d.getD j none = some t → du < t →
      gF.color.getD j none = some Col.black := by
    intro j t hju hdj hlt
    have hjlen : j < gF.names.length := by
      have := lt_length_of_getD_some _ _ _ hdj
      rw [hinv.len_d] at this
      exact this
    rcases hcol : gF.color.getD j none with _ | c
    · exact absurd hcol (hinv.col_some j hjlen)
    · match c, hcol with
      | Col.white, hcol =>
        rw [hinv.white_d j hcol] at hdj
        cases hdj
      | Col.grey, hcol =>
        obtain ⟨tj, htj, htjlt⟩ := hglow j hju hcol
        rw [hdj] at htj
        cases htj
        omega
      | Col.black, hcol => rfl
  -- every discovered literal whose parent is `u` is already black
  have hchild : ∀ b, gF.parent.getD b none = some u →
      gF.d.getD b none ≠ none → gF.color.getD b none = some Col.black := by
    intro b hbp hbd
    have hbu : b ≠ u := by
      intro he
      rw [he] at hbp hbd
      obtain ⟨db, dp, h1, h2, h3⟩ := hinv.parent_d u u hbp hbd
      rw [h1] at h2
      cases h2
      omega
    obtain ⟨db, dp, h1, h2, h3⟩ := hinv.parent_d b u hbp hbd
    rw [hdu] at h2
    cases h2
    exact hfresh b db hbu h1 h3
  refine ⟨?_, ?_, ?_, ?_, ?_, ?_, ?_, ?_, ?_, ?_, ?_, ?_, ?_, ?_, ?_, ?_,
    ?_, ?_, ?_, ?_, ?_, ?_, ?_, ?_, ?_, ?_⟩
  · show (gF.color.set u (some Col.black)).length = gF.names.length
    rw [List.length_set]
    exact hinv.len_color
  · exact hinv.len_d
  · show (gF.f.set u (some (gF.dfs_time + 1))).length = gF.names.length
    rw [List.length_set]
    exact hinv.len_f
  · exact hinv.len_parent
  · exact hinv.adj_lt
  · show (0 : Int) ≤ gF.dfs_time + 1
    omega
  · intro i hi
    by_cases hiu : i = u
    · rw [hiu, hcu]
      simp
    · rw [hcne i hiu]
      exact hinv.col_some i hi
  · intro i hi
    by_cases hiu : i = u
    · rw [hiu, hcu] at hi
      simp at hi
    · rw [hcne i hiu] at hi
      exact hinv.white_d i hi
  · intro i hi
    by_cases hiu : i = u
    · rw [hiu, hcu] at hi
      simp at hi
    · rw [hcne i hiu] at hi
      rw [hfne i hiu]
      exact hinv.white_f i hi
  · intro i hi
    by_cases hiu : i = u
    · rw [hiu, hcu] at hi
      simp at hi
    · rw [hcne i hiu] at hi
      exact hinv.grey_d i hi
  · intro i hi
    by_cases hiu : i = u
    · rw [hiu, hcu] at hi
      simp at hi
    · rw [hcne i hiu] at hi
      rw [hfne i hiu]
      exact hinv.grey_f i hi
  · intro i hi
    by_cases hiu : i = u
    · rw [hiu]
      exact ⟨du, hdu⟩
    · rw [hcne i hiu] at hi
      exact hinv.black_d i hi
  · intro i hi
    by_cases hiu : i = u
    · rw [hiu]
      exact ⟨gF.dfs_time + 1, hfu⟩
    · rw [hcne i hiu] at hi
      obtain ⟨t, ht⟩ := hinv.black_f i hi
      exact ⟨t, by rw [hfne i hiu]; exact ht⟩
  · intro i t ht
    show 0 < t ∧ t ≤ gF.dfs_time + 1
    have := hinv.d_pos i t ht
    omega
  · intro i t ht
    show 0 < t ∧ t ≤ gF.dfs_time + 1
    by_cases hiu : i = u
    · rw [hiu, hfu] at ht
      cases ht
      omega
    · rw [hfne i hiu] at ht
      have := hinv.f_pos i t ht
      omega
  · intro i td tf hd hf
    by_cases hiu : i = u
    · rw [hiu, hfu] at hf
      cases hf
      rw [hiu] at hd
      rw [show gZ.d.getD u none = some du from hdu] at hd
      cases hd
      omega
    · rw [hfne i hiu] at hf
      exact hinv.df_lt i td tf hd hf
  · intro i j t hi hj
    exact hinv.d_inj i j t hi hj
  · intro i j t hi hj
    by_cases hiu : i = u <;> by_cases hju : j = u
    · rw [hiu, hju]
    · rw [hiu, hfu] at hi
      cases hi
      rw [hfne j hju] at hj
      have := hinv.f_pos j _ hj
      omega
    · rw [hju, hfu] at hj
      cases hj
      rw [hfne i hiu] at hi
      have := hinv.f_pos i _ hi
      omega
    · rw [hfne i hiu] at hi
      rw [hfne j hju] at hj
      exact hinv.f_inj i j t hi hj
  · intro i j t hi hj
    by_cases hju : j = u
    · rw [hju, hfu] at hj
      cases hj
      have := hinv.d_pos i _ hi
      omega
    · rw [hfne j hju] at hj
      exact hinv.df_ne i j t hi hj
  · exact hinv.parent_d
  · intro b p hb hdb fp hfp
    by_cases hpu : p = u
    · rw [hpu, hfu] at hfp
      cases hfp
      have hbb : gF.color.getD b none = some Col.black :=
        hchild b (by rw [← hpu]; exact hb) hdb
      obtain ⟨fb, hfb⟩ := hinv.black_f b hbb
      have := hinv.f_pos b fb hfb
      have hbu : b ≠ u := by
        intro he
        rw [he] at hbb
        rw [hu] at hbb
        simp at hbb
      exact ⟨fb, by rw [hfne b hbu]; exact hfb, by omega⟩
    · rw [hfne p hpu] at hfp
      obtain ⟨fb, hfb, hlt⟩ := hinv.parent_f b p hb hdb fp hfp
      have hbu : b ≠ u := by
        intro he
        rw [he, hfugF] at hfb
        cases hfb
      exact ⟨fb, by rw [hfne b hbu]; exact hfb, hlt⟩
  · intro i j di dj hne hdi hdj hlt
    rcases hinv.nest i j di dj hne hdi hdj hlt with ⟨fi, hfi, hflt⟩ |
      ⟨ha, hcond⟩
    · have hiu : i ≠ u := by
        intro he
        rw [he, hfugF] at hfi
        cases hfi
      exact Or.inl ⟨fi, by rw [hfne i hiu]; exact hfi, hflt⟩
    · refine Or.inr ⟨hancZ i j ha, ?_⟩
      intro fi hfi
      by_cases hiu : i = u
      · rw [hiu, hfu] at hfi
        cases hfi
        have hdeq : di = du := by
          rw [hiu, hdu] at hdi
          cases hdi
          rfl
        have hju : j ≠ u := by
          intro he
          exact hne (hiu.trans he.symm)
        have hjb : gF.color.getD j none = some Col.black :=
          hfresh j dj hju hdj (by omega)
        obtain ⟨fj, hfj⟩ := hinv.black_f j hjb
        have := hinv.f_pos j fj hfj
        exact ⟨fj, by rw [hfne j hju]; exact hfj, by omega⟩
      · rw [hfne i hiu] at hfi
        obtain ⟨fj, hfj, hfjlt⟩ := hcond fi hfi
        have hju : j ≠ u := by
          intro he
          rw [he, hfugF] at hfj
          cases hfj
        exact ⟨fj, by rw [hfne j hju]; exact hfj, hfjlt⟩
  · intro i j di dj hci hcj hdi hdj hle
    have hiu : i ≠ u := by
      intro he
      rw [he, hcu] at hci
      simp at hci
    have hju : j ≠ u := by
      intro he
      rw [he, hcu] at hcj
      simp at hcj
    rw [hcne i hiu] at hci
    rw [hcne j hju] at hcj
    exact hancZ i j (hinv.grey_anc i j di dj hci hcj hdi hdj hle)
  · intro i hci j hj
    by_cases hiu : i = u
    · by_cases hju : j = u
      · rw [hiu, hju]
        exact Or.inr (PAnc.refl u)
      · have hjF := hadj j (by rw [← hiu]; exact hj)
        have hjlen : j < gF.names.length := hinv.adj_lt i j hj
        rcases hcol : gF.color.getD j none with _ | c
        · exact absurd hcol (hinv.col_some j hjlen)
        · match c, hcol with
          | Col.white, hcol => exact absurd hcol hjF
          | Col.grey, hcol =>
            rw [hiu]
            exact Or.inr (hancZ j u (hanc j hju hcol))
          | Col.black, hcol =>
            obtain ⟨fj, hfj⟩ := hinv.black_f j hcol
            have := hinv.f_pos j fj hfj
            refine Or.inl ⟨fj, gF.dfs_time + 1,
              by rw [hfne j hju]; exact hfj, by rw [hiu]; exact hfu, by omega⟩
    · rw [hcne i hiu] at hci
      rcases hinv.edge_cls i hci j hj with ⟨fj, fi, h1, h2, h3⟩ | ha
      · have hju : j ≠ u := by
          intro he
          rw [he, hfugF] at h1
          cases h1
        exact Or.inl ⟨fj, fi, by rw [hfne j hju]; exact h1,
          by rw [hfne i hiu]; exact h2, h3⟩
      · exact Or.inr (hancZ j i ha)
  · intro i
    show i ∈ gF.dfs_topo_sorted ++ [u] ↔ _
    by_cases hiu : i = u
    · rw [hiu, hcu]
      simp
    · rw [hcne i hiu]
      rw [List.mem_append]
      constructor
      · intro h
        rcases h with h | h
        · exact (hinv.topo_mem i).mp h
        · exact absurd (by simpa using h) hiu
      · intro h
        exact Or.inl ((hinv.topo_mem i).mpr h)
  · show (gF.dfs_topo_sorted ++ [u]).Pairwise _
    rw [List.pairwise_append]
    refine ⟨?_, by simp, ?_⟩
    · refine List.Pairwise.imp_of_mem ?_ hinv.topo_sorted
      intro a b ha hb h
      obtain ⟨fa, fb, h1, h2, h3⟩ := h
      have hau : a ≠ u := by
        intro he
        rw [he, hfugF] at h1
        cases h1
      have hbu : b ≠ u := by
        intro he
        rw [he, hfugF] at h2
        cases h2
      exact ⟨fa, fb, by rw [hfne a hau]; exact h1,
        by rw [hfne b hbu]; exact h2, h3⟩
    · intro a ha b hb
      have hb2 : b = u := by simpa using hb
      have hab : gF.color.getD a none = some Col.black :=
        (hinv.topo_mem a).mp ha
      have hau : a ≠ u := by
        intro he
        rw [he, hu] at hab
        simp at hab
      obtain ⟨fa, hfa⟩ := hinv.black_f a hab
      have := hinv.f_pos a fa hfa
      exact ⟨fa, gF.dfs_time + 1, by rw [hfne a hau]; exact hfa,
        by rw [hb2]; exact hfu, by omega⟩

/-- Setting the parent of a still-white literal (as `visit_step` does just
before the recursive visit) preserves the DFS invariant: the new pointer
carries no timestamp obligations while the literal is undiscovered. -/
lemma DfsInv_setparent (gc : Implication_Graph) (v w : Nat)
    (hinv : DfsInv gc) (hv : gc.color.getD v none = some Col.white)
    (hwpn : ∀ i, gc.color.getD i none = some Col.white →
      gc.parent.getD i none = none) :
    DfsInv { gc with parent := gc.parent.set v (some w) } := by
  set gcp : Implication_Graph :=
    { gc with parent := gc.parent.set v (some w) } with hgcp
  have hpmono : ∀ i p, gc.parent.getD i none = some p →
      gcp.parent.getD i none = some p := by
    intro i p h
    by_cases hiv : i = v
    · rw [hiv] at h
      rw [hwpn v hv] at h
      cases h
    · show (gc.parent.set v (some w)).getD i none = some p
      rw [getD_set_ne _ _ _ _ _ (fun he => hiv he.symm)]
      exact h
  have hpne : ∀ i, i ≠ v → gcp.parent.getD i none = gc.parent.getD i none := by
    intro i hi
    exact getD_set_ne _ _ _ _ _ (Ne.symm hi)
  have hancp : ∀ a b, PAnc gc a b → PAnc gcp a b := fun a b h =>
    PAnc.mono hpmono h
  refine ⟨hinv.len_color, hinv.len_d, hinv.len_f, ?_, hinv.adj_lt,
    hinv.time0, hinv.col_some, hinv.white_d, hinv.white_f, hinv.grey_d,
    hinv.grey_f, hinv.black_d, hinv.black_f, hinv.d_pos, hinv.f_pos,
    hinv.df_lt, hinv.d_inj, hinv.f_inj, hinv.df_ne, ?_, ?_, ?_, ?_, ?_,
    hinv.topo_mem, hinv.topo_sorted⟩
  · show (gc.parent.set v (some w)).length = gc.names.length
    rw [List.length_set]
    exact hinv.len_parent
  · intro b p hb hdb
    by_cases hbv : b = v
    · rw [hbv] at hdb
      rw [show gcp.d.getD v none = none from hinv.white_d v hv] at hdb
      exact absurd rfl hdb
    · rw [hpne b hbv] at hb
      exact hinv.parent_d b p hb hdb
  · intro b p hb hdb fp hfp
    by_cases hbv : b = v
    · rw [hbv] at hdb
      rw [show gcp.d.getD v none = none from hinv.white_d v hv] at hdb
      exact absurd rfl hdb
    · rw [hpne b hbv] at hb
      exact hinv.parent_f b p hb hdb fp hfp
  · intro i j di dj hne hdi hdj hlt
    rcases hinv.nest i j di dj hne hdi hdj hlt with h | ⟨ha, hcond⟩
    · exact Or.inl h
    · exact Or.inr ⟨hancp i j ha, hcond⟩
  · intro i j di dj hci hcj hdi hdj hle
    exact hancp i j (hinv.grey_anc i j di dj hci hcj hdi hdj hle)
  · intro i hci j hj
    rcases hinv.edge_cls i hci j hj with h | ha
    · exact Or.inl h
    · exact Or.inr (hancp j i ha)

/-- The master DFS lemma: with fuel at least the white count, visiting a
white literal of an invariant-satisfying state completes, preserves the
invariant, and relates the final state to the initial one by `DfsEvo`;
the visited literal ends black with discovery stamp `time+1` and finish
stamp equal to the final clock. -/
lemma dfs_visit_inv : ∀ (fuel : Nat) (g : Implication_Graph) (u : Nat),
    DfsInv g → whites g ≤ fuel →
    g.color.getD u none = some Col.white →
    (∀ i, i ≠ u → g.color.getD i none = some Col.white →
      g.parent.getD i none = none) →
    (∀ p, g.parent.getD u none = some p →
      g.color.getD p none = some Col.grey) →
    (∀ j, g.color.getD j none = some Col.grey → PAnc g j u) →
    VisitOut g (Implication_Graph.dfs_visit fuel g u) u := by
  intro fuel
  induction fuel with
  | zero =>
    intro g u hinv hfuel hw hwpn hpar hg
    exact absurd hfuel (by have := whites_pos g u hw; omega)
  | succ n ih =>
    intro g u hinv hfuel hw hwpn hpar hg
    have hulen : u < g.color.length := lt_length_of_color_getD _ _ _ hw
    have hulen2 : u < g.names.length := by rw [← hinv.len_color]; exact hulen
    have hgetu : g.color[u] = some Col.white := getElem_eq_of_getD _ _ _ _ hulen hw
    set g3 : Implication_Graph :=
      { g with dfs_time := g.dfs_time + 1,
               d := g.d.set u (some (g.dfs_time + 1)),
               color := g.color.set u (some Col.grey) } with hg3def
    have hinv3 : DfsInv g3 := DfsInv_discover g u hinv hw hpar hg
    have hg3u : g3.color.getD u none = some Col.grey :=
      getD_set_self _ _ _ _ hulen
    have hg3du : g3.d.getD u none = some (g.dfs_time + 1) :=
      getD_set_self _ _ _ _ (by rw [hinv.len_d]; exact hulen2)
    have hg3cne : ∀ i, i ≠ u → g3.color.getD i none = g.color.getD i none := by
      intro i hi
      exact getD_set_ne _ _ _ _ _ (Ne.symm hi)
    have hwg3 : whites g3 + 1 = whites g := by
      unfold whites
      show (g.color.set u (some Col.grey)).countP
        (fun c => decide (c = some Col.white)) + 1 = _
      rw [List.countP_set _ _ _ _ hulen, hgetu]
      have hpos := whites_pos g u hw
      unfold whites at hpos
      simp
      omega
    have hwpn3 : ∀ i, g3.color.getD i none = some Col.white →
        g3.parent.getD i none = none := by
      intro i hi
      have hiu : i ≠ u := by
        intro he
        rw [he, hg3u] at hi
        simp at hi
      rw [hg3cne i hiu] at hi
      exact hwpn i hiu hi
    have hganc3 : ∀ j, g3.color.getD j none = some Col.grey → PAnc g3 j u := by
      intro j hj
      by_cases hju : j = u
      · rw [hju]
        exact PAnc.refl u
      · rw [hg3cne j hju] at hj
        exact PAnc.of_parent_eq (show g3.parent = g.parent from rfl) (hg j hj)
    -- the neighbour fold
    have hfold : ∀ (l : List Nat) (gc : Implication_Graph),
        DfsInv gc → DfsEvo g3 gc → whites gc ≤ whites g3 →
        (∀ i, gc.color.getD i none = some Col.white →
          gc.parent.getD i none = none) →
        DfsInv (Implication_Graph.visit_fold n u l gc) ∧
        DfsEvo gc (Implication_Graph.visit_fold n u l gc) ∧
        whites (Implication_Graph.visit_fold n u l gc) ≤ whites g3 ∧
        (∀ i, (Implication_Graph.visit_fold n u l gc).color.getD i none =
            some Col.white →
          (Implication_Graph.visit_fold n u l gc).parent.getD i none = none) ∧
        (∀ j ∈ l, (Implication_Graph.visit_fold n u l gc).color.getD j none ≠
          some Col.white) := by
      intro l
      induction l with
      | nil =>
        intro gc h1 h2 h3 h4
        rw [visit_fold_nil]
        exact ⟨h1, DfsEvo.refl gc, h3, h4, fun j hj => absurd hj (by simp)⟩
      | cons v vs ihl =>
        intro gc h1 h2 h3 h4
        rw [visit_fold_cons]
        have hstep : DfsInv (Implication_Graph.visit_step
              (Implication_Graph.dfs_visit n) u gc v) ∧
            DfsEvo gc (Implication_Graph.visit_step
              (Implication_Graph.dfs_visit n) u gc v) ∧
            whites (Implication_Graph.visit_step
              (Implication_Graph.dfs_visit n) u gc v) ≤ whites g3 ∧
            (∀ i, (Implication_Graph.visit_step
                (Implication_Graph.dfs_visit n) u gc v).color.getD i none =
                some Col.white →
              (Implication_Graph.visit_step
                (Implication_Graph.dfs_visit n) u gc v).parent.getD i none =
                none) ∧
            (Implication_Graph.visit_step
              (Implication_Graph.dfs_visit n) u gc v).color.getD v none ≠
              some Col.white := by
          unfold Implication_Graph.visit_step
          by_cases hv : gc.color.getD v none = some Col.white
          · rw [if_pos hv]
            set gcp : Implication_Graph :=
              { gc with parent := gc.parent.set v (some u) } with hgcpdef
            have hvlen : v < gc.color.length := lt_length_of_color_getD _ _ _ hv
            have hvplen : v < gc.parent.length := by
              rw [h1.len_parent, ← h1.len_color]
              exact hvlen
            have hinvp : DfsInv gcp := DfsInv_setparent gc v u h1 hv h4
            have hwcp : whites gcp = whites gc := rfl
            have hgcpv : gcp.color.getD v none = some Col.white := hv
            have hgcppar : gcp.parent.getD v none = some u :=
              getD_set_self _ _ _ _ hvplen
            have hgcppne : ∀ i, i ≠ v →
                gcp.parent.getD i none = gc.parent.getD i none := by
              intro i hi
              exact getD_set_ne _ _ _ _ _ (Ne.symm hi)
            have hugrey : gc.color.getD u none = some Col.grey :=
              (h2.greyiff u).mpr hg3u
            have hvu : v ≠ u := by
              intro he
              rw [he, hugrey] at hv
              simp at hv
            have hwpncp : ∀ i, i ≠ v → gcp.color.getD i none = some Col.white →
                gcp.parent.getD i none = none := by
              intro i hi hwi
              rw [hgcppne i hi]
              exact h4 i hwi
            have hparcp : ∀ p, gcp.parent.getD v none = some p →
                gcp.color.getD p none = some Col.grey := by
              intro p hp
              rw [hgcppar] at hp
              cases hp
              exact hugrey
            have hgancp : ∀ j, gcp.color.getD j none = some Col.grey →
                PAnc gcp j v := by
              intro j hj
              have hanc_u : PAnc gcp j u := by
                have h5 : gc.color.getD j none = some Col.grey := hj
                have h6 : g3.color.getD j none = some Col.grey :=
                  (h2.greyiff j).mp h5
                have h7 : PAnc g3 j u := hganc3 j h6
                have h8 : PAnc gc j u := PAnc.mono h2.pkeep h7
                refine PAnc.mono ?_ h8
                intro i p hip
                by_cases hiv : i = v
                · rw [hiv] at hip
                  rw [h4 v hv] at hip
                  cases hip
                · rw [hgcppne i hiv]
                  exact hip
              exact PAnc.step hanc_u hgcppar
            have hwfuel : whites gcp ≤ n := by
              rw [hwcp]
              omega
            have hout := ih gcp v hinvp hwfuel hgcpv hwpncp hparcp hgancp
            set gr : Implication_Graph :=
              Implication_Graph.dfs_visit n gcp v with hgrdef
            have hevo_gc_gr : DfsEvo gc gr := by
              refine ⟨?_, ?_, ?_, ?_, ?_, ?_, ?_, ?_, ?_, ?_, ?_⟩
              · intro i t h
                exact hout.evo.dkeep i t h
              · intro i t h
                exact hout.evo.fkeep i t h
              · intro i p h
                refine hout.evo.pkeep i p ?_
                by_cases hiv : i = v
                · rw [hiv] at h
                  rw [h4 v hv] at h
                  cases h
                · rw [hgcppne i hiv]
                  exact h
              · intro i hne
                by_cases hiv : i = v
                · rw [hiv]
                  exact hv
                · refine hout.evo.pnew i ?_
                  rw [hgcppne i hiv]
                  exact hne
              · intro i hwi
                have hiv : i ≠ v := by
                  intro he
                  rw [he, hout.ublack] at hwi
                  simp at hwi
                rw [hout.evo.pstill i hwi, hgcppne i hiv]
              · intro i h
                exact hout.evo.blackmono i h
              · intro i h
                exact hout.evo.whiteanti i h
              · intro i
                exact hout.evo.greyiff i
              · intro i t hn hs
                exact hout.evo.ffresh i t hn hs
              · exact hout.evo.timemono
              · exact hout.evo.topoext
            refine ⟨hout.inv, hevo_gc_gr, ?_, ?_, ?_⟩
            · have := hout.wlt
              rw [hwcp] at this
              omega
            · intro i hwi
              have hiv : i ≠ v := by
                intro he
                rw [he, hout.ublack] at hwi
                simp at hwi
              rw [hout.evo.pstill i hwi, hgcppne i hiv]
              exact h4 i (hout.evo.whiteanti i hwi)
            · rw [hout.ublack]
              simp
          · rw [if_neg hv]
            exact ⟨h1, DfsEvo.refl gc, h3, h4, hv⟩
        set gc2 := Implication_Graph.visit_step
          (Implication_Graph.dfs_visit n) u gc v with hgc2def
        obtain ⟨s1, s2, s3, s4, s5⟩ := hstep
        obtain ⟨r1, r2, r3, r4, r5⟩ := ihl gc2 s1 (DfsEvo_trans h2 s2) s3 s4
        refine ⟨r1, DfsEvo_trans s2 r2, r3, r4, ?_⟩
        intro j hj
        rcases List.mem_cons.mp hj with hj1 | hj1
        · rw [hj1]
          intro hcon
          exact s5 (r2.whiteanti v hcon)
        · exact r5 j hj1
    obtain ⟨hFinv, hFevo3, hFw, hFwpn, hFnw⟩ :=
      hfold (g.adj.getD u []) g3 hinv3 (DfsEvo.refl g3) (by omega) hwpn3
    set gF : Implication_Graph :=
      Implication_Graph.visit_fold n u (g.adj.getD u []) g3 with hgFdef
    have hFu : gF.color.getD u none = some Col.grey := (hFevo3.greyiff u).mpr hg3u
    have hFdu : gF.d.getD u none = some (g.dfs_time + 1) :=
      hFevo3.dkeep u _ hg3du
    have hFfu : gF.f.getD u none = none := hFinv.grey_f u hFu
    have hFglow : ∀ j, j ≠ u → gF.color.getD j none = some Col.grey →
        ∃ tj, gF.d.getD j none = some tj ∧ tj < g.dfs_time + 1 := by
      intro j hju hj
      have hjg3 : g3.color.getD j none = some Col.grey := (hFevo3.greyiff j).mp hj
      rw [hg3cne j hju] at hjg3
      obtain ⟨tj, htj⟩ := hinv.grey_d j hjg3
      have hb := hinv.d_pos j tj htj
      have htj3 : g3.d.getD j none = some tj := by
        rw [show g3.d = g.d.set u (some (g.dfs_time + 1)) from rfl,
          getD_set_ne _ _ _ _ _ (Ne.symm hju)]
        exact htj
      exact ⟨tj, hFevo3.dkeep j tj htj3, by omega⟩
    have hFanc : ∀ j, j ≠ u → gF.color.getD j none = some Col.grey →
        PAnc gF j u := by
      intro j hju hj
      have hjg3 : g3.color.getD j none = some Col.grey := (hFevo3.greyiff j).mp hj
      exact PAnc.mono hFevo3.pkeep (hganc3 j hjg3)
    have hFframe : dfsFrame gF g3 := by
      rw [hgFdef]
      have hgen : ∀ (l : List Nat) (gc : Implication_Graph),
          dfsFrame (Implication_Graph.visit_fold n u l gc) gc := by
        intro l
        induction l with
        | nil => intro gc; rw [visit_fold_nil]; exact dfsFrame_refl gc
        | cons v vs ihl =>
          intro gc
          rw [visit_fold_cons]
          exact dfsFrame_trans gc
            (Implication_Graph.visit_step (Implication_Graph.dfs_visit n) u gc v) _
            (visit_step_frame (Implication_Graph.dfs_visit n) u
              (fun gg vv => dfs_visit_frame n gg vv) gc v)
            (ihl (Implication_Graph.visit_step (Implication_Graph.dfs_visit n) u gc v))
      exact hgen _ _
    have hFnames : gF.names = g.names := hFframe.1
    have hFadj : ∀ j ∈ gF.adj.getD u [], gF.color.getD j none ≠ some Col.white := by
      intro j hj
      have hadjeq : gF.adj = g.adj := hFframe.2.1
      rw [hadjeq] at hj
      exact hFnw j hj
    have hZinv : DfsInv
        { gF with color := gF.color.set u (some Col.black),
                  dfs_time := gF.dfs_time + 1,
                  f := gF.f.set u (some (gF.dfs_time + 1)),
                  dfs_topo_sorted := gF.dfs_topo_sorted ++ [u] } :=
      DfsInv_finish gF u (g.dfs_time + 1) hFinv hFu hFdu hFglow hFanc hFadj
    have hres : Implication_Graph.dfs_visit (n + 1) g u =
        { gF with color := gF.color.set u (some Col.black),
                  dfs_time := gF.dfs_time + 1,
                  f := gF.f.set u (some (gF.dfs_time + 1)),
                  dfs_topo_sorted := gF.dfs_topo_sorted ++ [u] } := rfl
    rw [hres]
    set gZ : Implication_Graph :=
      { gF with color := gF.color.set u (some Col.black),
                dfs_time := gF.dfs_time + 1,
                f := gF.f.set u (some (gF.dfs_time + 1)),
                dfs_topo_sorted := gF.dfs_topo_sorted ++ [u] } with hgZdef
    have hZlenc : u < gF.color.length := by
      rw [hFinv.len_color, hFnames]
      exact hulen2
    have hZlenf : u < gF.f.length := by
      rw [hFinv.len_f, hFnames]
      exact hulen2
    have hZcu : gZ.color.getD u none = some Col.black :=
      getD_set_self _ _ _ _ hZlenc
    have hZcne : ∀ i, i ≠ u → gZ.color.getD i none = gF.color.getD i none := by
      intro i hi
      exact getD_set_ne _ _ _ _ _ (Ne.symm hi)
    have hZfu : gZ.f.getD u none = some (gF.dfs_time + 1) :=
      getD_set_self _ _ _ _ hZlenf
    have hZfne : ∀ i, i ≠ u → gZ.f.getD i none = gF.f.getD i none := by
      intro i hi
      exact getD_set_ne _ _ _ _ _ (Ne.symm hi)
    have htime3F : g3.dfs_time ≤ gF.dfs_time := hFevo3.timemono
    have htime3 : g3.dfs_time = g.dfs_time + 1 := rfl
    -- the whole-visit evolution
    have hevo : DfsEvo g gZ := by
      refine ⟨?_, ?_, ?_, ?_, ?_, ?_, ?_, ?_, ?_, ?_, ?_⟩
      · intro i t h
        have hiu : i ≠ u := by
          intro he
          rw [he] at h
          rw [hinv.white_d u hw] at h
          cases h
        have h3 : g3.d.getD i none = some t := by
          rw [show g3.d = g.d.set u (some (g.dfs_time + 1)) from rfl,
            getD_set_ne _ _ _ _ _ (Ne.symm hiu)]
          exact h
        exact hFevo3.dkeep i t h3
      · intro i t h
        have hiu : i ≠ u := by
          intro he
          rw [he] at h
          rw [hinv.white_f u hw] at h
          cases h
        rw [hZfne i hiu]
        exact hFevo3.fkeep i t h
      · intro i p h
        exact hFevo3.pkeep i p h
      · intro i hne
        have hne2 : g3.parent.getD i none ≠ gF.parent.getD i none := hne
        have := hFevo3.pnew i hne2
        by_cases hiu : i = u
        · rw [hiu]
          exact hw
        · rw [hg3cne i hiu] at this
          exact this
      · intro i hwi
        have hiu : i ≠ u := by
          intro he
          rw [he, hZcu] at hwi
          simp at hwi
        rw [hZcne i hiu] at hwi
        exact hFevo3.pstill i hwi
      · intro i h
        have hiu : i ≠ u := by
          intro he
          rw [he, hw] at h
          simp at h
        rw [hZcne i hiu]
        refine hFevo3.blackmono i ?_
        rw [hg3cne i hiu]
        exact h
      · intro i hwi
        have hiu : i ≠ u := by
          intro he
          rw [he, hZcu] at hwi
          simp at hwi
        rw [hZcne i hiu] at hwi
        have := hFevo3.whiteanti i hwi
        rw [hg3cne i hiu] at this
        exact this
      · intro i
        by_cases hiu : i = u
        · rw [hiu, hZcu, hw]
          simp
        · rw [hZcne i hiu, ← hg3cne i hiu]
          exact hFevo3.greyiff i
      · intro i t hn hs
        by_cases hiu : i = u
        · rw [hiu, hZfu] at hs
          cases hs
          have := hFevo3.timemono
          rw [htime3] at this
          omega
        · rw [hZfne i hiu] at hs
          have := hFevo3.ffresh i t hn hs
          rw [htime3] at this
          omega
      · show g.dfs_time ≤ gF.dfs_time + 1
        rw [htime3] at htime3F
        omega
      · obtain ⟨l1, hl1⟩ := hFevo3.topoext
        refine ⟨l1 ++ [u], ?_⟩
        show gF.dfs_topo_sorted ++ [u] = g.dfs_topo_sorted ++ (l1 ++ [u])
        rw [hl1]
        show (g3.dfs_topo_sorted ++ l1) ++ [u] = _
        rw [List.append_assoc]
    have hwZ : whites gZ = whites gF := by
      unfold whites
      show (gF.color.set u (some Col.black)).countP _ = _
      rw [List.countP_set _ _ _ _ hZlenc,
        getElem_eq_of_getD _ _ _ _ hZlenc hFu]
      simp
    refine ⟨hZinv, hevo, hZcu, ?_, ?_, ?_, ?_⟩
    · exact hFdu
    · show gZ.f.getD u none = some (gF.dfs_time + 1)
      exact hZfu
    · show g.dfs_time < gF.dfs_time + 1
      rw [htime3] at htime3F
      omega
    · rw [hwZ]
      omega

/-- A discovered literal is grey or black. -/
lemma d_col {g : Implication_Graph} (hinv : DfsInv g) {i : Nat} {t : Int}
    (h : g.d.getD i none = some t) :
    g.color.getD i none = some Col.grey ∨
      g.color.getD i none = some Col.black := by
  have hlen : i < g.names.length := by
    have := lt_length_of_getD_some _ _ _ h
    rw [hinv.len_d] at this
    exact this
  rcases hcol : g.color.getD i none with _ | c
  · exact absurd hcol (hinv.col_some i hlen)
  · match c, hcol with
    | Col.white, hcol =>
      rw [hinv.white_d i hcol] at h
      cases h
    | Col.grey, hcol => exact Or.inl rfl
    | Col.black, hcol => exact Or.inr rfl

/-- A finished literal is black. -/
lemma f_col {g : Implication_Graph} (hinv : DfsInv g) {i : Nat} {t : Int}
    (h : g.f.getD i none = some t) :
    g.color.getD i none = some Col.black := by
  have hlen : i < g.names.length := by
    have := lt_length_of_getD_some _ _ _ h
    rw [hinv.len_f] at this
    exact this
  rcases hcol : g.color.getD i none with _ | c
  · exact absurd hcol (hinv.col_some i hlen)
  · match c, hcol with
    | Col.white, hcol =>
      rw [hinv.white_f i hcol] at h
      cases h
    | Col.grey, hcol =>
      rw [hinv.grey_f i hcol] at h
      cases h
    | Col.black, hcol => rfl

/-- Ancestry established in a later state restricts to the earlier state
on literals already discovered there: parent pointers of non-white
literals never change. -/
lemma PAnc_back {g g2 : Implication_Graph} (hinv : DfsInv g)
    (hevo : DfsEvo g g2) {a b : Nat} (h : PAnc g2 a b) :
    (g.color.getD b none = some Col.grey ∨
      g.color.getD b none = some Col.black) → PAnc g a b := by
  induction h with
  | refl => intro _; exact PAnc.refl _
  | step h1 h2 ih =>
    rename_i p0 b0
    intro hb
    have hbw : g.color.getD b0 none ≠ some Col.white := by
      rcases hb with hb | hb <;> rw [hb] <;> simp
    have hpeq : g.parent.getD b0 none = g2.parent.getD b0 none := by
      by_contra hne
      exact hbw (hevo.pnew b0 hne)
    rw [← hpeq] at h2
    have hdb : g.d.getD b0 none ≠ none := by
      rcases hb with hb | hb
      · obtain ⟨t, ht⟩ := hinv.grey_d b0 hb
        rw [ht]
        simp
      · obtain ⟨t, ht⟩ := hinv.black_d b0 hb
        rw [ht]
        simp
    obtain ⟨db, dp, hdb2, hdp2, _⟩ := hinv.parent_d b0 p0 h2 hdb
    exact PAnc.step (ih (d_col hinv hdp2)) h2

/-- Pointwise-implied predicates count strictly more when some list
element satisfies the stronger one only. -/
lemma countP_lt_of_imp (A B : Nat → Bool) :
    ∀ (l : List Nat), (∀ x ∈ l, A x = true → B x = true) →
    ∀ e ∈ l, B e = true → A e = false →
      l.countP A < l.countP B := by
  intro l
  induction l with
  | nil => intro _ e he; exact absurd he (by simp)
  | cons x xs ih =>
    intro himp e he hBe hAe
    rw [List.countP_cons, List.countP_cons]
    rcases List.mem_cons.mp he with he1 | he1
    · rw [he1] at hBe hAe
      rw [hBe, hAe]
      have hle : xs.countP A ≤ xs.countP B := by
        apply List.countP_mono_left
        intro a ha
        exact himp a (List.mem_cons_of_mem _ ha)
      simp
      omega
    · have hlt := ih (fun a ha => himp a (List.mem_cons_of_mem _ ha)) e he1 hBe hAe
      by_cases hAx : A x = true
      · rw [hAx, himp x (List.mem_cons_self _ _) hAx]
        simp
        omega
      · rw [Bool.not_eq_true] at hAx
        rw [hAx]
        simp
        omega

/-- The chain walk from a discovered literal collects exactly its parent
chain, provided the fuel covers the number of literals discovered no later
than it (the discovery times strictly decrease up the chain). -/
lemma chain_walk_mem : ∀ (fuel : Nat) (gw : Implication_Graph) (e : Nat)
    (de : Int),
    (∀ b p, gw.parent.getD b none = some p → gw.d.getD b none ≠ none →
      ∃ db dp, gw.d.getD b none = some db ∧ gw.d.getD p none = some dp ∧
        dp < db) →
    gw.d.length = gw.names.length →
    gw.d.getD e none = some de →
    ((List.range gw.names.length).countP (fun i =>
      match gw.d.getD i none with
      | some t => decide (t ≤ de)
      | none => false)) ≤ fuel →
    ∀ a, (a ∈ (Implication_Graph.chain_walk fuel gw (some e)).2 ↔
      PAnc gw a e) := by
  intro fuel
  induction fuel with
  | zero =>
    intro gw e de hpd hlen hde hcnt a
    exfalso
    have helen : e < gw.names.length := by
      have := lt_length_of_getD_some _ _ _ hde
      rw [hlen] at this
      exact this
    have hpos : 0 < (List.range gw.names.length).countP (fun i =>
        match gw.d.getD i none with
        | some t => decide (t ≤ de)
        | none => false) := by
      rw [List.countP_pos]
      exact ⟨e, List.mem_range.mpr helen, by rw [hde]; simp⟩
    omega
  | succ n ihw =>
    intro gw e de hpd hlen hde hcnt a
    rw [chain_walk_succ]
    set g1 : Implication_Graph :=
      { gw with checked := gw.checked.set e true } with hg1def
    rcases hpe : gw.parent.getD e none with _ | p
    · have hnil : (Implication_Graph.chain_walk n g1 none).2 = [] := by
        cases n <;> rfl
      rw [hnil]
      simp only [List.mem_cons, List.not_mem_nil, or_false]
      constructor
      · intro h
        rw [h]
        exact PAnc.refl e
      · intro h
        cases h with
        | refl => rfl
        | step h1 h2 =>
          rw [hpe] at h2
          cases h2
    · obtain ⟨db, dp, hdb, hdp, hlt⟩ := hpd e p hpe (by rw [hde]; simp)
      rw [hde] at hdb
      cases hdb
      have hcnt2 : ((List.range gw.names.length).countP (fun i =>
          match gw.d.getD i none with
          | some t => decide (t ≤ dp)
          | none => false)) ≤ n := by
        have hstrict : ((List.range gw.names.length).countP (fun i =>
            match gw.d.getD i none with
            | some t => decide (t ≤ dp)
            | none => false)) <
            ((List.range gw.names.length).countP (fun i =>
            match gw.d.getD i none with
            | some t => decide (t ≤ de)
            | none => false)) := by
          refine countP_lt_of_imp _ _ _ ?_ e ?_ ?_ ?_
          · intro x _ hx
            rcases hdx : gw.d.getD x none with _ | tx
            · rw [hdx] at hx
              simp at hx
            · rw [hdx] at hx
              simp at hx ⊢
              omega
          · exact List.mem_range.mpr (by
              have := lt_length_of_getD_some _ _ _ hde
              rw [hlen] at this
              exact this)
          · rw [hde]
            simp
          · rw [hde]
            simp
            omega
        omega
      have hih := ihw g1 p dp
        (by
          intro b q hb hd
          exact hpd b q hb hd)
        hlen hdp hcnt2
      constructor
      · intro h
        rcases List.mem_cons.mp h with h1 | h1
        · rw [h1]
          exact PAnc.refl e
        · have := (hih a).mp h1
          have h2 : PAnc gw a p :=
            PAnc.of_parent_eq (show gw.parent = g1.parent from rfl) this
          exact PAnc.step h2 hpe
      · intro h
        cases h with
        | refl => exact List.mem_cons_self _ _
        | step h1 h2 =>
          rw [hpe] at h2
          cases h2
          refine List.mem_cons_of_mem _ ?_
          exact (hih a).mpr
            (PAnc.of_parent_eq (show g1.parent = gw.parent from rfl) h1)

/-- Equation of a firing recovery step. -/
lemma recovery_step_fires (p : Implication_Graph × List (List Nat)) (e : Nat)
    (hc : p.1.checked.getD e false = false) :
    Implication_Graph.recovery_step p e =
      ((Implication_Graph.chain_walk (p.1.names.length + 1)
          { p.1 with checked := p.1.checked.set e true } (some e)).1,
        p.2 ++ [(Implication_Graph.chain_walk (p.1.names.length + 1)
          { p.1 with checked := p.1.checked.set e true } (some e)).2]) := by
  unfold Implication_Graph.recovery_step
  rw [if_pos hc]

/-- Equation of a skipping recovery step. -/
lemma recovery_step_skips (p : Implication_Graph × List (List Nat)) (e : Nat)
    (hc : ¬ p.1.checked.getD e false = false) :
    Implication_Graph.recovery_step p e = p := by
  unfold Implication_Graph.recovery_step
  rw [if_neg hc]

/-- The chain walk preserves the checked-array length. -/
lemma chain_walk_checked_length : ∀ (fuel : Nat) (g : Implication_Graph)
    (c : Option Nat),
    (Implication_Graph.chain_walk fuel g c).1.checked.length =
      g.checked.length := by
  intro fuel
  induction fuel with
  | zero => intro g c; rfl
  | succ n ih =>
    intro g c
    match c with
    | none => rfl
    | some c0 =>
      rw [chain_walk_succ]
      rw [ih _ _]
      exact List.length_set _ _ _

/-- Any fold of recovery steps only checks literals. -/
lemma recovery_fold_checked_mono (l : List Nat)
    (p : Implication_Graph × List (List Nat)) (i : Nat)
    (h : p.1.checked.getD i false = true) :
    (l.foldl Implication_Graph.recovery_step p).1.checked.getD i false =
      true := by
  refine foldl_inv _ (fun q : Implication_Graph × List (List Nat) =>
    q.1.checked.getD i false = true) ?_ l p h
  intro q e hq
  by_cases hc : q.1.checked.getD e false = false
  · rw [recovery_step_fires q e hc]
    exact chain_walk_checked_mono _ _ _ i (checked_set_mono _ _ _ hq)
  · rw [recovery_step_skips q e hc]
    exact hq

/-- After `recovery`, every in-range literal of the finish list is
checked. -/
lemma recovery_all_checked (g0 : Implication_Graph)
    (hlen : ∀ e ∈ g0.dfs_topo_sorted, e < g0.checked.length) :
    ∀ e ∈ g0.dfs_topo_sorted,
      (Implication_Graph.recovery g0).1.checked.getD e false = true := by
  unfold Implication_Graph.recovery
  have main : ∀ (l : List Nat) (p : Implication_Graph × List (List Nat)),
      p.1.checked.length = g0.checked.length →
      ∀ e ∈ l, e < g0.checked.length →
        (l.foldl Implication_Graph.recovery_step p).1.checked.getD
          e false = true := by
    intro l
    induction l with
    | nil => intro p _ e he; exact absurd he (by simp)
    | cons e0 l2 ih =>
      intro p hplen e he helen
      rw [List.foldl_cons]
      rcases List.mem_cons.mp he with he1 | he1
      · subst he1
        refine recovery_fold_checked_mono l2 _ e ?_
        by_cases hc : p.1.checked.getD e false = false
        · rw [recovery_step_fires p e hc]
          refine chain_walk_checked_mono _ _ _ e ?_
          exact getD_set_self _ _ _ _ (by omega)
        · rw [recovery_step_skips p e hc]
          exact Bool.of_not_eq_false hc
      · refine ih _ ?_ e he1 helen
        by_cases hc : p.1.checked.getD e0 false = false
        · rw [recovery_step_fires p e0 hc, chain_walk_checked_length]
          show (p.1.checked.set e0 true).length = _
          rw [List.length_set]
          exact hplen
        · rw [recovery_step_skips p e0 hc]
          exact hplen
  intro e he
  exact main g0.dfs_topo_sorted (g0, []) rfl e he (hlen e he)

/-- The components emitted by `recovery` are exactly the parent chains of
a sublist of the finish list, each defining literal being unchecked at the
start of the recovery. -/
lemma recovery_chains (g0 : Implication_Graph) (hinv : DfsInv g0) :
    ∃ des : List Nat, des.Sublist g0.dfs_topo_sorted ∧
      (∀ e ∈ des, g0.checked.getD e false = false) ∧
      List.Forall₂ (chainHas g0) (Implication_Graph.recovery g0).2 des := by
  unfold Implication_Graph.recovery
  have main : ∀ (l : List Nat) (p : Implication_Graph × List (List Nat)),
      (∀ e ∈ l, e ∈ g0.dfs_topo_sorted) →
      walkFrame p.1 g0 →
      (∀ i, g0.checked.getD i false = true →
        p.1.checked.getD i false = true) →
      ∃ des newcl, des.Sublist l ∧
        (∀ e ∈ des, g0.checked.getD e false = false) ∧
        (l.foldl Implication_Graph.recovery_step p).2 = p.2 ++ newcl ∧
        List.Forall₂ (chainHas g0) newcl des := by
    intro l
    induction l with
    | nil =>
      intro p _ _ _
      exact ⟨[], [], List.Sublist.refl _, fun e he => absurd he (by simp),
        by simp, List.Forall₂.nil⟩
    | cons e0 l2 ih =>
      intro p htopo hframe hmono
      rw [List.foldl_cons]
      by_cases hc : p.1.checked.getD e0 false = false
      · rw [recovery_step_fires p e0 hc]
        set g1 : Implication_Graph :=
          { p.1 with checked := p.1.checked.set e0 true } with hg1def
        set r := Implication_Graph.chain_walk (p.1.names.length + 1) g1
          (some e0) with hrdef
        have hg1frame : walkFrame g1 g0 := by
          obtain ⟨w1, w2, w3, w4, w5, w6, w7, w8, w9⟩ := hframe
          exact ⟨w1, w2, w3, w4, w5, w6, w7, w8, w9⟩
        have hrframe : walkFrame r.1 g0 :=
          walkFrame_trans _ _ _ hg1frame (chain_walk_frame _ g1 (some e0))
        have he0topo : e0 ∈ g0.dfs_topo_sorted :=
          htopo e0 (List.mem_cons_self _ _)
        have he0black : g0.color.getD e0 none = some Col.black :=
          (hinv.topo_mem e0).mp he0topo
        obtain ⟨de, hde⟩ := hinv.black_d e0 he0black
        have hg1d : g1.d = g0.d := hg1frame.2.2.2.1
        have hg1par : g1.parent = g0.parent := hg1frame.2.2.2.2.2.2.1
        have hg1names : g1.names = g0.names := hg1frame.1
        have hde1 : g1.d.getD e0 none = some de := by
          rw [hg1d]
          exact hde
        have hmem : ∀ a, a ∈ r.2 ↔ PAnc g1 a e0 := by
          have hfuel : p.1.names.length + 1 = g1.names.length + 1 := rfl
          rw [hrdef, hfuel]
          refine chain_walk_mem (g1.names.length + 1) g1 e0 de ?_ ?_ hde1 ?_
          · intro b q hb hd
            rw [hg1par] at hb
            rw [hg1d] at hd ⊢
            obtain ⟨db, dq, h1, h2, h3⟩ := hinv.parent_d b q hb hd
            exact ⟨db, dq, h1, h2, h3⟩
          · rw [hg1d, hg1names]
            exact hinv.len_d
          · have := List.countP_le_length (l := List.range g1.names.length)
              (p := fun i => match g1.d.getD i none with
                | some t => decide (t ≤ de)
                | none => false)
            rw [List.length_range] at this
            omega
        have hmem0 : ∀ a, a ∈ r.2 ↔ PAnc g0 a e0 := by
          intro a
          rw [hmem a]
          constructor
          · intro h
            exact PAnc.of_parent_eq hg1par.symm h
          · intro h
            exact PAnc.of_parent_eq hg1par h
        have hhead : r.2.head? = some e0 := by
          rw [hrdef]
          rw [chain_walk_succ]
          rfl
        have hmono1 : ∀ i, g0.checked.getD i false = true →
            r.1.checked.getD i false = true := by
          intro i hi
          rw [hrdef]
          refine chain_walk_checked_mono _ _ _ i ?_
          exact checked_set_mono _ _ _ (hmono i hi)
        obtain ⟨des, newcl, hsub, hunchk, hfold, hfa⟩ :=
          ih (r.1, p.2 ++ [r.2])
            (fun e he => htopo e (List.mem_cons_of_mem _ he))
            hrframe hmono1
        refine ⟨e0 :: des, r.2 :: newcl, List.Sublist.cons₂ e0 hsub, ?_, ?_, ?_⟩
        · intro e he
          rcases List.mem_cons.mp he with he1 | he1
          · rw [he1]
            by_contra hne
            have := hmono e0 (Bool.of_not_eq_false hne)
            rw [this] at hc
            cases hc
          · exact hunchk e he1
        · rw [hfold]
          simp
        · exact List.Forall₂.cons ⟨hhead, hmem0⟩ hfa
      · rw [recovery_step_skips p e0 hc]
        obtain ⟨des, newcl, hsub, hunchk, hfold, hfa⟩ :=
          ih p (fun e he => htopo e (List.mem_cons_of_mem _ he)) hframe hmono
        exact ⟨des, newcl, List.Sublist.cons e0 hsub, hunchk, hfold, hfa⟩
  obtain ⟨des, newcl, hsub, hunchk, hfold, hfa⟩ :=
    main g0.dfs_topo_sorted (g0, []) (fun e he => he) (walkFrame_refl g0)
      (fun i hi => hi)
  refine ⟨des, hsub, hunchk, ?_⟩
  rw [hfold]
  simpa using hfa

/-- A graph agreeing with another on everything but `checked` is that
graph with its `checked` array replaced. -/
lemma eq_setchecked_of_walkFrame (g2 g : Implication_Graph)
    (h : walkFrame g2 g) : g2 = { g with checked := g2.checked } := by
  obtain ⟨h1, h2, h3, h4, h5, h6, h7, h8, h9⟩ := h
  cases g2
  cases g
  dsimp at h1 h2 h3 h4 h5 h6 h7 h8 h9 ⊢
  rw [h1, h2, h3, h4, h5, h6, h7, h8, h9]

/-- The DFS invariant ignores `checked`, so it transports along
`walkFrame`. -/
lemma DfsInv_of_walkFrame (g2 g : Implication_Graph)
    (h : walkFrame g2 g) (hinv : DfsInv g) : DfsInv g2 := by
  rw [eq_setchecked_of_walkFrame g2 g h]
  have hanc : ∀ a b, PAnc g a b →
      PAnc { g with checked := g2.checked } a b := by
    intro a b hab
    exact PAnc.of_parent_eq
      (show ({ g with checked := g2.checked } :
        Implication_Graph).parent = g.parent from rfl) hab
  refine ⟨hinv.len_color, hinv.len_d, hinv.len_f, hinv.len_parent,
    hinv.adj_lt, hinv.time0, hinv.col_some, hinv.white_d, hinv.white_f,
    hinv.grey_d, hinv.grey_f, hinv.black_d, hinv.black_f, hinv.d_pos,
    hinv.f_pos, hinv.df_lt, hinv.d_inj, hinv.f_inj, hinv.df_ne,
    hinv.parent_d, hinv.parent_f, ?_, ?_, ?_, hinv.topo_mem,
    hinv.topo_sorted⟩
  · intro i j di dj hne hdi hdj hlt
    rcases hinv.nest i j di dj hne hdi hdj hlt with hd | ⟨ha, hcond⟩
    · exact Or.inl hd
    · exact Or.inr ⟨hanc i j ha, hcond⟩
  · intro i j di dj hci hcj hdi hdj hle
    exact hanc i j (hinv.grey_anc i j di dj hci hcj hdi hdj hle)
  · intro i hci j hj
    rcases hinv.edge_cls i hci j hj with hd | ha
    · exact Or.inl hd
    · exact Or.inr (hanc j i ha)

/-- A `walkFrame`-related successor state is a (trivial) DFS evolution. -/
lemma DfsEvo_of_walkFrame (g2 g : Implication_Graph)
    (h : walkFrame g2 g) : DfsEvo g g2 := by
  rw [eq_setchecked_of_walkFrame g2 g h]
  exact ⟨fun _ _ h => h, fun _ _ h => h, fun _ _ h => h,
    fun i h => absurd (Eq.refl _) h, fun _ _ => rfl, fun _ h => h,
    fun _ h => h, fun _ => Iff.rfl,
    (fun i t h1 h2 => by rw [h1] at h2; cases h2),
    le_refl _, ⟨[], by simp⟩⟩

/-- `recovery` preserves the checked-array length. -/
lemma recovery_checked_length (g0 : Implication_Graph) :
    (Implication_Graph.recovery g0).1.checked.length =
      g0.checked.length := by
  unfold Implication_Graph.recovery
  have main : ∀ (l : List Nat) (p : Implication_Graph × List (List Nat)),
      (l.foldl Implication_Graph.recovery_step p).1.checked.length =
        p.1.checked.length := by
    intro l
    induction l with
    | nil => intro p; rfl
    | cons e0 l2 ih =>
      intro p
      rw [List.foldl_cons]
      rw [ih _]
      by_cases hc : p.1.checked.getD e0 false = false
      · rw [recovery_step_fires p e0 hc, chain_walk_checked_length]
        show (p.1.checked.set e0 true).length = _
        rw [List.length_set]
      · rw [recovery_step_skips p e0 hc]
  exact main _ _

/-- The sweep over the index range preserves the DFS invariant, relates
start and end by `DfsEvo`, keeps the no-grey and white-parentless frame,
and leaves no listed literal white. -/
lemma dfs_sweep_inv (fuel : Nat) (g : Implication_Graph)
    (hinv : DfsInv g) (hfuel : whites g ≤ fuel)
    (hng : ∀ i, g.color.getD i none ≠ some Col.grey)
    (hwpn : ∀ i, g.color.getD i none = some Col.white →
      g.parent.getD i none = none) :
    DfsInv (Implication_Graph.dfs_sweep fuel g).1 ∧
    DfsEvo g (Implication_Graph.dfs_sweep fuel g).1 ∧
    (∀ i, (Implication_Graph.dfs_sweep fuel g).1.color.getD i none ≠
      some Col.grey) ∧
    (∀ i, (Implication_Graph.dfs_sweep fuel g).1.color.getD i none =
        some Col.white →
      (Implication_Graph.dfs_sweep fuel g).1.parent.getD i none = none) ∧
    (∀ i ∈ List.range g.names.length,
      (Implication_Graph.dfs_sweep fuel g).1.color.getD i none ≠
        some Col.white) := by
  have hfold : ∀ (l : List Nat) (p : Implication_Graph × List Nat),
      DfsInv p.1 → DfsEvo g p.1 → whites p.1 ≤ whites g →
      (∀ i, p.1.color.getD i none ≠ some Col.grey) →
      (∀ i, p.1.color.getD i none = some Col.white →
        p.1.parent.getD i none = none) →
      DfsInv (l.foldl (Implication_Graph.sweep_step fuel) p).1 ∧
      DfsEvo p.1 (l.foldl (Implication_Graph.sweep_step fuel) p).1 ∧
      whites (l.foldl (Implication_Graph.sweep_step fuel) p).1 ≤ whites g ∧
      (∀ i, (l.foldl (Implication_Graph.sweep_step fuel) p).1.color.getD
        i none ≠ some Col.grey) ∧
      (∀ i, (l.foldl (Implication_Graph.sweep_step fuel) p).1.color.getD
          i none = some Col.white →
        (l.foldl (Implication_Graph.sweep_step fuel) p).1.parent.getD
          i none = none) ∧
      (∀ i ∈ l, (l.foldl (Implication_Graph.sweep_step fuel) p).1.color.getD
        i none ≠ some Col.white) := by
    intro l
    induction l with
    | nil =>
      intro p h1 _ h3 h4 h5
      exact ⟨h1, DfsEvo.refl p.1, h3, h4, h5, fun i hi => absurd hi (by simp)⟩
    | cons v vs ihl =>
      intro p h1 h2 h3 h4 h5
      rw [List.foldl_cons]
      have hstep : DfsInv (Implication_Graph.sweep_step fuel p v).1 ∧
          DfsEvo p.1 (Implication_Graph.sweep_step fuel p v).1 ∧
          whites (Implication_Graph.sweep_step fuel p v).1 ≤ whites g ∧
          (∀ i, (Implication_Graph.sweep_step fuel p v).1.color.getD i none ≠
            some Col.grey) ∧
          (∀ i, (Implication_Graph.sweep_step fuel p v).1.color.getD i none =
              some Col.white →
            (Implication_Graph.sweep_step fuel p v).1.parent.getD i none =
              none) ∧
          (Implication_Graph.sweep_step fuel p v).1.color.getD v none ≠
            some Col.white := by
        unfold Implication_Graph.sweep_step
        by_cases hv : p.1.color.getD v none = some Col.white
        · rw [if_pos hv]
          have hout := dfs_visit_inv fuel p.1 v h1 (by omega) hv
            (fun i _ hw => h5 i hw)
            (fun q hq => by rw [h5 v hv] at hq; cases hq)
            (fun j hj => absurd hj (h4 j))
          refine ⟨hout.inv, hout.evo, ?_, ?_, ?_, ?_⟩
          · show whites (Implication_Graph.dfs_visit fuel p.1 v) ≤ whites g
            have := hout.wlt
            omega
          · intro i
            intro hcon
            exact h4 i ((hout.evo.greyiff i).mp hcon)
          · intro i hwi
            rw [hout.evo.pstill i hwi]
            exact h5 i (hout.evo.whiteanti i hwi)
          · rw [hout.ublack]
            simp
        · rw [if_neg hv]
          exact ⟨h1, DfsEvo.refl p.1, h3, h4, h5, hv⟩
      obtain ⟨s1, s2, s3, s4, s5, s6⟩ := hstep
      obtain ⟨r1, r2, r3, r4, r5, r6⟩ :=
        ihl (Implication_Graph.sweep_step fuel p v) s1 (DfsEvo_trans h2 s2) s3 s4 s5
      refine ⟨r1, DfsEvo_trans s2 r2, r3, r4, r5, ?_⟩
      intro i hi
      rcases List.mem_cons.mp hi with hi1 | hi1
      · rw [hi1]
        intro hcon
        exact s6 (r2.whiteanti v hcon)
      · exact r6 i hi1
  obtain ⟨r1, r2, r3, r4, r5, r6⟩ := hfold (List.range g.names.length) (g, [])
    hinv (DfsEvo.refl g) (le_refl _) hng hwpn
  exact ⟨r1, r2, r4, r5, r6⟩

/-- Full specification of one guarded `dfs_second` call: the DFS invariant
and the no-grey, white-parentless frame survive, start and end are related
by `DfsEvo`, the finish list ends fully checked, and the returned
components are the parent chains of a sublist of the finish list whose
defining literals are freshly finished (finish stamps above the old clock)
and listed in increasing finish order. -/
lemma dfs_second_full (gi : Implication_Graph) (s : Name)
    (hinv : DfsInv gi)
    (hng : ∀ i, gi.color.getD i none ≠ some Col.grey)
    (hwpn : ∀ i, gi.color.getD i none = some Col.white →
      gi.parent.getD i none = none)
    (hchkl : gi.checked.length = gi.names.length)
    (htopochk : ∀ e ∈ gi.dfs_topo_sorted, gi.checked.getD e false = true)
    (hs : s = [] ∨ ∃ idx, idx < gi.names.length ∧ gi.names.Nodup ∧
      gi.names.getD idx [] = s ∧ gi.color.getD idx none = some Col.white) :
    DfsInv (Implication_Graph.dfs_second (gi.names.length + 1) gi (some s)).1 ∧
    DfsEvo gi (Implication_Graph.dfs_second (gi.names.length + 1) gi (some s)).1 ∧
    (∀ i, (Implication_Graph.dfs_second (gi.names.length + 1) gi
      (some s)).1.color.getD i none ≠ some Col.grey) ∧
    (∀ i, (Implication_Graph.dfs_second (gi.names.length + 1) gi
        (some s)).1.color.getD i none = some Col.white →
      (Implication_Graph.dfs_second (gi.names.length + 1) gi
        (some s)).1.parent.getD i none = none) ∧
    (Implication_Graph.dfs_second (gi.names.length + 1) gi
      (some s)).1.checked.length =
      (Implication_Graph.dfs_second (gi.names.length + 1) gi
        (some s)).1.names.length ∧
    (∀ e ∈ (Implication_Graph.dfs_second (gi.names.length + 1) gi
        (some s)).1.dfs_topo_sorted,
      (Implication_Graph.dfs_second (gi.names.length + 1) gi
        (some s)).1.checked.getD e false = true) ∧
    ∃ des : List Nat,
      List.Forall₂ (chainHas (Implication_Graph.dfs_second
        (gi.names.length + 1) gi (some s)).1)
        (Implication_Graph.dfs_second (gi.names.length + 1) gi (some s)).2
        des ∧
      (∀ e ∈ des, (Implication_Graph.dfs_second (gi.names.length + 1) gi
          (some s)).1.color.getD e none = some Col.black ∧
        ∃ fe, (Implication_Graph.dfs_second (gi.names.length + 1) gi
          (some s)).1.f.getD e none = some fe ∧ gi.dfs_time < fe) ∧
      des.Pairwise (fun a b => ∃ fa fb,
        (Implication_Graph.dfs_second (gi.names.length + 1) gi
          (some s)).1.f.getD a none = some fa ∧
        (Implication_Graph.dfs_second (gi.names.length + 1) gi
          (some s)).1.f.getD b none = some fb ∧ fa < fb) := by
  set fuel := gi.names.length + 1 with hfueldef
  have hwfuel : whites gi ≤ fuel := by
    have h1 := whites_le_length gi
    have h2 := hinv.len_color
    omega
  have hstart : ∃ g1 : Implication_Graph,
      Implication_Graph.dfs_second fuel gi (some s) =
        Implication_Graph.recovery (Implication_Graph.dfs_sweep fuel g1).1 ∧
      DfsInv g1 ∧ DfsEvo gi g1 ∧
      (∀ i, g1.color.getD i none ≠ some Col.grey) ∧
      (∀ i, g1.color.getD i none = some Col.white →
        g1.parent.getD i none = none) ∧
      dfsFrame g1 gi := by
    by_cases hse : s = []
    · refine ⟨gi, ?_, hinv, DfsEvo.refl gi, hng, hwpn, dfsFrame_refl gi⟩
      subst hse
      rfl
    · rcases hs with hs0 | ⟨idx, hidx, hnod, hname, hwhite⟩
      · exact absurd hs0 hse
      · have hgid : gi.get_literal_id s = (idx : Int) := by
          unfold Implication_Graph.get_literal_id
          rw [idxOf_nodup s gi.names hnod idx hidx hname]
        have hpy : gi.pyIndex (gi.get_literal_id s) = idx := by
          unfold Implication_Graph.pyIndex
          rw [hgid, if_pos (by positivity)]
          simp
        have hout := dfs_visit_inv fuel gi idx hinv (by omega) hwhite
          (fun i _ hw => hwpn i hw)
          (fun q hq => by rw [hwpn idx hwhite] at hq; cases hq)
          (fun j hj => absurd hj (hng j))
        refine ⟨Implication_Graph.dfs_visit fuel gi idx, ?_, hout.inv,
          hout.evo, ?_, ?_, dfs_visit_frame fuel gi idx⟩
        · unfold Implication_Graph.dfs_second
          dsimp only
          rw [if_neg hse, hpy]
        · intro i hcon
          exact hng i ((hout.evo.greyiff i).mp hcon)
        · intro i hwi
          rw [hout.evo.pstill i hwi]
          exact hwpn i (hout.evo.whiteanti i hwi)
  obtain ⟨g1, heq, hinv1, hevo1, hng1, hwpn1, hframe1⟩ := hstart
  have hg1names : g1.names = gi.names := hframe1.1
  have hg1checked : g1.checked = gi.checked := hframe1.2.2.2
  have hw1 : whites g1 ≤ fuel := by
    have h1 := whites_le_length g1
    have h2 := hinv1.len_color
    rw [hg1names] at h2
    omega
  obtain ⟨hinvsw, hevosw, hngsw, hwpnsw, hnwsw⟩ :=
    dfs_sweep_inv fuel g1 hinv1 hw1 hng1 hwpn1
  set gsw := (Implication_Graph.dfs_sweep fuel g1).1 with hgswdef
  have hswframe : dfsFrame gsw g1 := dfs_sweep_frame fuel g1
  have hswnames : gsw.names = gi.names := hswframe.1.trans hg1names
  have hswchecked : gsw.checked = gi.checked := hswframe.2.2.2.trans hg1checked
  have hevo1sw : DfsEvo gi gsw := DfsEvo_trans hevo1 hevosw
  set r := Implication_Graph.recovery gsw with hrdef
  have hrframe : walkFrame r.1 gsw := recovery_frame gsw
  have hrinv : DfsInv r.1 := DfsInv_of_walkFrame r.1 gsw hrframe hinvsw
  have hrevo : DfsEvo gi r.1 :=
    DfsEvo_trans hevo1sw (DfsEvo_of_walkFrame r.1 gsw hrframe)
  have hrcol : r.1.color = gsw.color := hrframe.2.2.2.2.2.1
  have hrpar : r.1.parent = gsw.parent := hrframe.2.2.2.2.2.2.1
  have hrf : r.1.f = gsw.f := hrframe.2.2.2.2.1
  have hrtopo : r.1.dfs_topo_sorted = gsw.dfs_topo_sorted :=
    hrframe.2.2.2.2.2.2.2.2
  have hrnames : r.1.names = gsw.names := hrframe.1
  rw [heq]
  refine ⟨hrinv, hrevo, ?_, ?_, ?_, ?_, ?_⟩
  · intro i
    rw [show (Implication_Graph.recovery gsw).1.color = gsw.color from hrcol]
    exact hngsw i
  · intro i hwi
    rw [show (Implication_Graph.recovery gsw).1.color = gsw.color
      from hrcol] at hwi
    rw [show (Implication_Graph.recovery gsw).1.parent = gsw.parent from hrpar]
    exact hwpnsw i hwi
  · rw [show (Implication_Graph.recovery gsw).1.names = gsw.names
      from hrnames]
    rw [recovery_checked_length gsw, hswchecked, hchkl, hswnames]
  · intro e he
    rw [show (Implication_Graph.recovery gsw).1.dfs_topo_sorted =
      gsw.dfs_topo_sorted from hrtopo] at he
    refine recovery_all_checked gsw ?_ e he
    intro e2 he2
    have hb : gsw.color.getD e2 none = some Col.black :=
      (hinvsw.topo_mem e2).mp he2
    have hlt : e2 < gsw.color.length := lt_length_of_color_getD _ _ _ hb
    rw [hinvsw.len_color] at hlt
    rw [hswchecked, hchkl, ← hswnames]
    exact hlt
  · obtain ⟨des, hsub, hunchk, hfa⟩ := recovery_chains gsw hinvsw
    refine ⟨des, ?_, ?_, ?_⟩
    · refine List.Forall₂.imp ?_ hfa
      intro c e hce
      obtain ⟨hhd, hmem⟩ := hce
      refine ⟨hhd, ?_⟩
      intro a
      rw [hmem a]
      constructor
      · intro h
        exact PAnc.of_parent_eq hrpar h
      · intro h
        exact PAnc.of_parent_eq hrpar.symm h
    · intro e he
      have hetopo : e ∈ gsw.dfs_topo_sorted := hsub.mem he
      have hb : gsw.color.getD e none = some Col.black :=
        (hinvsw.topo_mem e).mp hetopo
      obtain ⟨fe, hfe⟩ := hinvsw.black_f e hb
      have hb2 : (Implication_Graph.recovery gsw).1.color.getD e none =
          some Col.black := by
        rw [show (Implication_Graph.recovery gsw).1.color = gsw.color
          from hrcol]
        exact hb
      have hfe2 : (Implication_Graph.recovery gsw).1.f.getD e none =
          some fe := by
        rw [show (Implication_Graph.recovery gsw).1.f = gsw.f from hrf]
        exact hfe
      refine ⟨hb2, fe, hfe2, ?_⟩
      -- the defining literal was not finished before the call
      have hechk : gi.checked.getD e false = false := by
        rw [← hswchecked]
        exact hunchk e he
      have hnotopo : e ∉ gi.dfs_topo_sorted := by
        intro hcon
        rw [htopochk e hcon] at hechk
        cases hechk
      have hfgi : gi.f.getD e none = none := by
        rcases hf : gi.f.getD e none with _ | t
        · rfl
        · have := f_col hinv hf
          exact absurd ((hinv.topo_mem e).mpr this) hnotopo
      exact hevo1sw.ffresh e fe hfgi hfe
    · have hps := hinvsw.topo_sorted
      have hdes := List.Pairwise.sublist hsub hps
      refine hdes.imp ?_
      intro a b hab
      obtain ⟨fa, fb, h1, h2, h3⟩ := hab
      have h1b : (Implication_Graph.recovery gsw).1.f.getD a none =
          some fa := by
        rw [show (Implication_Graph.recovery gsw).1.f = gsw.f from hrf]
        exact h1
      have h2b : (Implication_Graph.recovery gsw).1.f.getD b none =
          some fb := by
        rw [show (Implication_Graph.recovery gsw).1.f = gsw.f from hrf]
        exact h2
      exact ⟨fa, fb, h1b, h2b, h3⟩

/-- Each left member of a `Forall₂` pairing has a right partner. -/
lemma forall2_mem_left {α β : Type} {R : α → β → Prop} :
    ∀ {l1 : List α} {l2 : List β}, List.Forall₂ R l1 l2 →
      ∀ c ∈ l1, ∃ e ∈ l2, R c e := by
  intro l1 l2 h
  induction h with
  | nil => intro c hc; exact absurd hc (by simp)
  | cons hR hfa ih =>
    intro c hc
    rcases List.mem_cons.mp hc with hc1 | hc1
    · rw [hc1]
      exact ⟨_, List.mem_cons_self _ _, hR⟩
    · obtain ⟨e, he, hRe⟩ := ih c hc1
      exact ⟨e, List.mem_cons_of_mem _ he, hRe⟩

/-- Transfer of pairwise ordering across a `Forall₂` pairing. -/
lemma pairwise_of_forall2 {α β : Type} {R : α → β → Prop} {S : β → β → Prop}
    {T : α → α → Prop} :
    ∀ {cl : List α} {des : List β}, List.Forall₂ R cl des →
      des.Pairwise S →
      (∀ c e c2 e2, R c e → R c2 e2 → S e e2 → T c c2) →
      cl.Pairwise T := by
  intro cl des hfa
  induction hfa with
  | nil => intro _ _; exact List.Pairwise.nil
  | cons hR hfa2 ih =>
    intro hp himp
    rw [List.pairwise_cons] at hp ⊢
    refine ⟨?_, ih hp.2 himp⟩
    intro c2 hc2
    obtain ⟨e2, he2, hR2⟩ := forall2_mem_left hfa2 c2 hc2
    exact himp _ _ _ _ hR hR2 (hp.1 e2 he2)

/-- One step of the `sccs` loop preserves the loop invariant and only
evolves the graph forward. -/
lemma scc_step_loopinv (G1 : Implication_Graph)
    (p : Implication_Graph × List (List Nat)) (u : Nat) (h : LoopInv p) :
    LoopInv (scc_step G1 p u) ∧ DfsEvo p.1 (scc_step G1 p u).1 ∧
      (scc_step G1 p u).1.names = p.1.names := by
  unfold scc_step
  by_cases hg : p.1.color.getD (p.1.pyIndex (p.1.get_literal_id
      (G1.names.getD u []))) none = some Col.white
  · rw [if_pos hg]
    set idx := p.1.pyIndex (p.1.get_literal_id (G1.names.getD u []))
      with hidxdef
    have hidxlt : idx < p.1.names.length := by
      have h1 := lt_length_of_color_getD _ _ _ hg
      rw [h.inv.len_color] at h1
      exact h1
    obtain ⟨q1, q2, q3, q4, q5, q6, des, qfa, qdes, qord⟩ :=
      dfs_second_full p.1 (p.1.names.getD idx []) h.inv h.nogrey h.wpn
        h.chklen h.topochk (Or.inr ⟨idx, hidxlt, h.ndnames, rfl, hg⟩)
    set r := Implication_Graph.dfs_second (p.1.names.length + 1) p.1
      (some (p.1.names.getD idx [])) with hr
    have hrn : r.1.names = p.1.names := dfs_second_names _ _ _
    refine ⟨⟨q1, q3, q4, by rw [hrn]; exact h.ndnames, q5, q6, ?_, ?_⟩,
      q2, hrn⟩
    · intro c hc
      rcases List.mem_append.mp hc with hc1 | hc1
      · obtain ⟨e, hhd, hblack, hmem⟩ := h.chains c hc1
        refine ⟨e, hhd, q2.blackmono e hblack, ?_⟩
        intro a
        rw [hmem a]
        constructor
        · intro hx
          exact PAnc.mono q2.pkeep hx
        · intro hx
          exact PAnc_back h.inv q2 hx (Or.inr hblack)
      · obtain ⟨e, he, hhd, hmem⟩ := forall2_mem_left qfa c hc1
        exact ⟨e, hhd, (qdes e he).1, hmem⟩
    · show (p.2 ++ r.2).Pairwise _
      rw [List.pairwise_append]
      refine ⟨?_, ?_, ?_⟩
      · refine h.ord.imp ?_
        intro c1 c2 h12
        intro e1 e2 hh1 hh2
        obtain ⟨f1, f2, hf1, hf2, hlt⟩ := h12 e1 e2 hh1 hh2
        exact ⟨f1, f2, q2.fkeep e1 f1 hf1, q2.fkeep e2 f2 hf2, hlt⟩
      · refine pairwise_of_forall2 qfa qord ?_
        intro c e c2 e2 hR hR2 hS
        intro e1 e2' hh1 hh2
        rw [hR.1] at hh1
        rw [hR2.1] at hh2
        cases hh1
        cases hh2
        exact hS
      · intro c1 hc1 c2 hc2
        intro e1 e2 hh1 hh2
        obtain ⟨eo, hhdo, hblacko, _⟩ := h.chains c1 hc1
        rw [hhdo] at hh1
        have he1 : eo = e1 := Option.some.inj hh1
        obtain ⟨en, hen, hRn⟩ := forall2_mem_left qfa c2 hc2
        rw [hRn.1] at hh2
        have he2 : en = e2 := Option.some.inj hh2
        obtain ⟨fo, hfo⟩ := h.inv.black_f eo hblacko
        have hfob := h.inv.f_pos eo fo hfo
        obtain ⟨_, fn, hfn, hfnlt⟩ := qdes en hen
        refine ⟨fo, fn, ?_, ?_, by omega⟩
        · rw [← he1]
          exact q2.fkeep eo fo hfo
        · rw [← he2]
          exact hfn
  · rw [if_neg hg]
    exact ⟨h, DfsEvo.refl p.1, rfl⟩

lemma mem_getD_append_nils {α : Type} (l : List (List α)) (k : Nat) (j : α)
    (h : j ∈ (l ++ [([] : List α), []]).getD k []) : j ∈ l.getD k [] := by
  rw [List.getD_eq_getElem?_getD] at h ⊢
  by_cases hk : k < l.length
  · rw [List.getElem?_append_left hk] at h
    exact h
  · exfalso
    rw [List.getElem?_append_right (by omega)] at h
    rcases hm : k - l.length with _ | m
    · rw [hm] at h
      simp at h
    · rcases m with _ | m2
      · rw [hm] at h
        simp at h
      · rw [hm] at h
        rw [List.getElem?_eq_none (by simp)] at h
        simp at h

lemma mem_getD_modify_append (adj : List (List Nat)) (i1 x k j : Nat)
    (h : j ∈ (adj.modify (fun l => l ++ [x]) i1).getD k []) :
    j ∈ adj.getD k [] ∨ j = x := by
  rw [List.getD_eq_getElem?_getD] at h
  rw [List.getElem?_modify] at h
  rcases hk : adj[k]? with _ | a
  · rw [hk] at h
    simp at h
  · rw [hk] at h
    have h2 : j ∈ (if i1 = k then a ++ [x] else a) := by
      simpa using h
    by_cases hik : i1 = k
    · rw [if_pos hik] at h2
      rcases List.mem_append.mp h2 with h1 | h1
      · refine Or.inl ?_
        rw [List.getD_eq_getElem?_getD, hk]
        exact h1
      · exact Or.inr (by simpa using h1)
    · rw [if_neg hik] at h2
      refine Or.inl ?_
      rw [List.getD_eq_getElem?_getD, hk]
      exact h2

lemma add_literal_structOk (g : Implication_Graph) (raw : Name)
    (h : structOk g) : structOk (g.add_literal raw) := by
  obtain ⟨h1, h2, h3, h4, h5, h6, h7, h8, h9, h10⟩ := h
  unfold Implication_Graph.add_literal
  by_cases hmem : stripDD raw ∈ g.names
  · rw [if_pos hmem]
    exact ⟨h1, h2, h3, h4, h5, h6, h7, h8, h9, h10⟩
  · rw [if_neg hmem]
    refine ⟨?_, ?_, ?_, ?_, ?_, ?_, ?_, ?_, ?_, h10⟩
    · show (g.adj ++ [[], []]).length = (g.names ++ [_, _]).length
      rw [List.length_append, List.length_append]
      simp [h1]
    · show (g.d ++ [none, none]).length = (g.names ++ [_, _]).length
      rw [List.length_append, List.length_append]
      simp [h2]
    · show (g.f ++ [none, none]).length = (g.names ++ [_, _]).length
      rw [List.length_append, List.length_append]
      simp [h3]
    · show (g.color ++ [none, none]).length = (g.names ++ [_, _]).length
      rw [List.length_append, List.length_append]
      simp [h4]
    · show (g.parent ++ [none, none]).length = (g.names ++ [_, _]).length
      rw [List.length_append, List.length_append]
      simp [h5]
    · show (g.checked ++ [false, false]).length = (g.names ++ [_, _]).length
      rw [List.length_append, List.length_append]
      simp [h6]
    · intro i j hj
      have := h7 i j (mem_getD_append_nils _ _ _ hj)
      show j < (g.names ++ [_, _]).length
      rw [List.length_append]
      omega
    · intro x hx
      rcases List.mem_append.mp hx with hx1 | hx1
      · exact h8 x hx1
      · rcases List.mem_cons.mp hx1 with hx2 | hx2
        · exact hx2
        · simpa using hx2
    · intro x hx
      rcases List.mem_append.mp hx with hx1 | hx1
      · exact h9 x hx1
      · rcases List.mem_cons.mp hx1 with hx2 | hx2
        · exact hx2
        · simpa using hx2

lemma add_implication_structOk (g : Implication_Graph) (n1 n2 : Name)
    (h : structOk g) : structOk (g.add_implication n1 n2) := by
  obtain ⟨h1, h2, h3, h4, h5, h6, h7, h8, h9, h10⟩ := h
  unfold Implication_Graph.add_implication
  by_cases hc : 0 ≤ g.get_literal_id n1 ∧ 0 ≤ g.get_literal_id n2 ∧
      g.get_literal_id n1 ≠ g.get_literal_id n2
  · simp only [if_pos hc]
    refine ⟨?_, h2, h3, h4, h5, h6, ?_, h8, h9, h10⟩
    · show (g.adj.modify _ _).length = g.names.length
      rw [List.length_modify]
      exact h1
    · intro i j hj
      rcases mem_getD_modify_append g.adj (g.get_literal_id n1).toNat
        (g.get_literal_id n2).toNat i j hj with hj1 | hj1
      · exact h7 i j hj1
      · rw [hj1]
        obtain ⟨hc1, hc2, hc3⟩ := hc
        have hgl : g.get_literal_id n2 =
            (match Implication_Graph.idxOf n2 g.names with
              | some i => (i : Int)
              | none => -1) := rfl
        rcases hidx : Implication_Graph.idxOf n2 g.names with _ | k
        · rw [hgl, hidx] at hc2
          simp at hc2
        · rw [hgl, hidx]
          have := idxOf_lt_length n2 g.names k hidx
          simp
          omega
  · simp only [if_neg hc]
    exact ⟨h1, h2, h3, h4, h5, h6, h7, h8, h9, h10⟩

lemma buildStep_structOk (s : BuildSt) (t : Name) (s2 : BuildSt)
    (hG : structOk s.Ginv) (h : buildStep s t = .ok s2) :
    structOk s2.Ginv := by
  unfold buildStep at h
  by_cases ht : t = ['0']
  · rw [if_pos ht] at h
    match hc : s.cur, h with
    | [], h =>
      cases h
      exact hG
    | [a], h => simp at h
    | [a, b], h =>
      cases h
      exact add_implication_structOk _ _ _
        (add_implication_structOk _ _ _ hG)
    | a :: b :: c :: rest, h => simp at h
  · rw [if_neg ht] at h
    cases h
    exact add_literal_structOk _ _ hG

lemma buildGraphs_structOk (toks : List Name) (st : BuildSt)
    (h : buildGraphs toks = .ok st) : structOk st.Ginv := by
  rw [buildGraphs_eq_processFrom] at h
  refine processFrom_inv (fun s => structOk s.Ginv) ?_ toks _ st ?_ h
  · intro s t s2 hs hstep
    exact buildStep_structOk s t s2 hs hstep
  · refine ⟨rfl, rfl, rfl, rfl, rfl, rfl, ?_, ?_, ?_, rfl⟩
    · intro i j hj
      rw [show (Implication_Graph.empty.adj.getD i []) = [] from by
        cases i <;> rfl] at hj
      exact absurd hj (by simp)
    · intro x hx
      exact absurd hx (by simp [Implication_Graph.empty])
    · intro x hx
      exact absurd hx (by simp [Implication_Graph.empty])

lemma getD_map_const2 {α β : Type} (l : List α) (i : Nat) (x d : β)
    (h : i < l.length) : (l.map (fun _ => x)).getD i d = x := by
  rw [List.getD_eq_getElem?_getD, List.getElem?_map,
    List.getElem?_eq_getElem h]
  rfl

lemma getD_of_all {α : Type} (l : List α) (d : α)
    (h : ∀ x ∈ l, x = d) (i : Nat) : l.getD i d = d := by
  rw [List.getD_eq_getElem?_getD]
  rcases hg : l[i]? with _ | b
  · rfl
  · have := h b (List.getElem?_mem hg)
    simp [this]

/-- `dfs_init` of a structurally sound, untraversed graph satisfies the
loop invariant with an empty component list. -/
lemma dfs_init_loopinv (g0 : Implication_Graph) (hs : structOk g0)
    (hnod : g0.names.Nodup) :
    LoopInv (g0.dfs_init, ([] : List (List Nat))) := by
  obtain ⟨s1, s2, s3, s4, s5, s6, s7, s8, s9, s10⟩ := hs
  set gI : Implication_Graph := g0.dfs_init with hgI
  have hcoleq : gI.color = g0.names.map (fun _ => some Col.white) := rfl
  have hpareq : gI.parent = g0.names.map (fun _ => none) := rfl
  have hdeq : gI.d = g0.d := rfl
  have hfeq : gI.f = g0.f := rfl
  have hnameseq : gI.names = g0.names := rfl
  have htopoeq : gI.dfs_topo_sorted = g0.dfs_topo_sorted := rfl
  have hcol : ∀ i c, gI.color.getD i none = some c → c = Col.white := by
    intro i c h
    rw [hcoleq] at h
    by_cases hi : i < g0.names.length
    · rw [getD_map_const2 _ _ _ _ hi] at h
      exact (Option.some.inj h).symm
    · rw [List.getD_eq_getElem?_getD,
        List.getElem?_eq_none (by simp; omega)] at h
      cases h
  have hdnone : ∀ i, gI.d.getD i none = none := by
    intro i
    rw [hdeq]
    exact getD_of_all _ _ s8 i
  have hfnone : ∀ i, gI.f.getD i none = none := by
    intro i
    rw [hfeq]
    exact getD_of_all _ _ s9 i
  have hpnone : ∀ i, gI.parent.getD i none = none := by
    intro i
    rw [hpareq]
    by_cases hi : i < g0.names.length
    · exact getD_map_const2 _ _ _ _ hi
    · rw [List.getD_eq_getElem?_getD,
        List.getElem?_eq_none (by simp; omega)]
      rfl
  have hnoblack : ∀ i, gI.color.getD i none ≠ some Col.black := by
    intro i hcon
    have := hcol i _ hcon
    cases this
  refine ⟨⟨?_, ?_, ?_, ?_, ?_, ?_, ?_, ?_, ?_, ?_, ?_, ?_, ?_, ?_, ?_, ?_,
    ?_, ?_, ?_, ?_, ?_, ?_, ?_, ?_, ?_, ?_⟩, ?_, ?_, ?_, ?_, ?_, ?_, ?_⟩
  · rw [hcoleq, hnameseq]
    simp
  · rw [hdeq, hnameseq]
    exact s2
  · rw [hfeq, hnameseq]
    exact s3
  · rw [hpareq, hnameseq]
    simp
  · intro i j hj
    exact s7 i j hj
  · show (0 : Int) ≤ 0
    omega
  · intro i hi
    rw [hcoleq]
    rw [getD_map_const2 _ _ _ _ (by rw [hnameseq] at hi; exact hi)]
    simp
  · intro i _
    exact hdnone i
  · intro i _
    exact hfnone i
  · intro i hi
    have := hcol i _ hi
    cases this
  · intro i hi
    have := hcol i _ hi
    cases this
  · intro i hi
    have := hcol i _ hi
    cases this
  · intro i hi
    have := hcol i _ hi
    cases this
  · intro i t ht
    rw [hdnone i] at ht
    cases ht
  · intro i t ht
    rw [hfnone i] at ht
    cases ht
  · intro i td tf hd
    rw [hdnone i] at hd
    cases hd
  · intro i j t hi
    rw [hdnone i] at hi
    cases hi
  · intro i j t hi
    rw [hfnone i] at hi
    cases hi
  · intro i j t hi
    rw [hdnone i] at hi
    cases hi
  · intro b p hb
    rw [hpnone b] at hb
    cases hb
  · intro b p hb
    rw [hpnone b] at hb
    cases hb
  · intro i j di dj _ hdi
    rw [hdnone i] at hdi
    cases hdi
  · intro i j di dj _ _ hdi
    rw [hdnone i] at hdi
    cases hdi
  · intro i hci
    exact absurd hci (hnoblack i)
  · intro i
    rw [htopoeq, s10]
    constructor
    · intro h
      exact absurd h (by simp)
    · intro h
      exact absurd h (hnoblack i)
  · rw [htopoeq, s10]
    exact List.Pairwise.nil
  · intro i hcon
    have := hcol i _ hcon
    cases this
  · intro i _
    exact hpnone i
  · show g0.names.Nodup
    exact hnod
  · show g0.checked.length = g0.names.length
    exact s6
  · intro e he
    rw [htopoeq, s10] at he
    exact absurd he (by simp)
  · intro c hc
    exact absurd hc (by simp)
  · exact List.Pairwise.nil

/-- The `sccs` loop of the pipeline maintains the loop invariant; at the
end every literal of the transpose graph is black and the component list
covers and orders them as the invariant states. -/
lemma pipeline_final (G0 Ginv0 : Implication_Graph)
    (hnames : G0.names = Ginv0.names) (hnod : Ginv0.names.Nodup)
    (hchk : ∀ b ∈ Ginv0.checked, b = false) (hso : structOk Ginv0) :
    LoopInv ((pipeline G0 Ginv0).2.1, (pipeline G0 Ginv0).2.2.2) ∧
    (pipeline G0 Ginv0).2.1.names = Ginv0.names ∧
    (∀ i < Ginv0.names.length,
      (pipeline G0 Ginv0).2.1.color.getD i none = some Col.black) := by
  have hcover := pipeline_covers G0 Ginv0 hnames hnod
    (fun i => all_false_getD Ginv0.checked hchk i)
  have hloop : LoopInv ((pipeline G0 Ginv0).2.1, (pipeline G0 Ginv0).2.2.2) ∧
      (pipeline G0 Ginv0).2.1.names = Ginv0.names := by
    unfold pipeline
    dsimp only
    have hbase : LoopInv (Ginv0.dfs_init, ([] : List (List Nat))) ∧
        (Ginv0.dfs_init).names = Ginv0.names :=
      ⟨dfs_init_loopinv Ginv0 hso hnod, rfl⟩
    have hfold := foldl_inv (scc_step (Implication_Graph.dfs_first
        (G0.dfs_init.names.length + 1) G0.dfs_init none).1)
      (fun p => LoopInv p ∧ p.1.names = Ginv0.names) ?_
      (Implication_Graph.dfs_first (G0.dfs_init.names.length + 1)
        G0.dfs_init none).2 (Ginv0.dfs_init, []) hbase
    · exact ⟨hfold.1, hfold.2⟩
    · intro p u hp
      obtain ⟨h1, h2, h3⟩ := scc_step_loopinv (Implication_Graph.dfs_first
        (G0.dfs_init.names.length + 1) G0.dfs_init none).1 p u hp.1
      exact ⟨h1, h3.trans hp.2⟩
  refine ⟨hloop.1, hloop.2, ?_⟩
  intro i hi
  obtain ⟨c, hc, hic⟩ := hcover i hi
  obtain ⟨e, _, hblack, hmem⟩ := hloop.1.chains c hc
  have hanc := (hmem i).mp hic
  by_cases hie : i = e
  · rw [hie]
    exact hblack
  · obtain ⟨de, hde⟩ := hloop.1.inv.black_d e hblack
    obtain ⟨di, _, hdi, _⟩ := PAnc_facts hloop.1.inv hanc hie
      (by rw [hde]; simp)
    rcases d_col hloop.1.inv hdi with hg | hb
    · exact absurd hg (hloop.1.nogrey i)
    · exact hb

lemma startsDash_cons_false (c : Char) (rest : Name) (h : ¬ c = '-') :
    startsDash (c :: rest) = false := by
  unfold startsDash
  split
  · rename_i heq
    exact absurd (List.cons_eq_cons.mp heq).1 h
  · rfl

lemma noDD_startsDash_tail (t : Name) (h : noDD ('-' :: t) = true) :
    noDD t = true ∧ startsDash t = false := by
  refine ⟨noDD_tail '-' t h, ?_⟩
  match t, h with
  | [], _ => rfl
  | r :: rs, h =>
    by_cases hr : r = '-'
    · subst hr
      rw [noDD.eq_1] at h
      exact absurd h (by simp)
    · exact startsDash_cons_false r rs hr

lemma get_negation_nondash (np : Name) (hd : startsDash np = false)
    (hn : noDD np = true) : get_negation np = '-' :: np := by
  unfold get_negation
  match np, hd, hn with
  | [], _, _ => rfl
  | c :: rest, hd, hn =>
    have hc : ¬ c = '-' := by
      intro hcc
      subst hcc
      simp [startsDash] at hd
    rw [stripDD.eq_2 '-' (c :: rest) (fun r2 _ hcons =>
      hc (List.cons_eq_cons.mp hcons).1)]
    rw [stripDD_of_noDD (c :: rest) hn]

lemma startsDash_eq_cons (nm : Name) (h : startsDash nm = true) :
    ∃ t, nm = '-' :: t := by
  cases nm with
  | nil => simp [startsDash] at h
  | cons c t =>
    by_cases hc : c = '-'
    · subst hc
      exact ⟨t, rfl⟩
    · rw [startsDash_cons_false c t hc] at h
      cases h

lemma get_negation_dash (t : Name) (h : noDD ('-' :: t) = true) :
    get_negation ('-' :: t) = t := by
  unfold get_negation
  show stripDD ('-' :: '-' :: t) = t
  rw [show stripDD ('-' :: '-' :: t) = stripDD t from rfl]
  exact stripDD_of_noDD t (noDD_startsDash_tail t h).1

/-- Over a `"--"`-free name, `varOf` is unchanged by negation. -/
lemma varOf_get_negation (nm : Name) (h : noDD nm = true) :
    varOf (get_negation nm) = varOf nm := by
  unfold varOf
  by_cases hd : startsDash nm = true
  · obtain ⟨t, rfl⟩ := startsDash_eq_cons nm hd
    rw [get_negation_dash t h]
    rw [if_pos (show startsDash ('-' :: t) = true from rfl)]
    rw [(noDD_startsDash_tail t h).2]
    simp
  · rw [Bool.not_eq_true] at hd
    rw [get_negation_nondash nm hd h]
    rw [if_pos (show startsDash ('-' :: nm) = true from rfl)]
    rw [if_neg (show ¬ startsDash nm = true from by rw [hd]; simp)]
    rw [← get_negation_nondash nm hd h]
    exact get_negation_involution nm h

/-- Two `"--"`-free names with the same variable are equal or negations
of one another. -/
lemma varOf_eq_cases (x y : Name) (hx : noDD x = true) (hy : noDD y = true)
    (h : varOf x = varOf y) : y = x ∨ y = get_negation x := by
  unfold varOf at h
  by_cases hdx : startsDash x = true <;> by_cases hdy : startsDash y = true
  · rw [if_pos hdx, if_pos hdy] at h
    refine Or.inl ?_
    have h2 := congrArg get_negation h
    rw [get_negation_involution x hx, get_negation_involution y hy] at h2
    exact h2.symm
  · rw [if_pos hdx, if_neg hdy] at h
    exact Or.inr h.symm
  · rw [if_neg hdx, if_pos hdy] at h
    have h2 := congrArg get_negation h
    rw [get_negation_involution y hy] at h2
    exact Or.inr h2.symm
  · rw [if_neg hdx, if_neg hdy] at h
    exact Or.inl h.symm

/-- Exactly one name of a complementary pair is dash-led. -/
lemma startsDash_negation (nm : Name) (h : noDD nm = true) :
    startsDash (get_negation nm) = !(startsDash nm) := by
  by_cases hd : startsDash nm = true
  · obtain ⟨t, rfl⟩ := startsDash_eq_cons nm hd
    rw [get_negation_dash t h, (noDD_startsDash_tail t h).2]
    rw [show startsDash ('-' :: t) = true from rfl]
    rfl
  · rw [Bool.not_eq_true] at hd
    rw [get_negation_nondash nm hd h, hd]
    rfl

/-- Splitting a list at the first element satisfying `P`. -/
lemma exists_first_split {α : Type} (P : α → Prop) :
    ∀ (l : List α), (∃ x ∈ l, P x) →
      ∃ l1 x l2, l = l1 ++ x :: l2 ∧ (∀ y ∈ l1, ¬ P y) ∧ P x := by
  intro l
  induction l with
  | nil => intro h; obtain ⟨x, hx, _⟩ := h; exact absurd hx (by simp)
  | cons a l2 ih =>
    intro h
    by_cases hPa : P a
    · exact ⟨[], a, l2, by simp, fun y hy => absurd hy (by simp), hPa⟩
    · obtain ⟨x, hx, hPx⟩ := h
      rcases List.mem_cons.mp hx with hx1 | hx1
      · rw [hx1] at hPx
        exact absurd hPx hPa
      · obtain ⟨l1, x2, l3, heq, hnone, hPx2⟩ := ih ⟨x, hx1, hPx⟩
        refine ⟨a :: l1, x2, l3, by rw [heq]; rfl, ?_, hPx2⟩
        intro y hy
        rcases List.mem_cons.mp hy with hy1 | hy1
        · rw [hy1]
          exact hPa
        · exact hnone y hy1

/-- A literal of a different variable never touches the binding of `v`. -/
lemma override_step_other (gi : Implication_Graph)
    (bb : List (Name × Option Bool)) (u : Nat) (v : Name)
    (hne : varOf (gi.names.getD u []) ≠ v) :
    dictGet (override_step gi bb u) v = dictGet bb v := by
  unfold override_step
  dsimp only
  split
  · refine dictGet_dictSet_ne _ _ _ _ ?_
    exact hne
  · rfl

/-- A whole component with no literal of variable `v` leaves it alone. -/
lemma overrideChain_other (gi : Implication_Graph) (scc : List Nat)
    (bb : List (Name × Option Bool)) (v : Name)
    (h : ∀ u ∈ scc, varOf (gi.names.getD u []) ≠ v) :
    dictGet (overrideChain gi bb scc) v = dictGet bb v := by
  unfold overrideChain
  induction scc generalizing bb with
  | nil => rfl
  | cons u rest ih =>
    rw [List.foldl_cons]
    rw [ih (override_step gi bb u) (fun u2 hu2 =>
      h u2 (List.mem_cons_of_mem _ hu2))]
    exact override_step_other gi bb u v (h u (List.mem_cons_self _ _))

/-- Processing a component that contains a literal of the unassigned
variable `v`, all of whose `v`-literals carry the same polarity, assigns
exactly that polarity. -/
lemma overrideChain_value (gi : Implication_Graph) (scc : List Nat)
    (bb : List (Name × Option Bool)) (v : Name) (val : Bool)
    (hnone : dictGet bb v = some none)
    (hhit : ∃ u ∈ scc, varOf (gi.names.getD u []) = v)
    (hval : ∀ u ∈ scc, varOf (gi.names.getD u []) = v →
      (!(startsDash (gi.names.getD u []))) = val) :
    dictGet (overrideChain gi bb scc) v = some (some val) := by
  unfold overrideChain
  induction scc generalizing bb with
  | nil =>
    obtain ⟨u, hu, _⟩ := hhit
    exact absurd hu (by simp)
  | cons u rest ih =>
    rw [List.foldl_cons]
    by_cases hu : varOf (gi.names.getD u []) = v
    · have hstep : dictGet (override_step gi bb u) v = some (some val) := by
        unfold override_step
        dsimp only
        rw [show (if startsDash (gi.names.getD u []) then
          get_negation (gi.names.getD u []) else gi.names.getD u []) = v
          from hu, hnone]
        rw [hval u (List.mem_cons_self _ _) hu]
        exact dictGet_dictSet_self _ _ _
      have : ∀ b2, dictGet b2 v = some (some val) →
          dictGet (rest.foldl (override_step gi) b2) v = some (some val) := by
        intro b2 h2
        exact overrideChain_mono gi rest b2 v val h2
      exact this _ hstep
    · rw [show rest.foldl (override_step gi) (override_step gi bb u) =
        rest.foldl (override_step gi) (override_step gi bb u) from rfl]
      refine ih (override_step gi bb u) ?_ ?_ ?_
      · rw [override_step_other gi bb u v hu]
        exact hnone
      · obtain ⟨u2, hu2, hvu2⟩ := hhit
        rcases List.mem_cons.mp hu2 with h1 | h1
        · rw [h1] at hvu2
          exact absurd hvu2 hu
        · exact ⟨u2, h1, hvu2⟩
      · intro u2 hu2 hvu2
        exact hval u2 (List.mem_cons_of_mem _ hu2) hvu2

/-- The override fold assigns each variable the polarity of the first
literal of that variable in processing order: chains before the first
hitting chain leave it `None`, the first hitting chain decides it, later
chains cannot override. -/
lemma overrideFold_first_value (gi : Implication_Graph)
    (sl1 : List (List Nat)) (c : List Nat) (sl2 : List (List Nat))
    (b0 : List (Name × Option Bool)) (v : Name) (val : Bool)
    (hnone : dictGet b0 v = some none)
    (hmiss : ∀ c2 ∈ sl1, ∀ u ∈ c2, varOf (gi.names.getD u []) ≠ v)
    (hhit : ∃ u ∈ c, varOf (gi.names.getD u []) = v)
    (hval : ∀ u ∈ c, varOf (gi.names.getD u []) = v →
      (!(startsDash (gi.names.getD u []))) = val) :
    dictGet ((sl1 ++ c :: sl2).foldl
      (fun bb scc => overrideChain gi bb scc) b0) v = some (some val) := by
  rw [List.foldl_append, List.foldl_cons]
  have hskip : ∀ (sl : List (List Nat)) (b1 : List (Name × Option Bool)),
      dictGet b1 v = some none →
      (∀ c2 ∈ sl, ∀ u ∈ c2, varOf (gi.names.getD u []) ≠ v) →
      dictGet (sl.foldl (fun bb scc => overrideChain gi bb scc) b1) v =
        some none := by
    intro sl
    induction sl with
    | nil => intro b1 h1 _; exact h1
    | cons c2 rest ih =>
      intro b1 h1 hm
      rw [List.foldl_cons]
      refine ih _ ?_ (fun c3 hc3 => hm c3 (List.mem_cons_of_mem _ hc3))
      rw [overrideChain_other gi c2 b1 v (hm c2 (List.mem_cons_self _ _))]
      exact h1
  have hdecide := overrideChain_value gi c _ v val
    (hskip sl1 b0 hnone hmiss) hhit hval
  exact overrideFold_mono gi sl2 _ v val hdecide

lemma noDD_dashcons (np : Name) (hd : startsDash np = false) :
    noDD ('-' :: np) = noDD np := by
  match np, hd with
  | [], _ => rfl
  | c :: rest, hd =>
    have hc : ¬ c = '-' := by
      intro hcc
      subst hcc
      simp [startsDash] at hd
    rw [noDD.eq_2 '-' (c :: rest) (fun r2 _ hcons =>
      hc (List.cons_eq_cons.mp hcons).1)]

lemma ne_dashcons (np : Name) : np ≠ '-' :: np := by
  intro h
  have := congrArg List.length h
  simp at this

/-- The conflict scan fires whenever the component contains (or has
already banked) both a variable's plain literal and its dash form. -/
lemma sccClashAux_detects (gi : Implication_Graph) (np : Name)
    (hnp : noDD np = true) (hd : startsDash np = false) :
    ∀ (l : List Nat) (pos neg : List Name),
      ((np ∈ pos ∧ ∃ u ∈ l, gi.names.getD u [] = '-' :: np) ∨
       (('-' :: np) ∈ neg ∧ ∃ u ∈ l, gi.names.getD u [] = np) ∨
       ((∃ u ∈ l, gi.names.getD u [] = np) ∧
        (∃ u ∈ l, gi.names.getD u [] = '-' :: np))) →
      sccClashAux gi l pos neg = true := by
  have hnegnp : get_negation np = '-' :: np := get_negation_nondash np hd hnp
  have hnegdash : get_negation ('-' :: np) = np := by
    refine get_negation_dash np ?_
    rw [noDD_dashcons np hd]
    exact hnp
  intro l
  induction l with
  | nil =>
    intro pos neg hD
    exfalso
    rcases hD with ⟨_, u, hu, _⟩ | ⟨_, u, hu, _⟩ | ⟨⟨u, hu, _⟩, _⟩ <;>
      exact absurd hu (by simp)
  | cons u0 rest ih =>
    intro pos neg hD
    rw [show sccClashAux gi (u0 :: rest) pos neg =
      (let nm := gi.names.getD u0 []
       if startsDash nm then
         if get_negation nm ∈ pos then true
         else sccClashAux gi rest pos (neg ++ [nm])
       else
         if get_negation nm ∈ neg then true
         else sccClashAux gi rest (pos ++ [nm]) neg) from rfl]
    set nm0 := gi.names.getD u0 [] with hnm0
    dsimp only
    by_cases hp : nm0 = np
    · rw [hp, hd, if_neg Bool.false_ne_true]
      by_cases hin : get_negation np ∈ neg
      · rw [if_pos hin]
      · rw [if_neg hin]
        refine ih (pos ++ [np]) neg ?_
        rcases hD with ⟨hpos, u, hu, hname⟩ | ⟨hneg, _⟩ | ⟨_, u, hu, hname⟩
        · refine Or.inl ⟨List.mem_append_left _ hpos, u, ?_, hname⟩
          rcases List.mem_cons.mp hu with h1 | h1
          · exfalso
            rw [h1, ← hnm0, hp] at hname
            exact ne_dashcons np hname
          · exact h1
        · exfalso
          rw [hnegnp] at hin
          exact hin hneg
        · refine Or.inl ⟨List.mem_append_right _ (by simp), u, ?_, hname⟩
          rcases List.mem_cons.mp hu with h1 | h1
          · exfalso
            rw [h1, ← hnm0, hp] at hname
            exact ne_dashcons np hname
          · exact h1
    · by_cases hq : nm0 = '-' :: np
      · rw [hq]
        rw [show startsDash ('-' :: np) = true from rfl, if_pos rfl]
        rw [hnegdash]
        by_cases hin : np ∈ pos
        · rw [if_pos hin]
        · rw [if_neg hin]
          refine ih pos (neg ++ ['-' :: np]) ?_
          rcases hD with ⟨hpos, _⟩ | ⟨hneg, u, hu, hname⟩ |
            ⟨⟨u, hu, hname⟩, _⟩
          · exact absurd hpos hin
          · refine Or.inr (Or.inl ⟨List.mem_append_left _ hneg, u, ?_, hname⟩)
            rcases List.mem_cons.mp hu with h1 | h1
            · exfalso
              rw [h1, ← hnm0, hq] at hname
              exact ne_dashcons np hname.symm
            · exact h1
          · refine Or.inr (Or.inl ⟨List.mem_append_right _ (by simp),
              u, ?_, hname⟩)
            rcases List.mem_cons.mp hu with h1 | h1
            · exfalso
              rw [h1, ← hnm0, hq] at hname
              exact ne_dashcons np hname.symm
            · exact h1
      · have hwit : ∀ (x : Name), x = np ∨ x = '-' :: np →
            ∀ u ∈ (u0 :: rest), gi.names.getD u [] = x → u ∈ rest := by
          intro x hx u hu hname
          rcases List.mem_cons.mp hu with h1 | h1
          · exfalso
            rw [h1, ← hnm0] at hname
            rcases hx with hx | hx
            · rw [hx] at hname
              exact hp hname
            · rw [hx] at hname
              exact hq hname
          · exact h1
        have hDrest : ∀ (pos2 neg2 : List Name), pos ⊆ pos2 → neg ⊆ neg2 →
            (np ∈ pos2 ∧ ∃ u ∈ rest, gi.names.getD u [] = '-' :: np) ∨
            (('-' :: np) ∈ neg2 ∧ ∃ u ∈ rest, gi.names.getD u [] = np) ∨
            ((∃ u ∈ rest, gi.names.getD u [] = np) ∧
             (∃ u ∈ rest, gi.names.getD u [] = '-' :: np)) := by
          intro pos2 neg2 hsp hsn
          rcases hD with ⟨hpos, u, hu, hname⟩ | ⟨hneg, u, hu, hname⟩ |
            ⟨⟨u, hu, hname⟩, ⟨w, hw, hwname⟩⟩
          · exact Or.inl ⟨hsp hpos, u,
              hwit _ (Or.inr rfl) u hu hname, hname⟩
          · exact Or.inr (Or.inl ⟨hsn hneg, u,
              hwit _ (Or.inl rfl) u hu hname, hname⟩)
          · exact Or.inr (Or.inr ⟨⟨u, hwit _ (Or.inl rfl) u hu hname, hname⟩,
              ⟨w, hwit _ (Or.inr rfl) w hw hwname, hwname⟩⟩)
        by_cases hdn : startsDash nm0 = true
        · rw [hdn, if_pos rfl]
          by_cases hin : get_negation nm0 ∈ pos
          · rw [if_pos hin]
          · rw [if_neg hin]
            exact ih pos (neg ++ [nm0]) (hDrest pos (neg ++ [nm0])
              (fun x h => h) (List.subset_append_left neg [nm0]))
        · rw [Bool.not_eq_true] at hdn
          rw [hdn, if_neg Bool.false_ne_true]
          by_cases hin : get_negation nm0 ∈ neg
          · rw [if_pos hin]
          · rw [if_neg hin]
            exact ih (pos ++ [nm0]) neg (hDrest (pos ++ [nm0]) neg
              (List.subset_append_left pos [nm0]) (fun x h => h))

/-- A component whose conflict scan stays silent contains no
complementary literal pair. -/
lemma sccClash_no_pair (gi : Implication_Graph) (c : List Nat)
    (hclash : sccClash gi c = false) (u1 u2 : Nat)
    (hu1 : u1 ∈ c) (hu2 : u2 ∈ c)
    (hn : gi.names.getD u2 [] = get_negation (gi.names.getD u1 []))
    (hnd : noDD (gi.names.getD u1 []) = true) : False := by
  have haux : sccClashAux gi c [] [] = true → False := by
    intro h
    rw [show sccClash gi c = sccClashAux gi c [] [] from rfl, h] at hclash
    cases hclash
  by_cases hd1 : startsDash (gi.names.getD u1 []) = true
  · obtain ⟨t, ht⟩ := startsDash_eq_cons _ hd1
    have hnd_t : noDD t = true ∧ startsDash t = false := by
      rw [ht] at hnd
      exact noDD_startsDash_tail t hnd
    refine haux (sccClashAux_detects gi t hnd_t.1 hnd_t.2 c [] [] ?_)
    refine Or.inr (Or.inr ⟨⟨u2, hu2, ?_⟩, ⟨u1, hu1, ht⟩⟩)
    rw [hn, ht]
    refine get_negation_dash t ?_
    rw [← ht]
    exact hnd
  · rw [Bool.not_eq_true] at hd1
    refine haux (sccClashAux_detects gi (gi.names.getD u1 []) hnd hd1
      c [] [] ?_)
    refine Or.inr (Or.inr ⟨⟨u1, hu1, rfl⟩, ⟨u2, hu2, ?_⟩⟩)
    rw [hn]
    exact get_negation_nondash _ hd1 hnd

/-- `dfs_second` never changes the adjacency lists. -/
lemma dfs_second_adj (fuel : Nat) (g : Implication_Graph) (start : Option Name) :
    (Implication_Graph.dfs_second fuel g start).1.adj = g.adj := by
  unfold Implication_Graph.dfs_second
  match start with
  | none =>
    exact ((recovery_frame _).2.1).trans (dfs_sweep_frame fuel g).2.1
  | some s =>
    by_cases hs : s = []
    · simp only [hs, if_pos rfl]
      exact ((recovery_frame _).2.1).trans (dfs_sweep_frame fuel g).2.1
    · simp only [if_neg hs]
      exact ((recovery_frame _).2.1).trans
        (((dfs_sweep_frame fuel _).2.1).trans (dfs_visit_frame fuel g _).2.1)

/-- The transpose-graph side of the pipeline keeps its adjacency lists. -/
lemma pipeline_adj (G0 Ginv0 : Implication_Graph) :
    (pipeline G0 Ginv0).2.1.adj = Ginv0.adj := by
  unfold pipeline
  refine foldl_preserve _
    (fun (p q : Implication_Graph × List (List Nat)) => p.1.adj = q.1.adj)
    (fun p => rfl) (fun a b c h1 h2 => h2.trans h1) ?_ _ _
  intro p u
  unfold scc_step
  by_cases h : p.1.color.getD (p.1.pyIndex (p.1.get_literal_id
      ((Implication_Graph.dfs_first (G0.dfs_init.names.length + 1)
        G0.dfs_init none).1.names.getD u []))) none = some Col.white
  · rw [if_pos h]
    exact dfs_second_adj _ _ _
  · rw [if_neg h]

lemma idxOf_append (nm : Name) :
    ∀ (l l2 : List Name) (i : Nat), Implication_Graph.idxOf nm l = some i →
      Implication_Graph.idxOf nm (l ++ l2) = some i := by
  intro l
  induction l with
  | nil => intro l2 i h; cases h
  | cons x xs ih =>
    intro l2 i h
    by_cases hx : x = nm
    · simp only [List.cons_append, Implication_Graph.idxOf, if_pos hx] at h ⊢
      exact h
    · simp only [List.cons_append, Implication_Graph.idxOf, if_neg hx] at h ⊢
      rcases hr : Implication_Graph.idxOf nm xs with _ | k
    
      · rw [hr] at h
        cases h
      · rw [hr] at h
        show Option.map (fun x => x + 1)
          (Implication_Graph.idxOf nm (xs ++ l2)) = some i
        rw [ih l2 k hr]
        exact h

lemma hasEdge_add_literal (g : Implication_Graph) (raw n1 n2 : Name)
    (h : hasEdge g n1 n2) : hasEdge (g.add_literal raw) n1 n2 := by
  obtain ⟨i1, i2, hx1, hx2, hmem⟩ := h
  unfold Implication_Graph.add_literal
  by_cases hin : stripDD raw ∈ g.names
  · rw [if_pos hin]
    exact ⟨i1, i2, hx1, hx2, hmem⟩
  · rw [if_neg hin]
    refine ⟨i1, i2, idxOf_append n1 _ _ i1 hx1, idxOf_append n2 _ _ i2 hx2, ?_⟩
    show i2 ∈ (g.adj ++ [[], []]).getD i1 []
    by_cases hlt : i1 < g.adj.length
    · rw [List.getD_eq_getElem?_getD, List.getElem?_append_left hlt,
        ← List.getD_eq_getElem?_getD]
      exact hmem
    · exfalso
      rw [List.getD_eq_getElem?_getD, List.getElem?_eq_none
        (Nat.le_of_not_lt hlt)] at hmem
      exact absurd hmem (by simp)

lemma hasEdge_add_implication (g : Implication_Graph) (m1 m2 n1 n2 : Name)
    (h : hasEdge g n1 n2) : hasEdge (g.add_implication m1 m2) n1 n2 := by
  obtain ⟨i1, i2, hx1, hx2, hmem⟩ := h
  unfold Implication_Graph.add_implication
  by_cases hc : 0 ≤ g.get_literal_id m1 ∧ 0 ≤ g.get_literal_id m2 ∧
      g.get_literal_id m1 ≠ g.get_literal_id m2
  · simp only [if_pos hc]
    refine ⟨i1, i2, hx1, hx2, ?_⟩
    show i2 ∈ (g.adj.modify _ _).getD i1 []
    rw [List.getD_eq_getElem?_getD, List.getElem?_modify]
    rcases hk : g.adj[i1]? with _ | a
    · exfalso
      rw [List.getD_eq_getElem?_getD, hk] at hmem
      exact absurd hmem (by simp)
    · rw [List.getD_eq_getElem?_getD, hk] at hmem
      by_cases hik : (g.get_literal_id m1).toNat = i1
      · simp only [hik, Option.map_some, Option.getD_some, if_pos rfl]
        exact List.mem_append_left _ hmem
      · simp only [Option.map_some, Option.getD_some, if_neg hik]
        exact hmem
  · simp only [if_neg hc]
    exact ⟨i1, i2, hx1, hx2, hmem⟩

lemma hasEdge_add_implication_self (g : Implication_Graph) (n1 n2 : Name)
    (h1 : n1 ∈ g.names) (h2 : n2 ∈ g.names) (hne : n1 ≠ n2)
    (hlen : g.adj.length = g.names.length) :
    hasEdge (g.add_implication n1 n2) n1 n2 := by
  obtain ⟨i1, hi1, hlt1, hg1⟩ := idxOf_mem n1 g.names h1
  obtain ⟨i2, hi2, hlt2, hg2⟩ := idxOf_mem n2 g.names h2
  have hid1 : g.get_literal_id n1 = (i1 : Int) := by
    unfold Implication_Graph.get_literal_id
    rw [hi1]
  have hid2 : g.get_literal_id n2 = (i2 : Int) := by
    unfold Implication_Graph.get_literal_id
    rw [hi2]
  have hii : i1 ≠ i2 := by
    intro hh
    rw [hh, hg2] at hg1
    exact hne hg1.symm
  have hcond : 0 ≤ g.get_literal_id n1 ∧ 0 ≤ g.get_literal_id n2 ∧
      g.get_literal_id n1 ≠ g.get_literal_id n2 := by
    rw [hid1, hid2]
    refine ⟨Int.natCast_nonneg i1, Int.natCast_nonneg i2, ?_⟩
    intro hh
    exact hii (Int.natCast_inj.mp hh)
  unfold Implication_Graph.add_implication
  simp only [if_pos hcond]
  refine ⟨i1, i2, hi1, hi2, ?_⟩
  show i2 ∈ (g.adj.modify (fun l => l ++ [(g.get_literal_id n2).toNat])
    (g.get_literal_id n1).toNat).getD i1 []
  have ht1 : (g.get_literal_id n1).toNat = i1 := by
    rw [hid1]
    exact Int.toNat_natCast i1
  have ht2 : (g.get_literal_id n2).toNat = i2 := by
    rw [hid2]
    exact Int.toNat_natCast i2
  rw [ht1, ht2, List.getD_eq_getElem?_getD, List.getElem?_modify,
    List.getElem?_eq_getElem (hlen ▸ hlt1)]
  simp

lemma clauseEdges_add_literal (g : Implication_Graph) (raw : Name)
    (cl : List Name) (h : clauseEdges g cl) :
    clauseEdges (g.add_literal raw) cl := by
  rcases h with h | ⟨a, b, hcl, hna, hnb, hma, hmb, hedges⟩
  · exact Or.inl h
  · refine Or.inr ⟨a, b, hcl, hna, hnb, ?_, ?_, ?_⟩
    · unfold Implication_Graph.add_literal
      by_cases hin : stripDD raw ∈ g.names
      · rw [if_pos hin]; exact hma
      · rw [if_neg hin]
        exact List.mem_append_left _ hma
    · unfold Implication_Graph.add_literal
      by_cases hin : stripDD raw ∈ g.names
      · rw [if_pos hin]; exact hmb
      · rw [if_neg hin]
        exact List.mem_append_left _ hmb
    · intro hne
      exact ⟨hasEdge_add_literal g raw _ _ (hedges hne).1,
        hasEdge_add_literal g raw _ _ (hedges hne).2⟩

lemma clauseEdges_add_implication (g : Implication_Graph) (m1 m2 : Name)
    (cl : List Name) (h : clauseEdges g cl) :
    clauseEdges (g.add_implication m1 m2) cl := by
  rcases h with h | ⟨a, b, hcl, hna, hnb, hma, hmb, hedges⟩
  · exact Or.inl h
  · refine Or.inr ⟨a, b, hcl, hna, hnb, ?_, ?_, ?_⟩
    · rw [add_implication_names]; exact hma
    · rw [add_implication_names]; exact hmb
    · intro hne
      exact ⟨hasEdge_add_implication g m1 m2 _ _ (hedges hne).1,
        hasEdge_add_implication g m1 m2 _ _ (hedges hne).2⟩

lemma clausesOf_eq_foldl (toks : List Name) :
    clausesOf toks = (toks.foldl clStep ([], [])).1 := rfl

lemma buildStep_sentinel_nil (s : BuildSt) (h : s.cur = []) :
    buildStep s ['0'] = .ok { s with cur := [] } := by
  unfold buildStep
  rw [if_pos rfl, h]

lemma buildStep_sentinel_one (s : BuildSt) (a : Name) (h : s.cur = [a]) :
    buildStep s ['0'] = .error .onlyTwoSat := by
  unfold buildStep
  rw [if_pos rfl, h]

lemma buildStep_sentinel_pair (s : BuildSt) (a b : Name) (h : s.cur = [a, b]) :
    buildStep s ['0'] = .ok
      { G := (s.G.add_implication (get_negation a) b).add_implication
          (get_negation b) a,
        Ginv := (s.Ginv.add_implication b (get_negation a)).add_implication
          a (get_negation b),
        cur := [] } := by
  unfold buildStep
  rw [if_pos rfl, h]

lemma buildStep_sentinel_many (s : BuildSt) (a b c : Name) (r : List Name)
    (h : s.cur = a :: b :: c :: r) :
    buildStep s ['0'] = .error .tooManyLiterals := by
  unfold buildStep
  rw [if_pos rfl, h]

lemma buildStep_lit (s : BuildSt) (t : Name) (h : ¬ t = ['0']) :
    buildStep s t = .ok
      { G := s.G.add_literal (stripDD t),
        Ginv := s.Ginv.add_literal (stripDD t),
        cur := s.cur ++ [stripDD t] } := by
  unfold buildStep
  rw [if_neg h]

/-- Through the clause-reading loop, every completed clause is either empty
or a registered pair whose transpose implications are present (up to the
self-loop skip). -/
lemma processFrom_clauseEdges :
    ∀ (toks : List Name) (s s2 : BuildSt) (acc : List (List Name)),
      builtInv s → structOk s.Ginv →
      (∀ nm ∈ s.cur, noDD nm = true ∧ nm ∈ s.Ginv.names) →
      (∀ cl ∈ acc, clauseEdges s.Ginv cl) →
      processFrom s toks = .ok s2 →
      ∀ cl ∈ (toks.foldl clStep (acc, s.cur)).1, clauseEdges s2.Ginv cl := by
  intro toks
  induction toks with
  | nil =>
    intro s s2 acc hbi hso hcur hacc h
    simp only [processFrom, List.foldlM_nil] at h
    cases h
    simpa using hacc
  | cons t rest ih =>
    intro s s2 acc hbi hso hcur hacc h
    rw [processFrom_cons] at h
    cases hstep : buildStep s t with
    | error e =>
      rw [hstep] at h
      exact absurd h (by simp [Bind.bind, Except.bind])
    | ok s1 =>
      rw [hstep] at h
      have hbi1 : builtInv s1 := buildStep_builtInv s t s1 hbi hstep
      have hso1 : structOk s1.Ginv := buildStep_structOk s t s1 hso hstep
      rw [List.foldl_cons]
      by_cases ht : t = ['0']
      · subst ht
        rcases hsc : s.cur with _ | ⟨a, scur1⟩
        · rw [buildStep_sentinel_nil s hsc] at hstep
          cases hstep
          rw [show clStep (acc, []) ['0'] = (acc ++ [[]], []) from rfl]
          refine ih _ s2 (acc ++ [[]]) hbi1 hso1
            (fun nm hnm => absurd hnm (by simp)) ?_ h
          intro cl hcl2
          rcases List.mem_append.mp hcl2 with h1 | h1
          · exact hacc cl h1
          · exact Or.inl (by simpa using h1)
        · rcases scur1 with _ | ⟨b, scur2⟩
          · rw [buildStep_sentinel_one s a hsc] at hstep
            cases hstep
          · rcases scur2 with _ | ⟨c, scur3⟩
            · rw [buildStep_sentinel_pair s a b hsc] at hstep
              cases hstep
              rw [show clStep (acc, [a, b]) ['0'] = (acc ++ [[a, b]], [])
                from rfl]
              have hga : noDD a = true ∧ a ∈ s.Ginv.names :=
                hcur a (by rw [hsc]; simp)
              have hgb : noDD b = true ∧ b ∈ s.Ginv.names :=
                hcur b (by rw [hsc]; simp)
              have hgoodInv : goodNames s.Ginv :=
                goodNames_of_names_eq s.Ginv s.G hbi.2.2.1.symm hbi.1
              have hnega_mem : get_negation a ∈ s.Ginv.names :=
                (hgoodInv _ hga.2).2
              have hnegb_mem : get_negation b ∈ s.Ginv.names :=
                (hgoodInv _ hgb.2).2
              refine ih _ s2 (acc ++ [[a, b]]) hbi1 hso1
                (fun nm hnm => absurd hnm (by simp)) ?_ h
              intro cl hcl2
              rcases List.mem_append.mp hcl2 with h1 | h1
              · exact clauseEdges_add_implication _ _ _ _
                  (clauseEdges_add_implication _ _ _ _ (hacc cl h1))
              · have hcleq : cl = [a, b] := by simpa using h1
                rw [hcleq]
                refine Or.inr ⟨a, b, rfl, hga.1, hgb.1, ?_, ?_, ?_⟩
                · show a ∈ ((s.Ginv.add_implication b
                    (get_negation a)).add_implication a
                      (get_negation b)).names
                  rw [add_implication_names, add_implication_names]
                  exact hga.2
                · show b ∈ ((s.Ginv.add_implication b
                    (get_negation a)).add_implication a
                      (get_negation b)).names
                  rw [add_implication_names, add_implication_names]
                  exact hgb.2
                · intro hne
                  have hne2 : a ≠ get_negation b := by
                    intro hh
                    have hb2 : get_negation a = b := by
                      rw [hh, get_negation_involution b hgb.1]
                    exact hne hb2.symm
                  constructor
                  · refine hasEdge_add_implication _ a (get_negation b) _ _ ?_
                    exact hasEdge_add_implication_self s.Ginv b
                      (get_negation a) hgb.2 hnega_mem hne hso.1
                  · refine hasEdge_add_implication_self _ a (get_negation b)
                      ?_ ?_ hne2 ?_
                    · rw [add_implication_names]
                      exact hga.2
                    · rw [add_implication_names]
                      exact hnegb_mem
                    · exact (add_implication_structOk s.Ginv b
                        (get_negation a) hso).1
            · rw [buildStep_sentinel_many s a b c scur3 hsc] at hstep
              cases hstep
      · rw [buildStep_lit s t ht] at hstep
        cases hstep
        have hclv : clStep (acc, s.cur) t = (acc, s.cur ++ [stripDD t]) := by
          unfold clStep
          rw [if_neg ht]
        rw [hclv]
        refine ih _ s2 acc hbi1 hso1 ?_ ?_ h
        · intro nm hnm
          rcases List.mem_append.mp hnm with h1 | h1
          · obtain ⟨hn1, hn2⟩ := hcur nm h1
            refine ⟨hn1, ?_⟩
            show nm ∈ (s.Ginv.add_literal (stripDD t)).names
            rw [add_literal_names]
            by_cases hmm : stripDD (stripDD t) ∈ s.Ginv.names
            · rw [if_pos hmm]
              exact hn2
            · rw [if_neg hmm]
              exact List.mem_append_left _ hn2
          · have hnm2 : nm = stripDD t := by simpa using h1
            refine ⟨by rw [hnm2]; exact noDD_stripDD t, ?_⟩
            show nm ∈ (s.Ginv.add_literal (stripDD t)).names
            rw [add_literal_names, hnm2]
            by_cases hmm : stripDD (stripDD t) ∈ s.Ginv.names
            · rw [if_pos hmm]
              rw [stripDD_idem t] at hmm
              exact hmm
            · rw [if_neg hmm]
              refine List.mem_append_right _ ?_
              simp [stripDD_idem]
        · intro cl hcl2
          exact clauseEdges_add_literal _ _ _ (hacc cl hcl2)

/-- Every clause of a successfully built token stream is empty or a
registered pair with its transpose implications present. -/
lemma buildGraphs_clauseEdges (toks : List Name) (st : BuildSt)
    (h : buildGraphs toks = .ok st) :
    ∀ cl ∈ clausesOf toks, clauseEdges st.Ginv cl := by
  have hrun : processFrom ⟨.empty, .empty, []⟩ toks = .ok st := by
    rw [← buildGraphs_eq_processFrom]
    exact h
  have hes : structOk (Implication_Graph.empty) := by
    refine ⟨rfl, rfl, rfl, rfl, rfl, rfl, ?_, ?_, ?_, rfl⟩
    · intro i j hj
      rw [show (Implication_Graph.empty.adj.getD i []) = [] from by
        cases i <;> rfl] at hj
      exact absurd hj (by simp)
    · intro x hx
      exact absurd hx (by simp [Implication_Graph.empty])
    · intro x hx
      exact absurd hx (by simp [Implication_Graph.empty])
  have hbi : builtInv (⟨.empty, .empty, []⟩ : BuildSt) := by
    refine ⟨?_, ?_, rfl, ?_⟩
    · intro nm hnm
      exact absurd hnm (by simp [Implication_Graph.empty])
    · simp [Implication_Graph.empty]
    · intro b hb
      exact absurd hb (by simp [Implication_Graph.empty])
  have hmain := processFrom_clauseEdges toks ⟨.empty, .empty, []⟩ st []
    hbi hes (fun nm hnm => absurd hnm (by simp))
    (fun cl hcl => absurd hcl (by simp)) hrun
  rw [clausesOf_eq_foldl]
  exact hmain

lemma nodup_getD_inj (l : List Name) (h : l.Nodup) (i j : Nat)
    (hi : i < l.length) (hj : j < l.length)
    (he : l.getD i [] = l.getD j []) : i = j := by
  have h1 := idxOf_nodup (l.getD j []) l h i hi he
  have h2 := idxOf_nodup (l.getD j []) l h j hj rfl
  exact Option.some.inj (h1.symm.trans h2)

lemma getD_mem_of_lt (l : List Name) (i : Nat) (hi : i < l.length) :
    l.getD i [] ∈ l := by
  have hg : l.getD i [] = l[i] := by
    rw [List.getD_eq_getElem?_getD, List.getElem?_eq_getElem hi]
    rfl
  rw [hg]
  exact List.getElem_mem hi

/-- The head of a component finishes no later than any member, and
strictly after any member is discovered. -/
lemma chain_head_bounds (gi : Implication_Graph) (sccs : List (List Nat))
    (L : LoopInv (gi, sccs)) (c : List Nat) (hc : c ∈ sccs)
    (w : Nat) (hw : w ∈ c) (fw : Int) (hfw : gi.f.getD w none = some fw) :
    ∃ e fe, c.head? = some e ∧ gi.f.getD e none = some fe ∧ fe ≤ fw ∧
      ∀ dw, gi.d.getD w none = some dw → dw < fe := by
  obtain ⟨e, hhead, hbl, hmemiff⟩ := L.chains c hc
  have hP := (hmemiff w).mp hw
  by_cases hwe : w = e
  · subst hwe
    exact ⟨w, fw, hhead, hfw, le_refl fw,
      fun dw hdw => L.inv.df_lt w dw fw hdw hfw⟩
  · have hde_ne : gi.d.getD e none ≠ none := by
      obtain ⟨de, hde⟩ := L.inv.black_d e hbl
      rw [hde]
      simp
    obtain ⟨dw, de, hdw, hde, hltd, hff⟩ := PAnc_facts L.inv hP hwe hde_ne
    obtain ⟨fe, hfe, hfelt⟩ := hff fw hfw
    refine ⟨e, fe, hhead, hfe, le_of_lt hfelt, ?_⟩
    intro dw2 hdw2
    have hdd : dw2 = dw := Option.some.inj (hdw2.symm.trans hdw)
    rw [hdd]
    exact lt_trans hltd (L.inv.df_lt e de fe hde hfe)

/-- A member of an emitted component is a valid literal index. -/
lemma chain_member_lt (gi : Implication_Graph) (sccs : List (List Nat))
    (L : LoopInv (gi, sccs)) (c : List Nat) (hc : c ∈ sccs)
    (u : Nat) (hu : u ∈ c) : u < gi.names.length := by
  obtain ⟨e, hhead, hbl, hmemiff⟩ := L.chains c hc
  have hP := (hmemiff u).mp hu
  have hde_ne : gi.d.getD e none ≠ none := by
    obtain ⟨de, hde⟩ := L.inv.black_d e hbl
    rw [hde]
    simp
  have hdu := PAnc_d_some L.inv hP hde_ne
  rcases hg : gi.d.getD u none with _ | du
  · exact absurd hg hdu
  · have hl := lt_length_of_getD_some gi.d u du hg
    rw [L.inv.len_d] at hl
    exact hl

/-- For two complementary literal nodes, when no emitted component clashes
and both are covered, the reverse-order override binds their variable to
the polarity of the later-finishing node. -/
lemma override_decides (gi : Implication_Graph) (sccs : List (List Nat))
    (L : LoopInv (gi, sccs)) (hgood : goodNames gi)
    (hnoclash : ∀ c ∈ sccs, sccClash gi c = false)
    (u1 u2 : Nat)
    (hcov1 : ∃ c ∈ sccs, u1 ∈ c) (hcov2 : ∃ c ∈ sccs, u2 ∈ c)
    (hn : gi.names.getD u2 [] = get_negation (gi.names.getD u1 []))
    (f1 f2 : Int)
    (hf1 : gi.f.getD u1 none = some f1) (hf2 : gi.f.getD u2 none = some f2)
    (hlt : f2 < f1)
    (b0 : List (Name × Option Bool))
    (hb0 : dictGet b0 (varOf (gi.names.getD u1 [])) = some none) :
    dictGet (sccs.reverse.foldl (fun bb scc => overrideChain gi bb scc) b0)
        (varOf (gi.names.getD u1 [])) =
      some (some (!(startsDash (gi.names.getD u1 [])))) := by
  have hlen1 : u1 < gi.names.length := by
    have hl := lt_length_of_getD_some gi.f u1 f1 hf1
    rw [L.inv.len_f] at hl
    exact hl
  have hlen2 : u2 < gi.names.length := by
    have hl := lt_length_of_getD_some gi.f u2 f2 hf2
    rw [L.inv.len_f] at hl
    exact hl
  have hmem1 : gi.names.getD u1 [] ∈ gi.names := getD_mem_of_lt _ _ hlen1
  have hnd1 : noDD (gi.names.getD u1 []) = true := (hgood _ hmem1).1
  have hb1 : gi.color.getD u1 none = some Col.black := f_col L.inv hf1
  have hb2 : gi.color.getD u2 none = some Col.black := f_col L.inv hf2
  obtain ⟨d1, hd1⟩ := L.inv.black_d u1 hb1
  obtain ⟨d2, hd2⟩ := L.inv.black_d u2 hb2
  have hanc12 : ¬ PAnc gi u1 u2 := by
    intro hA
    obtain ⟨c, hc, hu2c⟩ := hcov2
    obtain ⟨e, hhead, hbl, hmemiff⟩ := L.chains c hc
    have hPu2e := (hmemiff u2).mp hu2c
    have hu1c := (hmemiff u1).mpr (PAnc_trans hA hPu2e)
    exact sccClash_no_pair gi c (hnoclash c hc) u1 u2 hu1c hu2c hn hnd1
  have hanc21 : ¬ PAnc gi u2 u1 := by
    intro hA
    obtain ⟨c, hc, hu1c⟩ := hcov1
    obtain ⟨e, hhead, hbl, hmemiff⟩ := L.chains c hc
    have hPu1e := (hmemiff u1).mp hu1c
    have hu2c := (hmemiff u2).mpr (PAnc_trans hA hPu1e)
    exact sccClash_no_pair gi c (hnoclash c hc) u1 u2 hu1c hu2c hn hnd1
  have hsep : f2 < d1 :=
    disjoint_of_incomp L.inv hd2 hd1 hf2 hf1 hanc21 hanc12 hlt
  have hid : ∀ u, u < gi.names.length →
      varOf (gi.names.getD u []) = varOf (gi.names.getD u1 []) →
      u = u1 ∨ u = u2 := by
    intro u hu hv
    have hmemu : gi.names.getD u [] ∈ gi.names := getD_mem_of_lt _ _ hu
    have hndu : noDD (gi.names.getD u []) = true := (hgood _ hmemu).1
    rcases varOf_eq_cases (gi.names.getD u1 []) (gi.names.getD u [])
        hnd1 hndu hv.symm with hcase | hcase
    · exact Or.inl (nodup_getD_inj gi.names L.ndnames u u1 hu hlen1 hcase)
    · refine Or.inr (nodup_getD_inj gi.names L.ndnames u u2 hu hlen2 ?_)
      rw [hcase, hn]
  obtain ⟨c1, hc1, hu1c1⟩ := hcov1
  have hPc1 : ∃ u ∈ c1, varOf (gi.names.getD u []) =
      varOf (gi.names.getD u1 []) := ⟨u1, hu1c1, rfl⟩
  have hex : ∃ c ∈ sccs.reverse, ∃ u ∈ c, varOf (gi.names.getD u []) =
      varOf (gi.names.getD u1 []) :=
    ⟨c1, List.mem_reverse.mpr hc1, hPc1⟩
  obtain ⟨sl1, c, sl2, hsplit, hmiss0, hPc⟩ := exists_first_split
    (fun cc => ∃ u ∈ cc, varOf (gi.names.getD u []) =
      varOf (gi.names.getD u1 [])) sccs.reverse hex
  have hcmem : c ∈ sccs := by
    refine List.mem_reverse.mp ?_
    rw [hsplit]
    simp
  have hu2notc : u2 ∉ c := by
    intro hu2c
    by_cases hu1c : u1 ∈ c
    · exact sccClash_no_pair gi c (hnoclash c hcmem) u1 u2 hu1c hu2c hn hnd1
    · have hc1r : c1 ∈ sccs.reverse := List.mem_reverse.mpr hc1
      rw [hsplit] at hc1r
      rcases List.mem_append.mp hc1r with hin1 | hin2
      · exact hmiss0 c1 hin1 hPc1
      · rcases List.mem_cons.mp hin2 with heq | hin3
        · rw [heq] at hu1c1
          exact hu1c hu1c1
        · have hrev : sccs.reverse.Pairwise (fun ca cb =>
              ∀ e1 e2, cb.head? = some e1 → ca.head? = some e2 →
                ∃ g1 g2, gi.f.getD e1 none = some g1 ∧
                  gi.f.getD e2 none = some g2 ∧ g1 < g2) :=
            List.pairwise_reverse.mpr L.ord
          rw [hsplit] at hrev
          have hcc1 := (List.pairwise_cons.mp (List.pairwise_append.mp hrev).2.1).1 c1 hin3
          obtain ⟨e, fe, hhead, hfe, hfele, hdlt⟩ :=
            chain_head_bounds gi sccs L c hcmem u2 hu2c f2 hf2
          obtain ⟨e1, fe1, hhead1, hfe1, hfele1, hdlt1⟩ :=
            chain_head_bounds gi sccs L c1 hc1 u1 hu1c1 f1 hf1
          obtain ⟨g1, g2, hg1, hg2, hglt⟩ := hcc1 e1 e hhead1 hhead
          have he1 : g1 = fe1 := Option.some.inj (hg1.symm.trans hfe1)
          have he2 : g2 = fe := Option.some.inj (hg2.symm.trans hfe)
          have hd1fe1 := hdlt1 d1 hd1
          rw [he1, he2] at hglt
          omega
  have hresult := overrideFold_first_value gi sl1 c sl2 b0
    (varOf (gi.names.getD u1 []))
    (!(startsDash (gi.names.getD u1 []))) hb0
    (fun c2 hc2 u hu hveq => hmiss0 c2 hc2 ⟨u, hu, hveq⟩) hPc ?_
  · rw [hsplit]
    exact hresult
  · intro u hu hveq
    have hulen : u < gi.names.length := chain_member_lt gi sccs L c hcmem u hu
    rcases hid u hulen hveq with h | h
    · rw [h]
    · rw [h] at hu
      exact absurd hu hu2notc

/-- Complementary literal nodes are never parent-chain comparable when no
emitted component clashes. -/
lemma compl_incomp (gi : Implication_Graph) (sccs : List (List Nat))
    (L : LoopInv (gi, sccs))
    (hnoclash : ∀ c ∈ sccs, sccClash gi c = false)
    (u u2 : Nat)
    (hcovu : ∃ c ∈ sccs, u ∈ c) (hcovu2 : ∃ c ∈ sccs, u2 ∈ c)
    (hn : gi.names.getD u2 [] = get_negation (gi.names.getD u []))
    (hnd1 : noDD (gi.names.getD u []) = true) :
    ¬ PAnc gi u u2 ∧ ¬ PAnc gi u2 u := by
  constructor
  · intro hA
    obtain ⟨c, hc, hu2c⟩ := hcovu2
    obtain ⟨e, hhead, hbl, hmemiff⟩ := L.chains c hc
    have hPu2e := (hmemiff u2).mp hu2c
    have huc := (hmemiff u).mpr (PAnc_trans hA hPu2e)
    exact sccClash_no_pair gi c (hnoclash c hc) u u2 huc hu2c hn hnd1
  · intro hA
    obtain ⟨c, hc, huc⟩ := hcovu
    obtain ⟨e, hhead, hbl, hmemiff⟩ := L.chains c hc
    have hPue := (hmemiff u).mp huc
    have hu2c := (hmemiff u2).mpr (PAnc_trans hA hPue)
    exact sccClash_no_pair gi c (hnoclash c hc) u u2 huc hu2c hn hnd1

/-- The printed truth value of a literal is decided by which of the two
complementary nodes the second pass finished later. -/
lemma evalLit_char (gi : Implication_Graph) (sccs : List (List Nat))
    (L : LoopInv (gi, sccs)) (hgood : goodNames gi)
    (hnoclash : ∀ c ∈ sccs, sccClash gi c = false)
    (hcov : ∀ i < gi.names.length, ∃ c ∈ sccs, i ∈ c)
    (b0 : List (Name × Option Bool))
    (hb0 : ∀ nm ∈ gi.names, dictGet b0 (varOf nm) = some none)
    (u u2 : Nat) (hu : u < gi.names.length) (hu2 : u2 < gi.names.length)
    (hn : gi.names.getD u2 [] = get_negation (gi.names.getD u []))
    (fu fu2 : Int)
    (hfu : gi.f.getD u none = some fu)
    (hfu2 : gi.f.getD u2 none = some fu2) :
    (evalLit (bindingOf (sccs.reverse.foldl
        (fun bb scc => overrideChain gi bb scc) b0))
      (gi.names.getD u []) = true ↔ fu2 < fu) := by
  have hmem : gi.names.getD u [] ∈ gi.names := getD_mem_of_lt _ _ hu
  have hmem2 : gi.names.getD u2 [] ∈ gi.names := getD_mem_of_lt _ _ hu2
  have hnd : noDD (gi.names.getD u []) = true := (hgood _ hmem).1
  have hnd2 : noDD (gi.names.getD u2 []) = true := (hgood _ hmem2).1
  have hnmne : gi.names.getD u2 [] ≠ gi.names.getD u [] := by
    rw [hn]
    exact get_negation_ne _ hnd
  have hune : u ≠ u2 := by
    intro hh
    rw [hh] at hnmne
    exact hnmne rfl
  have hfne : fu ≠ fu2 := by
    intro hh
    exact hune (L.inv.f_inj u u2 fu hfu (by rw [← hh] at hfu2; exact hfu2))
  have hn2 : gi.names.getD u [] = get_negation (gi.names.getD u2 []) := by
    rw [hn, get_negation_involution _ hnd]
  have hcovu : ∃ c ∈ sccs, u ∈ c := hcov u hu
  have hcovu2 : ∃ c ∈ sccs, u2 ∈ c := hcov u2 hu2
  have hvar : varOf (gi.names.getD u2 []) = varOf (gi.names.getD u []) := by
    rw [hn]
    exact varOf_get_negation _ hnd
  have hsd2 : startsDash (gi.names.getD u2 []) =
      !(startsDash (gi.names.getD u [])) := by
    rw [hn]
    exact startsDash_negation _ hnd
  rcases lt_or_gt_of_ne hfne with hcase | hcase
  · have hdec := override_decides gi sccs L hgood hnoclash u2 u hcovu2 hcovu
      hn2 fu2 fu hfu2 hfu hcase b0 (hb0 _ hmem2)
    rw [hvar, hsd2] at hdec
    constructor
    · intro hev
      exfalso
      unfold evalLit at hev
      by_cases hd : startsDash (gi.names.getD u []) = true
      · rw [if_pos hd] at hev
        have hvd : varOf (gi.names.getD u []) =
            get_negation (gi.names.getD u []) := by
          unfold varOf
          rw [if_pos hd]
        rw [← hvd] at hev
        unfold bindingOf at hev
        rw [hdec, hd] at hev
        simp [truthy] at hev
      · rw [if_neg hd] at hev
        have hvd : varOf (gi.names.getD u []) = gi.names.getD u [] := by
          unfold varOf
          rw [if_neg hd]
        rw [← hvd] at hev
        unfold bindingOf at hev
        rw [Bool.not_eq_true] at hd
        rw [hdec, hd] at hev
        simp [truthy] at hev
    · intro hlt2
      exact absurd hlt2 (by omega)
  · have hdec := override_decides gi sccs L hgood hnoclash u u2 hcovu hcovu2
      hn fu fu2 hfu hfu2 hcase b0 (hb0 _ hmem)
    constructor
    · intro _
      exact hcase
    · intro _
      unfold evalLit
      by_cases hd : startsDash (gi.names.getD u []) = true
      · rw [if_pos hd]
        have hvd : varOf (gi.names.getD u []) =
            get_negation (gi.names.getD u []) := by
          unfold varOf
          rw [if_pos hd]
        rw [← hvd]
        unfold bindingOf
        rw [hdec, hd]
        rfl
      · rw [if_neg hd]
        have hvd : varOf (gi.names.getD u []) = gi.names.getD u [] := by
          unfold varOf
          rw [if_neg hd]
        rw [← hvd]
        unfold bindingOf
        rw [Bool.not_eq_true] at hd
        rw [hdec, hd]
        rfl

/-- C1 (amended): when the solver reports SATISFIABLE, the produced
binding makes at least one literal true in every clause of the original
input that has at least one literal; clauses with no literal are accepted
as no-ops yet cannot be satisfied. -/
theorem c1_sat_binding_nonempty_clauses (toks : List Name)
    (b : List (Name × Option Bool)) (vars : List Name)
    (hrun : runSolver toks = .ok (Output.sat b vars)) :
    ∀ cl ∈ clausesOf toks, cl ≠ [] →
      clauseSat (bindingOf b) cl = true := by
  rcases hbuild : buildGraphs toks with e | st
  · unfold runSolver at hrun
    rw [hbuild] at hrun
    exact absurd hrun (by simp [Except.map])
  · have hsolve : solve st.G st.Ginv = Output.sat b vars := by
      unfold runSolver at hrun
      rw [hbuild] at hrun
      simpa [Except.map] using hrun
    obtain ⟨hgoodG, hnodG, hnamesGGi, hchk⟩ := buildGraphs_builtInv toks st hbuild
    have hsoGi : structOk st.Ginv := buildGraphs_structOk toks st hbuild
    have hnodGi : st.Ginv.names.Nodup := hnamesGGi ▸ hnodG
    have hedges := buildGraphs_clauseEdges toks st hbuild
    obtain ⟨L, hGInames, hblack⟩ :=
      pipeline_final st.G st.Ginv hnamesGGi hnodGi hchk hsoGi
    have hadj : (pipeline st.G st.Ginv).2.1.adj = st.Ginv.adj :=
      pipeline_adj st.G st.Ginv
    have hG1names : (pipeline st.G st.Ginv).1.names = st.G.names :=
      (pipeline_names st.G st.Ginv).1
    unfold solve at hsolve
    dsimp only at hsolve
    by_cases hany : ((pipeline st.G st.Ginv).2.2.2).any
        (fun scc => sccClash (pipeline st.G st.Ginv).2.1 scc)
    · rw [if_pos hany] at hsolve
      simp at hsolve
    · rw [if_neg hany] at hsolve
      have hb : b = ((pipeline st.G st.Ginv).2.2.2).reverse.foldl
          (fun bb scc => overrideChain (pipeline st.G st.Ginv).2.1 bb scc)
          (collectVars (pipeline st.G st.Ginv).1).1 := by
        cases hsolve
        rfl
      have hnoclash : ∀ c ∈ (pipeline st.G st.Ginv).2.2.2,
          sccClash (pipeline st.G st.Ginv).2.1 c = false := by
        intro c hc
        cases hcl : sccClash (pipeline st.G st.Ginv).2.1 c
        · rfl
        · exact absurd (List.any_eq_true.mpr ⟨c, hc, hcl⟩) hany
      have hgoodGI : goodNames (pipeline st.G st.Ginv).2.1 :=
        goodNames_of_names_eq _ st.Ginv hGInames
          (goodNames_of_names_eq st.Ginv st.G hnamesGGi.symm hgoodG)
      have hlen : (pipeline st.G st.Ginv).2.1.names.length =
          st.Ginv.names.length := by
        rw [hGInames]
      have hcovN : ∀ i < (pipeline st.G st.Ginv).2.1.names.length,
          ∃ c ∈ (pipeline st.G st.Ginv).2.2.2, i ∈ c := by
        intro i hi
        exact pipeline_covers st.G st.Ginv hnamesGGi hnodGi
          (fun i2 => all_false_getD st.Ginv.checked hchk i2) i (hlen ▸ hi)
      have hblN : ∀ i < (pipeline st.G st.Ginv).2.1.names.length,
          (pipeline st.G st.Ginv).2.1.color.getD i none = some Col.black := by
        intro i hi
        exact hblack i (hlen ▸ hi)
      have hcvf := collectVars_facts (pipeline st.G st.Ginv).1
      have hb0 : ∀ nm ∈ (pipeline st.G st.Ginv).2.1.names,
          dictGet (collectVars (pipeline st.G st.Ginv).1).1 (varOf nm) =
            some none := by
        intro nm hnm
        rw [hGInames] at hnm
        have hnm2 : nm ∈ (pipeline st.G st.Ginv).1.names := by
          rw [hG1names, hnamesGGi]
          exact hnm
        have hv : varOf nm ∈ (collectVars (pipeline st.G st.Ginv).1).2 := by
          unfold varOf
          exact hcvf.2.2 nm hnm2
        exact hcvf.1 _ hv
      intro cl hcl hclne
      rcases hedges cl hcl with hemp | ⟨a, b2, hcleq, hnda, hndb2, hmema,
        hmemb2, hedge⟩
      · exact absurd hemp hclne
      subst hcleq
      by_cases htaut : b2 = get_negation a
      · subst htaut
        unfold clauseSat
        simp only [List.any_cons, List.any_nil, Bool.or_false]
        unfold evalLit
        have hsd := startsDash_negation a hnda
        by_cases hd : startsDash a = true
        · rw [if_pos hd, hsd, hd]
          rw [if_neg (show ¬ ((!true) = true) by simp)]
          cases hbv : bindingOf b (get_negation a) <;> rfl
        · rw [if_neg hd]
          rw [Bool.not_eq_true] at hd
          rw [hsd, hd]
          rw [if_pos (show (!false) = true from rfl)]
          rw [get_negation_involution a hnda]
          cases hbv : bindingOf b a <;> rfl
      · obtain ⟨hE1, hE2⟩ := hedge htaut
        have hEdge1 : hasEdge (pipeline st.G st.Ginv).2.1 b2
            (get_negation a) := by
          obtain ⟨i1, i2, hx1, hx2, hm⟩ := hE1
          exact ⟨i1, i2, by rw [hGInames]; exact hx1,
            by rw [hGInames]; exact hx2, by rw [hadj]; exact hm⟩
        have hEdge2 : hasEdge (pipeline st.G st.Ginv).2.1 a
            (get_negation b2) := by
          obtain ⟨i1, i2, hx1, hx2, hm⟩ := hE2
          exact ⟨i1, i2, by rw [hGInames]; exact hx1,
            by rw [hGInames]; exact hx2, by rw [hadj]; exact hm⟩
        have hmemaN : a ∈ (pipeline st.G st.Ginv).2.1.names := by
          rw [hGInames]
          exact hmema
        have hmemb2N : b2 ∈ (pipeline st.G st.Ginv).2.1.names := by
          rw [hGInames]
          exact hmemb2
        have hmemnaN : get_negation a ∈ (pipeline st.G st.Ginv).2.1.names :=
          (hgoodGI a hmemaN).2
        have hmemnbN : get_negation b2 ∈ (pipeline st.G st.Ginv).2.1.names :=
          (hgoodGI b2 hmemb2N).2
        obtain ⟨ia, hialt, hianm⟩ := mem_getD a _ hmemaN
        obtain ⟨ina, hinalt, hinanm⟩ := mem_getD (get_negation a) _ hmemnaN
        obtain ⟨ib, hiblt, hibnm⟩ := mem_getD b2 _ hmemb2N
        obtain ⟨inb, hinblt, hinbnm⟩ := mem_getD (get_negation b2) _ hmemnbN
        have hidxb : Implication_Graph.idxOf b2
            (pipeline st.G st.Ginv).2.1.names = some ib :=
          idxOf_nodup b2 _ L.ndnames ib hiblt hibnm
        have hidxna : Implication_Graph.idxOf (get_negation a)
            (pipeline st.G st.Ginv).2.1.names = some ina :=
          idxOf_nodup (get_negation a) _ L.ndnames ina hinalt hinanm
        have hidxa : Implication_Graph.idxOf a
            (pipeline st.G st.Ginv).2.1.names = some ia :=
          idxOf_nodup a _ L.ndnames ia hialt hianm
        have hidxnb : Implication_Graph.idxOf (get_negation b2)
            (pipeline st.G st.Ginv).2.1.names = some inb :=
          idxOf_nodup (get_negation b2) _ L.ndnames inb hinblt hinbnm
        have hm1 : ina ∈ (pipeline st.G st.Ginv).2.1.adj.getD ib [] := by
          obtain ⟨i1, i2, hx1, hx2, hm⟩ := hEdge1
          have h1 : i1 = ib := Option.some.inj (hx1.symm.trans hidxb)
          have h2 : i2 = ina := Option.some.inj (hx2.symm.trans hidxna)
          rw [h1, h2] at hm
          exact hm
        have hm2 : inb ∈ (pipeline st.G st.Ginv).2.1.adj.getD ia [] := by
          obtain ⟨i1, i2, hx1, hx2, hm⟩ := hEdge2
          have h1 : i1 = ia := Option.some.inj (hx1.symm.trans hidxa)
          have h2 : i2 = inb := Option.some.inj (hx2.symm.trans hidxnb)
          rw [h1, h2] at hm
          exact hm
        obtain ⟨da, hda⟩ := L.inv.black_d ia (hblN ia hialt)
        obtain ⟨fa, hfa⟩ := L.inv.black_f ia (hblN ia hialt)
        obtain ⟨dna, hdna⟩ := L.inv.black_d ina (hblN ina hinalt)
        obtain ⟨fna, hfna⟩ := L.inv.black_f ina (hblN ina hinalt)
        obtain ⟨db, hdb⟩ := L.inv.black_d ib (hblN ib hiblt)
        obtain ⟨fb, hfb⟩ := L.inv.black_f ib (hblN ib hiblt)
        obtain ⟨dnb, hdnb⟩ := L.inv.black_d inb (hblN inb hinblt)
        obtain ⟨fnb, hfnb⟩ := L.inv.black_f inb (hblN inb hinblt)
        have hdfa := L.inv.df_lt ia da fa hda hfa
        have hdfna := L.inv.df_lt ina dna fna hdna hfna
        have hdfb := L.inv.df_lt ib db fb hdb hfb
        have hdfnb := L.inv.df_lt inb dnb fnb hdnb hfnb
        have hnpair1 : (pipeline st.G st.Ginv).2.1.names.getD ina [] =
            get_negation ((pipeline st.G st.Ginv).2.1.names.getD ia []) := by
          rw [hinanm, hianm]
        have hnpair2 : (pipeline st.G st.Ginv).2.1.names.getD inb [] =
            get_negation ((pipeline st.G st.Ginv).2.1.names.getD ib []) := by
          rw [hinbnm, hibnm]
        by_contra hns
        rw [Bool.not_eq_true] at hns
        have hor : (evalLit (bindingOf b) a ||
            (evalLit (bindingOf b) b2 || false)) = false := hns
        have hora := Bool.or_eq_false_iff.mp hor
        have horb := Bool.or_eq_false_iff.mp hora.2
        have heva : evalLit (bindingOf b) a = false := hora.1
        have hevb : evalLit (bindingOf b) b2 = false := horb.1
        rw [hb] at heva hevb
        have hchar1 := evalLit_char (pipeline st.G st.Ginv).2.1
          (pipeline st.G st.Ginv).2.2.2 L hgoodGI hnoclash hcovN
          (collectVars (pipeline st.G st.Ginv).1).1 hb0 ia ina hialt hinalt
          hnpair1 fa fna hfa hfna
        have hchar2 := evalLit_char (pipeline st.G st.Ginv).2.1
          (pipeline st.G st.Ginv).2.2.2 L hgoodGI hnoclash hcovN
          (collectVars (pipeline st.G st.Ginv).1).1 hb0 ib inb hiblt hinblt
          hnpair2 fb fnb hfb hfnb
        rw [hianm] at hchar1
        rw [hibnm] at hchar2
        have hnota : ¬ (fna < fa) := by
          intro hlt2
          have := hchar1.mpr hlt2
          rw [heva] at this
          cases this
        have hnotb : ¬ (fnb < fb) := by
          intro hlt2
          have := hchar2.mpr hlt2
          rw [hevb] at this
          cases this
        have hne_a : ia ≠ ina := by
          intro hh
          rw [hh, hinanm] at hianm
          exact get_negation_ne a hnda hianm
        have hne_b : ib ≠ inb := by
          intro hh
          rw [hh, hinbnm] at hibnm
          exact get_negation_ne b2 hndb2 hibnm
        have hfane : fa ≠ fna := by
          intro hh
          exact hne_a (L.inv.f_inj ia ina fa hfa (by rw [hh]; exact hfna))
        have hfbne : fb ≠ fnb := by
          intro hh
          exact hne_b (L.inv.f_inj ib inb fb hfb (by rw [hh]; exact hfnb))
        have hlta : fa < fna := by omega
        have hltb : fb < fnb := by omega
        have hic1 := compl_incomp (pipeline st.G st.Ginv).2.1
          (pipeline st.G st.Ginv).2.2.2 L hnoclash ia ina
          (hcovN ia hialt) (hcovN ina hinalt) hnpair1
          (by rw [hianm]; exact hnda)
        have hic2 := compl_incomp (pipeline st.G st.Ginv).2.1
          (pipeline st.G st.Ginv).2.2.2 L hnoclash ib inb
          (hcovN ib hiblt) (hcovN inb hinblt) hnpair2
          (by rw [hibnm]; exact hndb2)
        have hsep1 : fa < dna :=
          disjoint_of_incomp L.inv hda hdna hfa hfna hic1.1 hic1.2 hlta
        have hsep2 : fb < dnb :=
          disjoint_of_incomp L.inv hdb hdnb hfb hfnb hic2.1 hic2.2 hltb
        have hne_in1 : ina ≠ ib := by
          intro hh
          rw [hh, hibnm] at hinanm
          exact htaut hinanm
        have hne_in2 : inb ≠ ia := by
          intro hh
          rw [hh, hianm] at hinbnm
          have : get_negation a = b2 := by
            rw [hinbnm, get_negation_involution b2 hndb2]
          exact htaut this.symm
        rcases L.inv.edge_cls ib (hblN ib hiblt) ina hm1 with
          ⟨fj, fi, hfj, hfi, hltE1⟩ | hPA1
        · have hj : fj = fna := Option.some.inj (hfj.symm.trans hfna)
          have hi : fi = fb := Option.some.inj (hfi.symm.trans hfb)
          rw [hj, hi] at hltE1
          rcases L.inv.edge_cls ia (hblN ia hialt) inb hm2 with
            ⟨fj2, fi2, hfj2, hfi2, hltE2⟩ | hPA2
          · have hj2 : fj2 = fnb := Option.some.inj (hfj2.symm.trans hfnb)
            have hi2 : fi2 = fa := Option.some.inj (hfi2.symm.trans hfa)
            rw [hj2, hi2] at hltE2
            omega
          · have hdb_ne : (pipeline st.G st.Ginv).2.1.d.getD ia none ≠
                none := by
              rw [hda]
              simp
            obtain ⟨x, y, hx, hy, hdlt2, hff2⟩ :=
              PAnc_facts L.inv hPA2 hne_in2 hdb_ne
            have hx2 : x = dnb := Option.some.inj (hx.symm.trans hdnb)
            have hy2 : y = da := Option.some.inj (hy.symm.trans hda)
            rw [hx2, hy2] at hdlt2
            omega
        · have hdb_ne : (pipeline st.G st.Ginv).2.1.d.getD ib none ≠
              none := by
            rw [hdb]
            simp
          obtain ⟨x, y, hx, hy, hdlt1, hff1⟩ :=
            PAnc_facts L.inv hPA1 hne_in1 hdb_ne
          have hx1 : x = dna := Option.some.inj (hx.symm.trans hdna)
          have hy1 : y = db := Option.some.inj (hy.symm.trans hdb)
          rw [hx1, hy1] at hdlt1
          rcases L.inv.edge_cls ia (hblN ia hialt) inb hm2 with
            ⟨fj2, fi2, hfj2, hfi2, hltE2⟩ | hPA2
          · have hj2 : fj2 = fnb := Option.some.inj (hfj2.symm.trans hfnb)
            have hi2 : fi2 = fa := Option.some.inj (hfi2.symm.trans hfa)
            rw [hj2, hi2] at hltE2
            omega
          · have hda_ne : (pipeline st.G st.Ginv).2.1.d.getD ia none ≠
                none := by
              rw [hda]
              simp
            obtain ⟨x2, y2, hx2h, hy2h, hdlt2, hff2⟩ :=
              PAnc_facts L.inv hPA2 hne_in2 hda_ne
            have hx2 : x2 = dnb := Option.some.inj (hx2h.symm.trans hdnb)
            have hy2 : y2 = da := Option.some.inj (hy2h.symm.trans hda)
            rw [hx2, hy2] at hdlt2
            omega

/-- A clause closed by the sentinel with zero literals is accepted, the
run reports SATISFIABLE, yet that clause has no true literal under the
produced (empty) binding. -/
theorem c1_empty_clause_unsatisfied :
    runSolver [['0']] = .ok (Output.sat [] []) ∧
    [] ∈ clausesOf [['0']] ∧
    clauseSat (bindingOf []) [] = false :=
  ⟨rfl, by decide, rfl⟩

theorem c1_sat_binding_nonempty_clauses_witness :
    runSolver [['1'], ['2'], ['0']] =
      .ok (Output.sat [(['1'], some false), (['2'], some true)]
        [['1'], ['2']]) ∧
    (∀ cl ∈ clausesOf [['1'], ['2'], ['0']], cl ≠ [] →
      clauseSat (bindingOf [(['1'], some false), (['2'], some true)])
        cl = true) :=
  ⟨rfl, c1_sat_binding_nonempty_clauses [['1'], ['2'], ['0']]
    [(['1'], some false), (['2'], some true)] [['1'], ['2']] rfl⟩

end TwoSat
